import Mathlib

set_option maxRecDepth 4000

/-
Verification of the structured-output recovery parser (src/fact-extraction/lib/llm-client.js,
generateJSON) and of the gift re-ranking pipeline (rerankGifts / generateGiftRationale in the
LLM service module).  All text is modelled as List Char.  JSON numbers are restricted to
integers (the generative pipeline only ever exchanges integer indices and the counterexamples
use integer numerals); object members are kept as an ordered list of key/value pairs.
-/

mutual
/-- Model of a JSON value, mutually with element lists and member lists so that structural
recursion and induction are available. -/
inductive JVal where
  | null : JVal
  | bool : Bool → JVal
  | num : Int → JVal
  | str : List Char → JVal
  | arr : JList → JVal
  | obj : JMembers → JVal
  deriving DecidableEq
inductive JList where
  | nil : JList
  | cons : JVal → JList → JList
  deriving DecidableEq
inductive JMembers where
  | nil : JMembers
  | cons : List Char → JVal → JMembers → JMembers
  deriving DecidableEq
end

/-- Left brace character (written via its code so that brace characters never appear textually). -/
def lbr : Char := '\x7b'

/-- Right brace character. -/
def rbr : Char := '\x7d'

/-- Backtick character. -/
def btk : Char := '\x60'

/-- Decimal digit character for a value below ten. -/
def digitChar (n : Nat) : Char := Char.ofNat (48 + n)

/-- Fueled decimal digit expansion of a natural number, most significant digit first. -/
def natDigitsF : Nat → Nat → List Char
  | 0, _ => []
  | f + 1, n => if n < 10 then [digitChar n] else natDigitsF f (n / 10) ++ [digitChar (n % 10)]

/-- Decimal digit list of a natural number (the fuel n + 1 always suffices). -/
def natDigits (n : Nat) : List Char := natDigitsF (n + 1) n

/-- Decimal representation of an integer, as JSON.stringify prints integral numbers. -/
def intRepr (i : Int) : List Char :=
  if i < 0 then '-' :: natDigits i.natAbs else natDigits i.toNat

/-- Lower-case hexadecimal digit character for a value below sixteen. -/
def hexDigit (n : Nat) : Char :=
  if n < 10 then Char.ofNat (48 + n) else Char.ofNat (87 + n)

/-- Escape of a single character inside a JSON string literal, exactly the escapes emitted by
JSON.stringify: quote, backslash, the named control escapes, and u00XX for the remaining
control characters; every other character is emitted raw. -/
def escapeChar (c : Char) : List Char :=
  if c = '"' then ['\\', '"']
  else if c = '\\' then ['\\', '\\']
  else if c = '\x08' then ['\\', 'b']
  else if c = '\x0c' then ['\\', 'f']
  else if c = '\n' then ['\\', 'n']
  else if c = '\r' then ['\\', 'r']
  else if c = '\t' then ['\\', 't']
  else if c.toNat < 32 then ['\\', 'u', '0', '0', hexDigit (c.toNat / 16), hexDigit (c.toNat % 16)]
  else [c]

/-- Escaped body of a JSON string literal. -/
def escStr : List Char → List Char
  | [] => []
  | c :: s => escapeChar c ++ escStr s

/-- Serialization of a JSON string literal including the surrounding quotes. -/
def serStr (s : List Char) : List Char := '"' :: escStr s ++ ['"']

mutual
/-- Compact serialization of a JSON value, as produced by JSON.stringify with no spacing
argument: no whitespace, elements and members separated by single commas. -/
def serVal : JVal → List Char
  | .null => ['n', 'u', 'l', 'l']
  | .num i => intRepr i
  | .str s => serStr s
  | .bool true => ['t', 'r', 'u', 'e']
  | .bool false => ['f', 'a', 'l', 's', 'e']
  | .arr .nil => ['[', ']']
  | .arr (.cons v tl) => '[' :: serList (.cons v tl) ++ [']']
  | .obj .nil => [lbr, rbr]
  | .obj (.cons k v tl) => lbr :: serMembers (.cons k v tl) ++ [rbr]
def serList : JList → List Char
  | .nil => []
  | .cons v .nil => serVal v
  | .cons v (.cons w tl) => serVal v ++ ',' :: serList (.cons w tl)
def serMembers : JMembers → List Char
  | .nil => []
  | .cons k v .nil => serStr k ++ ':' :: serVal v
  | .cons k v (.cons k2 w tl) => serStr k ++ ':' :: serVal v ++ ',' :: serMembers (.cons k2 w tl)
end

/-- JSON whitespace accepted between tokens by JSON.parse. -/
def isWsChar (c : Char) : Bool := c = ' ' ∨ c = '\t' ∨ c = '\n' ∨ c = '\r'

/-- Whitespace class of the JavaScript regular-expression escape backslash-s: the ECMAScript
WhiteSpace and LineTerminator code points — tab, line feed, vertical tab, form feed, carriage
return, space, no-break space, ogham space mark, the en-quad..hair-space range, line and
paragraph separators, narrow no-break space, medium mathematical space, ideographic space and
the byte-order mark. -/
def isJsWs (c : Char) : Bool :=
  c.toNat = 32 ∨ c.toNat = 9 ∨ c.toNat = 10 ∨ c.toNat = 11 ∨ c.toNat = 12 ∨ c.toNat = 13 ∨
  c.toNat = 160 ∨ c.toNat = 5760 ∨ (8192 ≤ c.toNat ∧ c.toNat ≤ 8202) ∨ c.toNat = 8232 ∨
  c.toNat = 8233 ∨ c.toNat = 8239 ∨ c.toNat = 8287 ∨ c.toNat = 12288 ∨ c.toNat = 65279

/-- The whitespace-class characters that JSON.stringify emits raw into a string literal: the
members at code point 32 and above (those below 32 are emitted as escape sequences, which the
normalization regex does not match). -/
def isRawWs (c : Char) : Bool := isJsWs c && !(c.toNat < 32)

/-- Skip JSON whitespace. -/
def skipWs : List Char → List Char
  | [] => []
  | c :: r => if isWsChar c then skipWs r else c :: r

/-- Value of a hexadecimal digit character. -/
def hexVal (c : Char) : Option Nat :=
  if '0' ≤ c ∧ c ≤ '9' then some (c.toNat - 48)
  else if 'a' ≤ c ∧ c ≤ 'f' then some (c.toNat - 87)
  else if 'A' ≤ c ∧ c ≤ 'F' then some (c.toNat - 65 + 10)
  else none

/-- Decoded character of a single-letter JSON escape sequence. -/
def namedEsc (e : Char) : Option Char :=
  if e = '"' then some '"'
  else if e = '\\' then some '\\'
  else if e = '/' then some '/'
  else if e = 'b' then some '\x08'
  else if e = 'f' then some '\x0c'
  else if e = 'n' then some '\n'
  else if e = 'r' then some '\r'
  else if e = 't' then some '\t'
  else none

/-- Body of a JSON string literal: consumes up to the closing quote, handling the escape
sequences accepted by JSON.parse; raw control characters and lone-surrogate escapes are
rejected. Returns the decoded content and the remaining input. -/
def parseStrBody : List Char → Option (List Char × List Char)
  | [] => none
  | c :: r =>
    if c = '"' then some ([], r)
    else if c = '\\' then
      match r with
      | 'u' :: h1 :: h2 :: h3 :: h4 :: r2 =>
        (match hexVal h1, hexVal h2, hexVal h3, hexVal h4 with
        | some a, some b, some c, some d =>
          let n := ((a * 16 + b) * 16 + c) * 16 + d
          if h : n < 0xd800 ∨ (0xdfff < n ∧ n < 0x110000) then
            (parseStrBody r2).map (fun p => (Char.ofNatAux n (by
              rcases h with h | h
              · exact Or.inl h
              · exact Or.inr ⟨h.1, h.2⟩) :: p.1, p.2))
          else none
        | _, _, _, _ => none)
      | e :: r2 =>
        (match namedEsc e with
        | some d => (parseStrBody r2).map (fun p => (d :: p.1, p.2))
        | none => none)
      | [] => none
    else if c.toNat < 32 then none
    else (parseStrBody r).map (fun p => (c :: p.1, p.2))

/-- Numeric value of a digit list, most significant first. -/
def digitsVal (l : List Char) : Nat := l.foldl (fun a c => a * 10 + (c.toNat - 48)) 0

/-- Unsigned decimal numeral at the head of the input: a maximal digit run with no redundant
leading zero, returning its value and the rest. -/
def coreNum (t : List Char) : Option (Nat × List Char) :=
  let ds := t.takeWhile Char.isDigit
  let r := t.dropWhile Char.isDigit
  if ds = [] then none
  else if 1 < ds.length ∧ ds.headD '0' = '0' then none
  else some (digitsVal ds, r)

/-- Integer numeral at the head of the input: optional minus sign, then decimal digits with no
redundant leading zero.  Fractional and exponent syntax is outside the integer-only model. -/
def parseNum (s : List Char) : Option (Int × List Char) :=
  match s with
  | [] => none
  | c :: t =>
    if c = '-' then (coreNum t).map (fun p => (-(p.1 : Int), p.2))
    else (coreNum (c :: t)).map (fun p => ((p.1 : Int), p.2))

mutual
/-- Fueled recursive-descent JSON value reader modelling JSON.parse (values only; the driver
jparse adds the surrounding-whitespace and full-consumption requirements). -/
def parseVal : Nat → List Char → Option (JVal × List Char)
  | 0, _ => none
  | _ + 1, [] => none
  | f + 1, c :: r =>
    if c = 'n' then
      match r with
      | 'u' :: 'l' :: 'l' :: r2 => some (.null, r2)
      | _ => none
    else if c = 't' then
      match r with
      | 'r' :: 'u' :: 'e' :: r2 => some (.bool true, r2)
      | _ => none
    else if c = 'f' then
      match r with
      | 'a' :: 'l' :: 's' :: 'e' :: r2 => some (.bool false, r2)
      | _ => none
    else if c = '"' then
      (parseStrBody r).map (fun p => (.str p.1, p.2))
    else if c = '[' then
      match skipWs r with
      | d :: r2 => if d = ']' then some (.arr .nil, r2)
                   else (parseElems f (d :: r2)).map (fun p => (.arr p.1, p.2))
      | [] => none
    else if c = lbr then
      match skipWs r with
      | d :: r2 => if d = rbr then some (.obj .nil, r2)
                   else (parseMembers f (d :: r2)).map (fun p => (.obj p.1, p.2))
      | [] => none
    else
      (parseNum (c :: r)).map (fun p => (.num p.1, p.2))
/-- Comma-separated JSON array elements up to and including the closing bracket. -/
def parseElems : Nat → List Char → Option (JList × List Char)
  | 0, _ => none
  | f + 1, s =>
    (parseVal f s).bind (fun p =>
      match skipWs p.2 with
      | d :: r2 =>
        if d = ',' then (parseElems f (skipWs r2)).map (fun q => (.cons p.1 q.1, q.2))
        else if d = ']' then some (.cons p.1 .nil, r2)
        else none
      | [] => none)
/-- Comma-separated JSON object members up to and including the closing brace. -/
def parseMembers : Nat → List Char → Option (JMembers × List Char)
  | 0, _ => none
  | f + 1, s =>
    match s with
    | c :: r =>
      if c = '"' then
        (parseStrBody r).bind (fun kp =>
          match skipWs kp.2 with
          | d :: r3 =>
            if d = ':' then
              (parseVal f (skipWs r3)).bind (fun vp =>
                match skipWs vp.2 with
                | e :: r5 =>
                  if e = ',' then
                    (parseMembers f (skipWs r5)).map (fun q => (.cons kp.1 vp.1 q.1, q.2))
                  else if e = rbr then some (.cons kp.1 vp.1 .nil, r5)
                  else none
                | [] => none)
            else none
          | [] => none)
      else none
    | [] => none
end

/-- Model of JSON.parse: parse one value surrounded by optional whitespace and require the
whole input to be consumed.  The fuel length + 1 suffices for every parsable input. -/
def jparse (s : List Char) : Option JVal :=
  match parseVal (s.length + 1) (skipWs s) with
  | some (v, r) => if skipWs r = [] then some v else none
  | none => none


/-- Model of JSON.parse: parse one value surrounded by optional whitespace and require the
whole input to be consumed.  The fuel length + 1 suffices for every parsable input. -/
theorem toNat_ofNatAux (n : Nat) (h : n.isValidChar) : (Char.ofNatAux n h).toNat = n := rfl

/-- Character equality is equality of code points. -/
theorem char_eq_iff_toNat {a b : Char} : a = b ↔ a.toNat = b.toNat := by
  constructor
  · intro h; rw [h]
  · intro h
    have h2 : Char.ofNat a.toNat = Char.ofNat b.toNat := by rw [h]
    rwa [Char.ofNat_toNat, Char.ofNat_toNat] at h2

/-- Character order in terms of code points. -/
theorem char_le_iff_toNat {a b : Char} : a ≤ b ↔ a.toNat ≤ b.toNat := by
  constructor <;> (intro h; exact h)

/-- Unsigned 32-bit order in terms of the underlying natural number. -/
theorem uint32_le_toNat {a b : UInt32} : a ≤ b ↔ a.toNat ≤ b.toNat := by
  constructor
  · intro h; exact h
  · intro h; exact h

/-- A character is a decimal digit exactly when its code point lies between 48 and 57. -/
theorem isDigit_iff {c : Char} : c.isDigit = true ↔ 48 ≤ c.toNat ∧ c.toNat ≤ 57 := by
  simp only [Char.isDigit, Bool.and_eq_true, decide_eq_true_iff, ge_iff_le]
  constructor
  · intro ⟨h1, h2⟩
    exact ⟨uint32_le_toNat.mp h1, uint32_le_toNat.mp h2⟩
  · intro ⟨h1, h2⟩
    exact ⟨uint32_le_toNat.mpr h1, uint32_le_toNat.mpr h2⟩

theorem digitChar_toNat {n : Nat} (h : n < 10) : (digitChar n).toNat = 48 + n := by
  have hv : Nat.isValidChar (48 + n) := Or.inl (by omega)
  rw [digitChar, Char.ofNat, dif_pos hv, toNat_ofNatAux]

theorem digitChar_isDigit {n : Nat} (h : n < 10) : (digitChar n).isDigit = true := by
  rw [isDigit_iff, digitChar_toNat h]
  omega

/-- The digit expansion is independent of the fuel as long as the fuel exceeds the number. -/
theorem natDigitsF_eq_natDigitsF (n : Nat) : ∀ f g, n < f → n < g →
    natDigitsF f n = natDigitsF g n := by
  induction n using Nat.strong_induction_on with
  | _ n ih =>
    intro f g hf hg
    match f, g with
    | f + 1, g + 1 =>
      by_cases h10 : n < 10
      · simp [natDigitsF, h10]
      · have hn : 0 < n := by omega
        have hd : n / 10 < n := Nat.div_lt_self hn (by omega)
        simp only [natDigitsF, if_neg h10]
        rw [ih (n / 10) hd f g (by omega) (by omega)]

theorem natDigits_lt10 {n : Nat} (h : n < 10) : natDigits n = [digitChar n] := by
  simp [natDigits, natDigitsF, h]

theorem natDigits_ge10 {n : Nat} (h : 10 ≤ n) :
    natDigits n = natDigits (n / 10) ++ [digitChar (n % 10)] := by
  have hd : n / 10 < n := Nat.div_lt_self (by omega) (by omega)
  rw [natDigits, natDigits, natDigitsF, if_neg (by omega)]
  rw [natDigitsF_eq_natDigitsF (n / 10) n (n / 10 + 1) (by omega) (by omega)]

theorem natDigits_ne_nil (n : Nat) : natDigits n ≠ [] := by
  by_cases h : n < 10
  · rw [natDigits_lt10 h]; simp
  · rw [natDigits_ge10 (by omega)]; simp

theorem natDigits_all_digits (n : Nat) : ∀ c ∈ natDigits n, c.isDigit = true := by
  induction n using Nat.strong_induction_on with
  | _ n ih =>
    by_cases h : n < 10
    · rw [natDigits_lt10 h]
      intro c hc
      simp at hc
      subst hc
      exact digitChar_isDigit h
    · rw [natDigits_ge10 (by omega)]
      intro c hc
      rcases List.mem_append.mp hc with h1 | h2
      · exact ih (n / 10) (Nat.div_lt_self (by omega) (by omega)) c h1
      · simp at h2
        subst h2
        exact digitChar_isDigit (Nat.mod_lt n (by omega))

theorem natDigits_head_pos {n : Nat} (h : 0 < n) :
    ∀ c t, natDigits n = c :: t → c ≠ '0' := by
  revert h
  induction n using Nat.strong_induction_on with
  | _ n ih =>
    intro hpos c t heq hc
    by_cases h10 : n < 10
    · rw [natDigits_lt10 h10] at heq
      injection heq with heq1 _
      have h2 : (digitChar n).toNat = 48 + n := digitChar_toNat h10
      rw [heq1, hc] at h2
      have h3 : ('0').toNat = 48 := rfl
      omega
    · rw [natDigits_ge10 (by omega)] at heq
      have hpos2 : 0 < n / 10 := Nat.div_pos (by omega) (by omega)
      obtain ⟨c2, t2, h2⟩ : ∃ c2 t2, natDigits (n / 10) = c2 :: t2 := by
        cases hh : natDigits (n / 10) with
        | nil => exact absurd hh (natDigits_ne_nil _)
        | cons a b => exact ⟨a, b, rfl⟩
      rw [h2, List.cons_append] at heq
      injection heq with e1 _
      exact ih (n / 10) (Nat.div_lt_self (by omega) (by omega)) hpos2 c2 t2 h2
        (by rw [e1, hc])

theorem digitsVal_append (l : List Char) (c : Char) :
    digitsVal (l ++ [c]) = digitsVal l * 10 + (c.toNat - 48) := by
  simp [digitsVal, List.foldl_append]

theorem digitsVal_natDigits (n : Nat) : digitsVal (natDigits n) = n := by
  induction n using Nat.strong_induction_on with
  | _ n ih =>
    by_cases h : n < 10
    · rw [natDigits_lt10 h]
      simp only [digitsVal, List.foldl_cons, List.foldl_nil]
      rw [digitChar_toNat h]
      omega
    · rw [natDigits_ge10 (by omega), digitsVal_append,
        ih (n / 10) (Nat.div_lt_self (by omega) (by omega)),
        digitChar_toNat (Nat.mod_lt n (by omega))]
      omega

/-- Splitting takeWhile over an append whose left part satisfies the predicate and whose right
part starts with a character that does not. -/
theorem takeWhile_append_all {p : Char → Bool} {a rest : List Char}
    (ha : ∀ c ∈ a, p c = true) (hr : ∀ c t, rest = c :: t → p c = false) :
    (a ++ rest).takeWhile p = a ∧ (a ++ rest).dropWhile p = rest := by
  induction a with
  | nil =>
    simp only [List.nil_append]
    cases rest with
    | nil => simp
    | cons c t =>
      have := hr c t rfl
      simp [List.takeWhile, List.dropWhile, this]
  | cons c a ih =>
    have hc : p c = true := ha c (by simp)
    have ih2 := ih (fun d hd => ha d (by simp [hd]))
    simp [List.takeWhile, List.dropWhile, hc, ih2.1, ih2.2]

/-- Reading an unsigned numeral off a digit serialization followed by a non-digit. -/
theorem coreNum_ser (m : Nat) (rest : List Char)
    (hrest : ∀ c t, rest = c :: t → c.isDigit = false) :
    coreNum (natDigits m ++ rest) = some (m, rest) := by
  have core_eq := takeWhile_append_all (natDigits_all_digits m) hrest
  have lz : ¬(1 < (natDigits m).length ∧ (natDigits m).headD '0' = '0') := by
    intro hm
    by_cases h10 : m < 10
    · rw [natDigits_lt10 h10] at hm
      simp at hm
    · have hpos : 0 < m := by omega
      obtain ⟨c, t, h2⟩ : ∃ c t, natDigits m = c :: t := by
        cases hh : natDigits m with
        | nil => exact absurd hh (natDigits_ne_nil _)
        | cons a b => exact ⟨a, b, rfl⟩
      rw [h2] at hm
      simp at hm
      exact natDigits_head_pos hpos c t h2 hm.2
  rw [coreNum]
  simp only [core_eq.1, core_eq.2]
  rw [if_neg (by simp [natDigits_ne_nil]), if_neg lz, digitsVal_natDigits]

/-- The integer serialization parses back to the same integer whenever the following text does
not begin with another digit. -/
theorem parseNum_ser (i : Int) (rest : List Char)
    (hrest : ∀ c t, rest = c :: t → c.isDigit = false) :
    parseNum (intRepr i ++ rest) = some (i, rest) := by
  by_cases hneg : i < 0
  · rw [intRepr, if_pos hneg]
    show parseNum ('-' :: (natDigits i.natAbs ++ rest)) = some (i, rest)
    rw [parseNum]
    rw [if_pos rfl, coreNum_ser i.natAbs rest hrest]
    simp only [Option.map_some']
    have : -(i.natAbs : Int) = i := by omega
    rw [this]
  · rw [intRepr, if_neg hneg]
    obtain ⟨c, t, h2⟩ : ∃ c t, natDigits i.toNat = c :: t := by
      cases hh : natDigits i.toNat with
      | nil => exact absurd hh (natDigits_ne_nil _)
      | cons a b => exact ⟨a, b, rfl⟩
    have hcd : c.isDigit = true := natDigits_all_digits _ c (by rw [h2]; simp)
    have hcm : c ≠ '-' := by
      intro he
      have h3 := isDigit_iff.mp hcd
      rw [he] at h3
      have h4 : ('-').toNat = 45 := rfl
      omega
    rw [h2]
    show parseNum (c :: (t ++ rest)) = some (i, rest)
    rw [parseNum, if_neg hcm]
    have hsplit : (c :: (t ++ rest)) = (c :: t) ++ rest := by simp
    rw [hsplit, ← h2, coreNum_ser i.toNat rest hrest]
    simp only [Option.map_some']
    have : (i.toNat : Int) = i := by omega
    rw [this]

theorem hexVal_hexDigit {d : Nat} (h : d < 16) : hexVal (hexDigit d) = some d := by
  have h0 : ('0').toNat = 48 := rfl
  have h9 : ('9').toNat = 57 := rfl
  have ha : ('a').toNat = 97 := rfl
  have hf : ('f').toNat = 102 := rfl
  by_cases h10 : d < 10
  · have hv : Nat.isValidChar (48 + d) := Or.inl (by omega)
    have ht : (hexDigit d).toNat = 48 + d := by
      rw [hexDigit, if_pos h10, Char.ofNat, dif_pos hv, toNat_ofNatAux]
    rw [hexVal, if_pos ⟨char_le_iff_toNat.mpr (by omega), char_le_iff_toNat.mpr (by omega)⟩]
    simp only [Option.some.injEq]
    omega
  · have hv : Nat.isValidChar (87 + d) := Or.inl (by omega)
    have ht : (hexDigit d).toNat = 87 + d := by
      rw [hexDigit, if_neg h10, Char.ofNat, dif_pos hv, toNat_ofNatAux]
    rw [hexVal, if_neg (by
        intro hc
        have h2 := char_le_iff_toNat.mp hc.2
        omega),
      if_pos ⟨char_le_iff_toNat.mpr (by omega), char_le_iff_toNat.mpr (by omega)⟩]
    simp only [Option.some.injEq]
    omega

/-- Round trip for a serialized string body: decoding the escaped content followed by the
closing quote recovers the original character list. -/
theorem parseStrBody_ser : ∀ (s rest : List Char),
    parseStrBody (escStr s ++ '"' :: rest) = some (s, rest)
  | [], rest => by
    show parseStrBody ('"' :: rest) = some ([], rest)
    rw [parseStrBody.eq_def]
    simp
  | c :: s, rest => by
    have ih := parseStrBody_ser s rest
    rw [escStr, List.append_assoc]
    by_cases h1 : c = '"'
    · rw [h1, show escapeChar '"' = ['\\', '"'] from rfl]
      simp [parseStrBody, namedEsc, ih]
    · by_cases h2 : c = '\\'
      · rw [h2, show escapeChar '\\' = ['\\', '\\'] from rfl]
        simp [parseStrBody, namedEsc, ih]
      · by_cases h3 : c = '\x08'
        · rw [h3, show escapeChar '\x08' = ['\\', 'b'] from rfl]
          simp [parseStrBody, namedEsc, ih]
        · by_cases h4 : c = '\x0c'
          · rw [h4, show escapeChar '\x0c' = ['\\', 'f'] from rfl]
            simp [parseStrBody, namedEsc, ih]
          · by_cases h5 : c = '\n'
            · rw [h5, show escapeChar '\n' = ['\\', 'n'] from rfl]
              simp [parseStrBody, namedEsc, ih]
            · by_cases h6 : c = '\r'
              · rw [h6, show escapeChar '\r' = ['\\', 'r'] from rfl]
                simp [parseStrBody, namedEsc, ih]
              · by_cases h7 : c = '\t'
                · rw [h7, show escapeChar '\t' = ['\\', 't'] from rfl]
                  simp [parseStrBody, namedEsc, ih]
                · by_cases h8 : c.toNat < 32
                  · rw [show escapeChar c = ['\\', 'u', '0', '0', hexDigit (c.toNat / 16),
                      hexDigit (c.toNat % 16)] from by
                        rw [escapeChar, if_neg h1, if_neg h2, if_neg h3, if_neg h4, if_neg h5,
                          if_neg h6, if_neg h7, if_pos h8]]
                    show parseStrBody ('\\' :: 'u' :: '0' :: '0' :: hexDigit (c.toNat / 16) ::
                      hexDigit (c.toNat % 16) :: (escStr s ++ '"' :: rest)) = _
                    rw [parseStrBody.eq_def]
                    simp only [reduceIte]
                    have e1 : hexVal '0' = some 0 := by decide
                    have e3 : hexVal (hexDigit (c.toNat / 16)) = some (c.toNat / 16) :=
                      hexVal_hexDigit (by omega)
                    have e4 : hexVal (hexDigit (c.toNat % 16)) = some (c.toNat % 16) :=
                      hexVal_hexDigit (by omega)
                    rw [e1, e3, e4]
                    have hn : ((0 * 16 + 0) * 16 + c.toNat / 16) * 16 + c.toNat % 16 = c.toNat := by
                      omega
                    simp only [hn]
                    rw [dif_pos (Or.inl (by omega))]
                    rw [ih]
                    simp only [Option.map_some']
                    have hc : Char.ofNatAux c.toNat (Or.inl (by omega)) = c := by
                      rw [char_eq_iff_toNat, toNat_ofNatAux]
                    rw [hc]
                    rw [if_neg (show ¬('\\' = '"') from by decide)]
                  · rw [show escapeChar c = [c] from by
                      rw [escapeChar, if_neg h1, if_neg h2, if_neg h3, if_neg h4, if_neg h5,
                        if_neg h6, if_neg h7, if_neg h8]]
                    show parseStrBody (c :: (escStr s ++ '"' :: rest)) = _
                    rw [parseStrBody.eq_def]
                    simp [h1, h2, h8, ih]

/-- Skipping whitespace leaves a list headed by a non-whitespace character unchanged. -/
theorem skipWs_not_ws {c : Char} (h : isWsChar c = false) (r : List Char) :
    skipWs (c :: r) = c :: r := by simp [skipWs, h]

/-- Text that follows the first element inside a serialized array. -/
def serListTail : JList → List Char
  | .nil => []
  | .cons v tl => ',' :: serList (.cons v tl)

theorem serList_cons (v : JVal) (tl : JList) :
    serList (.cons v tl) = serVal v ++ serListTail tl := by
  cases tl <;> simp [serList, serListTail]

/-- Text that follows the first member inside a serialized object. -/
def serMembersTail : JMembers → List Char
  | .nil => []
  | .cons k v tl => ',' :: serMembers (.cons k v tl)

theorem serMembers_cons (k : List Char) (v : JVal) (tl : JMembers) :
    serMembers (.cons k v tl) = serStr k ++ ':' :: (serVal v ++ serMembersTail tl) := by
  cases tl <;> simp [serMembers, serMembersTail]

/-- Characters that can begin the serialization of a JSON value. -/
def isValStart (c : Char) : Prop :=
  c = 'n' ∨ c = 't' ∨ c = 'f' ∨ c = '"' ∨ c = '[' ∨ c = lbr ∨ c = '-' ∨ c.isDigit = true

theorem valStart_not_ws {c : Char} (h : isValStart c) : isWsChar c = false := by
  rcases h with rfl | rfl | rfl | rfl | rfl | rfl | rfl | hd
  · decide
  · decide
  · decide
  · decide
  · decide
  · decide
  · decide
  · have h2 := isDigit_iff.mp hd
    have w1 : (' ').toNat = 32 := rfl
    have w2 : ('\t').toNat = 9 := rfl
    have w3 : ('\n').toNat = 10 := rfl
    have w4 : ('\r').toNat = 13 := rfl
    simp only [isWsChar, decide_eq_false_iff_not]
    push_neg
    refine ⟨?_, ?_, ?_, ?_⟩ <;> (intro he; rw [char_eq_iff_toNat] at he; omega)

theorem valStart_ne_rbracket {c : Char} (h : isValStart c) : c ≠ ']' := by
  rcases h with rfl | rfl | rfl | rfl | rfl | rfl | rfl | hd
  · decide
  · decide
  · decide
  · decide
  · decide
  · decide
  · decide
  · have h2 := isDigit_iff.mp hd
    intro he
    rw [char_eq_iff_toNat] at he
    have h3 : (']').toNat = 93 := rfl
    omega

theorem valStart_ne_rbrace {c : Char} (h : isValStart c) : c ≠ rbr := by
  rcases h with rfl | rfl | rfl | rfl | rfl | rfl | rfl | hd
  · decide
  · decide
  · decide
  · decide
  · decide
  · decide
  · decide
  · have h2 := isDigit_iff.mp hd
    intro he
    rw [char_eq_iff_toNat] at he
    have h3 : rbr.toNat = 125 := rfl
    omega

theorem intRepr_cons (i : Int) : ∃ c t, intRepr i = c :: t ∧ (c = '-' ∨ c.isDigit = true) := by
  by_cases hneg : i < 0
  · exact ⟨'-', natDigits i.natAbs, by rw [intRepr, if_pos hneg], Or.inl rfl⟩
  · obtain ⟨c, t, h2⟩ : ∃ c t, natDigits i.toNat = c :: t := by
      cases hh : natDigits i.toNat with
      | nil => exact absurd hh (natDigits_ne_nil _)
      | cons a b => exact ⟨a, b, rfl⟩
    exact ⟨c, t, by rw [intRepr, if_neg hneg, h2],
      Or.inr (natDigits_all_digits _ c (by rw [h2]; simp))⟩

/-- The first character of any value serialization, with its classification. -/
theorem serVal_cons : ∀ v : JVal, ∃ c t, serVal v = c :: t ∧ isValStart c
  | .null => ⟨'n', _, rfl, Or.inl rfl⟩
  | .bool true => ⟨'t', _, rfl, Or.inr (Or.inl rfl)⟩
  | .bool false => ⟨'f', _, rfl, Or.inr (Or.inr (Or.inl rfl))⟩
  | .num i => by
    obtain ⟨c, t, h1, h2⟩ := intRepr_cons i
    refine ⟨c, t, h1, ?_⟩
    rcases h2 with h2 | h2
    · exact Or.inr (Or.inr (Or.inr (Or.inr (Or.inr (Or.inr (Or.inl h2))))))
    · exact Or.inr (Or.inr (Or.inr (Or.inr (Or.inr (Or.inr (Or.inr h2))))))
  | .str s => ⟨'"', _, rfl, Or.inr (Or.inr (Or.inr (Or.inl rfl)))⟩
  | .arr .nil => ⟨'[', _, rfl, Or.inr (Or.inr (Or.inr (Or.inr (Or.inl rfl))))⟩
  | .arr (.cons v tl) => ⟨'[', _, rfl, Or.inr (Or.inr (Or.inr (Or.inr (Or.inl rfl))))⟩
  | .obj .nil => ⟨lbr, _, rfl, Or.inr (Or.inr (Or.inr (Or.inr (Or.inr (Or.inl rfl)))))⟩
  | .obj (.cons k v tl) => ⟨lbr, _, rfl, Or.inr (Or.inr (Or.inr (Or.inr (Or.inr (Or.inl rfl)))))⟩

mutual
/-- Fuel requirement of the parser on a serialized value. -/
def cntV : JVal → Nat
  | .null => 1
  | .bool _ => 1
  | .num _ => 1
  | .str _ => 1
  | .arr .nil => 1
  | .arr (.cons v tl) => 1 + cntL (.cons v tl)
  | .obj .nil => 1
  | .obj (.cons k v tl) => 1 + cntM (.cons k v tl)
/-- Fuel requirement of the element loop on a serialized element list. -/
def cntL : JList → Nat
  | .nil => 1
  | .cons v tl => 1 + max (cntV v) (cntL tl)
/-- Fuel requirement of the member loop on a serialized member list. -/
def cntM : JMembers → Nat
  | .nil => 1
  | .cons _ v tl => 1 + max (cntV v) (cntM tl)
end

theorem cntV_pos (v : JVal) : 1 ≤ cntV v := by
  cases v with
  | null => simp [cntV]
  | bool b => simp [cntV]
  | num i => simp [cntV]
  | str s => simp [cntV]
  | arr l => cases l <;> simp [cntV]
  | obj m => cases m <;> simp [cntV]

/-- A character that starts an integer serialization differs from any character that is neither
the minus sign nor a digit. -/
theorem numStart_ne {c : Char} (h : c = '-' ∨ c.isDigit = true) (d : Char)
    (hd : d.toNat ≠ 45 ∧ (d.toNat < 48 ∨ 57 < d.toNat)) : c ≠ d := by
  intro he
  rcases h with h | h
  · rw [he] at h
    have h2 : d.toNat = 45 := by rw [h]; rfl
    exact hd.1 h2
  · rw [he] at h
    have h2 := isDigit_iff.mp h
    rcases hd.2 with h3 | h3 <;> omega

set_option maxHeartbeats 1000000 in
mutual
/-- Round trip of the parser over the serializer: reading the serialization of a value followed
by text that does not begin with a digit returns the value and that text, for any fuel at least
the requirement of the value. -/
theorem parseVal_ser : ∀ (v : JVal) (f : Nat) (rest : List Char), cntV v ≤ f →
    (∀ c t, rest = c :: t → c.isDigit = false) →
    parseVal f (serVal v ++ rest) = some (v, rest)
  | .null, f, rest, hf, _ => by
    obtain ⟨g, rfl⟩ : ∃ g, f = g + 1 := ⟨f - 1, by have := cntV_pos JVal.null; omega⟩
    show parseVal (g + 1) ('n' :: 'u' :: 'l' :: 'l' :: rest) = some (.null, rest)
    rw [parseVal.eq_def]
    simp
  | .bool true, f, rest, hf, _ => by
    obtain ⟨g, rfl⟩ : ∃ g, f = g + 1 := ⟨f - 1, by have := cntV_pos (JVal.bool true); omega⟩
    show parseVal (g + 1) ('t' :: 'r' :: 'u' :: 'e' :: rest) = some (.bool true, rest)
    rw [parseVal.eq_def]
    simp
  | .bool false, f, rest, hf, _ => by
    obtain ⟨g, rfl⟩ : ∃ g, f = g + 1 := ⟨f - 1, by have := cntV_pos (JVal.bool false); omega⟩
    show parseVal (g + 1) ('f' :: 'a' :: 'l' :: 's' :: 'e' :: rest) = some (.bool false, rest)
    rw [parseVal.eq_def]
    simp
  | .num i, f, rest, hf, hrest => by
    obtain ⟨g, rfl⟩ : ∃ g, f = g + 1 := ⟨f - 1, by have := cntV_pos (JVal.num i); omega⟩
    obtain ⟨c, t, hct, hstart⟩ := intRepr_cons i
    have h1 : c ≠ 'n' := numStart_ne hstart 'n' (by decide)
    have h2 : c ≠ 't' := numStart_ne hstart 't' (by decide)
    have h3 : c ≠ 'f' := numStart_ne hstart 'f' (by decide)
    have h4 : c ≠ '"' := numStart_ne hstart '"' (by decide)
    have h5 : c ≠ '[' := numStart_ne hstart '[' (by decide)
    have h6 : c ≠ lbr := numStart_ne hstart lbr (by decide)
    show parseVal (g + 1) (intRepr i ++ rest) = some (.num i, rest)
    rw [hct, List.cons_append, parseVal.eq_def]
    simp only [h1, h2, h3, h4, h5, h6, if_false, reduceIte]
    rw [show c :: (t ++ rest) = intRepr i ++ rest from by rw [← List.cons_append, ← hct]]
    rw [parseNum_ser i rest hrest]
    rfl
  | .str s, f, rest, hf, _ => by
    obtain ⟨g, rfl⟩ : ∃ g, f = g + 1 := ⟨f - 1, by have := cntV_pos (JVal.str s); omega⟩
    show parseVal (g + 1) (serStr s ++ rest) = some (.str s, rest)
    have hshape : serStr s ++ rest = '"' :: (escStr s ++ '"' :: rest) := by
      simp [serStr]
    rw [hshape, parseVal.eq_def]
    simp [parseStrBody_ser s rest]
  | .arr .nil, f, rest, hf, _ => by
    obtain ⟨g, rfl⟩ : ∃ g, f = g + 1 := ⟨f - 1, by have := cntV_pos (JVal.arr .nil); omega⟩
    show parseVal (g + 1) ('[' :: ']' :: rest) = some (.arr .nil, rest)
    rw [parseVal.eq_def]
    simp [skipWs, isWsChar]
  | .arr (.cons v tl), f, rest, hf, hrest => by
    obtain ⟨g, rfl⟩ : ∃ g, f = g + 1 :=
      ⟨f - 1, by have := cntV_pos (JVal.arr (.cons v tl)); omega⟩
    have hcl : cntL (.cons v tl) ≤ g := by
      have he : cntV (.arr (.cons v tl)) = 1 + cntL (.cons v tl) := rfl
      omega
    show parseVal (g + 1) (('[' :: serList (.cons v tl) ++ [']']) ++ rest)
      = some (.arr (.cons v tl), rest)
    have hshape : ('[' :: serList (.cons v tl) ++ [']']) ++ rest
        = '[' :: (serList (.cons v tl) ++ ']' :: rest) := by simp
    rw [hshape, parseVal.eq_def]
    simp only []
    rw [if_neg (show ¬(('[' : Char) = 'n') from by decide),
      if_neg (show ¬(('[' : Char) = 't') from by decide),
      if_neg (show ¬(('[' : Char) = 'f') from by decide),
      if_neg (show ¬(('[' : Char) = '"') from by decide)]
    rw [if_pos trivial]
    obtain ⟨c0, t0, hv0, hstart0⟩ := serVal_cons v
    have hws0 : isWsChar c0 = false := valStart_not_ws hstart0
    have hne0 : c0 ≠ ']' := valStart_ne_rbracket hstart0
    have hcons : serList (.cons v tl) ++ ']' :: rest
        = c0 :: (t0 ++ (serListTail tl ++ ']' :: rest)) := by
      rw [serList_cons, hv0]
      simp
    rw [hcons, skipWs_not_ws hws0]
    simp only []
    rw [if_neg hne0, ← hcons, parseElems_ser (.cons v tl) (by simp) g rest hcl]
    rfl
  | .obj .nil, f, rest, hf, _ => by
    obtain ⟨g, rfl⟩ : ∃ g, f = g + 1 := ⟨f - 1, by have := cntV_pos (JVal.obj .nil); omega⟩
    show parseVal (g + 1) (lbr :: rbr :: rest) = some (.obj .nil, rest)
    rw [parseVal.eq_def]
    simp [skipWs, isWsChar, lbr, rbr]
  | .obj (.cons k v tl), f, rest, hf, hrest => by
    obtain ⟨g, rfl⟩ : ∃ g, f = g + 1 :=
      ⟨f - 1, by have := cntV_pos (JVal.obj (.cons k v tl)); omega⟩
    have hcm : cntM (.cons k v tl) ≤ g := by
      have he : cntV (.obj (.cons k v tl)) = 1 + cntM (.cons k v tl) := rfl
      omega
    show parseVal (g + 1) ((lbr :: serMembers (.cons k v tl) ++ [rbr]) ++ rest)
      = some (.obj (.cons k v tl), rest)
    have hshape : (lbr :: serMembers (.cons k v tl) ++ [rbr]) ++ rest
        = lbr :: (serMembers (.cons k v tl) ++ rbr :: rest) := by simp
    rw [hshape, parseVal.eq_def]
    simp only []
    rw [if_neg (show ¬(lbr = 'n') from by decide),
      if_neg (show ¬(lbr = 't') from by decide),
      if_neg (show ¬(lbr = 'f') from by decide),
      if_neg (show ¬(lbr = '"') from by decide),
      if_neg (show ¬(lbr = '[') from by decide)]
    rw [if_pos trivial]
    have hcons : serMembers (.cons k v tl) ++ rbr :: rest
        = '"' :: ((escStr k ++ '"' :: (':' :: (serVal v ++ serMembersTail tl)))
          ++ rbr :: rest) := by
      rw [serMembers_cons]
      simp [serStr]
    rw [hcons]
    have hq : isWsChar '"' = false := by decide
    rw [skipWs_not_ws hq]
    simp only []
    rw [if_neg (show ¬(('"' : Char) = rbr) from by decide)]
    rw [← hcons, parseMembers_ser (.cons k v tl) (by simp) g rest hcm]
    rfl
/-- Round trip of the element loop on a nonempty serialized element list followed by the
closing bracket. -/
theorem parseElems_ser : ∀ (l : JList), l ≠ .nil → ∀ (f : Nat) (rest : List Char),
    cntL l ≤ f → parseElems f (serList l ++ ']' :: rest) = some (l, rest)
  | .nil, hne, _, _, _ => absurd rfl hne
  | .cons v tl, _, f, rest, hf => by
    obtain ⟨g, rfl⟩ : ∃ g, f = g + 1 := ⟨f - 1, by
      have he : cntL (.cons v tl) = 1 + max (cntV v) (cntL tl) := rfl
      omega⟩
    have hcv : cntV v ≤ g := by
      have he : cntL (.cons v tl) = 1 + max (cntV v) (cntL tl) := rfl
      omega
    have hcl2 : cntL tl ≤ g := by
      have he : cntL (.cons v tl) = 1 + max (cntV v) (cntL tl) := rfl
      omega
    rw [serList_cons, List.append_assoc, parseElems.eq_def]
    simp only []
    rw [parseVal_ser v g (serListTail tl ++ ']' :: rest) hcv (by
      cases tl with
      | nil =>
        intro c t h
        simp only [serListTail, List.nil_append] at h
        injection h with h1 _
        rw [← h1]
        decide
      | cons w tl2 =>
        intro c t h
        simp only [serListTail, List.cons_append] at h
        injection h with h1 _
        rw [← h1]
        decide)]
    cases tl with
    | nil =>
      rw [Option.some_bind]
      rw [show serListTail JList.nil ++ ']' :: rest = ']' :: rest from by simp [serListTail]]
      rw [skipWs_not_ws (show isWsChar ']' = false from by decide)]
      simp only []
      simp
    | cons w tl2 =>
      rw [Option.some_bind]
      rw [show serListTail (.cons w tl2) ++ ']' :: rest
          = ',' :: (serList (.cons w tl2) ++ ']' :: rest) from by simp [serListTail]]
      rw [skipWs_not_ws (show isWsChar ',' = false from by decide)]
      simp only []
      rw [if_pos trivial]
      obtain ⟨c0, t0, hv0, hstart0⟩ := serVal_cons w
      have hws0 : isWsChar c0 = false := valStart_not_ws hstart0
      have hskip : skipWs (serList (.cons w tl2) ++ ']' :: rest)
          = serList (.cons w tl2) ++ ']' :: rest := by
        rw [serList_cons, hv0]
        rw [show (c0 :: t0) ++ serListTail tl2 ++ ']' :: rest
            = c0 :: (t0 ++ (serListTail tl2 ++ ']' :: rest)) from by simp]
        rw [skipWs_not_ws hws0]
      rw [hskip, parseElems_ser (.cons w tl2) (by simp) g rest hcl2]
      rfl
/-- Round trip of the member loop on a nonempty serialized member list followed by the closing
brace. -/
theorem parseMembers_ser : ∀ (m : JMembers), m ≠ .nil → ∀ (f : Nat) (rest : List Char),
    cntM m ≤ f → parseMembers f (serMembers m ++ rbr :: rest) = some (m, rest)
  | .nil, hne, _, _, _ => absurd rfl hne
  | .cons k v tl, _, f, rest, hf => by
    obtain ⟨g, rfl⟩ : ∃ g, f = g + 1 := ⟨f - 1, by
      have he : cntM (.cons k v tl) = 1 + max (cntV v) (cntM tl) := rfl
      omega⟩
    have hcv : cntV v ≤ g := by
      have he : cntM (.cons k v tl) = 1 + max (cntV v) (cntM tl) := rfl
      omega
    have hcm2 : cntM tl ≤ g := by
      have he : cntM (.cons k v tl) = 1 + max (cntV v) (cntM tl) := rfl
      omega
    have hcons : serMembers (.cons k v tl) ++ rbr :: rest
        = '"' :: (escStr k ++ '"' :: (':' :: (serVal v ++ (serMembersTail tl
          ++ rbr :: rest)))) := by
      rw [serMembers_cons]
      simp [serStr]
    rw [hcons, parseMembers.eq_def]
    simp only [reduceIte]
    rw [parseStrBody_ser k (':' :: (serVal v ++ (serMembersTail tl ++ rbr :: rest)))]
    rw [Option.some_bind]
    have hcolon : isWsChar ':' = false := by decide
    rw [skipWs_not_ws hcolon]
    simp only [reduceIte]
    obtain ⟨c0, t0, hv0, hstart0⟩ := serVal_cons v
    have hws0 : isWsChar c0 = false := valStart_not_ws hstart0
    have hskip : skipWs (serVal v ++ (serMembersTail tl ++ rbr :: rest))
        = serVal v ++ (serMembersTail tl ++ rbr :: rest) := by
      rw [hv0, List.cons_append, skipWs_not_ws hws0]
    rw [hskip]
    rw [parseVal_ser v g (serMembersTail tl ++ rbr :: rest) hcv (by
      cases tl with
      | nil =>
        intro c t h
        simp only [serMembersTail, List.nil_append] at h
        injection h with h1 _
        rw [← h1]
        decide
      | cons k2 w tl2 =>
        intro c t h
        simp only [serMembersTail, List.cons_append] at h
        injection h with h1 _
        rw [← h1]
        decide)]
    rw [Option.some_bind]
    cases tl with
    | nil =>
      have hrb : isWsChar rbr = false := by decide
      rw [show serMembersTail JMembers.nil ++ rbr :: rest = rbr :: rest from by
        simp [serMembersTail]]
      rw [skipWs_not_ws hrb]
      simp only []
      rw [if_neg (show ¬(rbr = ',') from by decide)]
      rw [if_pos trivial]
    | cons k2 w tl2 =>
      have hcm : isWsChar ',' = false := by decide
      rw [show serMembersTail (.cons k2 w tl2) ++ rbr :: rest
          = ',' :: (serMembers (.cons k2 w tl2) ++ rbr :: rest) from by simp [serMembersTail]]
      rw [skipWs_not_ws hcm]
      simp only []
      rw [if_pos trivial]
      have hskip2 : skipWs (serMembers (.cons k2 w tl2) ++ rbr :: rest)
          = serMembers (.cons k2 w tl2) ++ rbr :: rest := by
        rw [serMembers_cons]
        rw [show (serStr k2 ++ ':' :: (serVal w ++ serMembersTail tl2)) ++ rbr :: rest
            = '"' :: ((escStr k2 ++ ['"']) ++ (':' :: (serVal w ++ serMembersTail tl2))
              ++ rbr :: rest) from by simp [serStr]]
        rw [skipWs_not_ws (show isWsChar '"' = false from by decide)]
      rw [hskip2, parseMembers_ser (.cons k2 w tl2) (by simp) g rest hcm2]
      rfl
end

theorem serVal_length_pos (v : JVal) : 1 ≤ (serVal v).length := by
  obtain ⟨c, t, hv, _⟩ := serVal_cons v
  rw [hv]
  simp

mutual
/-- The parser fuel requirement of a value is at most the length of its serialization. -/
theorem cntV_le_len : ∀ v : JVal, cntV v ≤ (serVal v).length
  | .null => by simp [cntV, serVal]
  | .bool true => by simp [cntV, serVal]
  | .bool false => by simp [cntV, serVal]
  | .num i => by
    have h := serVal_length_pos (.num i)
    simp only [cntV]
    omega
  | .str s => by
    simp [cntV, serVal, serStr]
  | .arr .nil => by simp [cntV, serVal]
  | .arr (.cons v tl) => by
    have h := cntL_le_len (.cons v tl)
    simp only [cntV, serVal, List.length_cons, List.length_append, List.length_cons,
      List.length_nil]
    omega
  | .obj .nil => by simp [cntV, serVal]
  | .obj (.cons k v tl) => by
    have h := cntM_le_len (.cons k v tl)
    simp only [cntV, serVal, List.length_cons, List.length_append, List.length_nil]
    omega
/-- The element-loop fuel requirement is at most the serialization length plus one. -/
theorem cntL_le_len : ∀ l : JList, cntL l ≤ (serList l).length + 1
  | .nil => by simp [cntL, serList]
  | .cons v tl => by
    have h1 := cntV_le_len v
    have h2 := cntL_le_len tl
    have h3 := serVal_length_pos v
    cases tl with
    | nil =>
      simp only [cntL, serList, List.length_nil]
      omega
    | cons w tl2 =>
      have hl : cntL (.cons v (.cons w tl2)) = 1 + max (cntV v) (cntL (.cons w tl2)) := by
        rw [cntL]
      have hlen : (serList (.cons v (.cons w tl2))).length
          = (serVal v).length + 1 + (serList (.cons w tl2)).length := by
        rw [show serList (.cons v (.cons w tl2))
            = serVal v ++ ',' :: serList (.cons w tl2) from by rw [serList]]
        simp only [List.length_append, List.length_cons]
        omega
      rw [hl, hlen]
      omega
/-- The member-loop fuel requirement is at most the serialization length plus one. -/
theorem cntM_le_len : ∀ m : JMembers, cntM m ≤ (serMembers m).length + 1
  | .nil => by simp [cntM, serMembers]
  | .cons k v tl => by
    have h1 := cntV_le_len v
    have h2 := cntM_le_len tl
    have h3 := serVal_length_pos v
    cases tl with
    | nil =>
      simp only [cntM, serMembers, List.length_append, List.length_cons]
      omega
    | cons k2 w tl2 =>
      have hl : cntM (.cons k v (.cons k2 w tl2))
          = 1 + max (cntV v) (cntM (.cons k2 w tl2)) := by
        rw [cntM]
      have hlen : (serMembers (.cons k v (.cons k2 w tl2))).length
          = (serStr k).length + 1 + (serVal v).length + 1
            + (serMembers (.cons k2 w tl2)).length := by
        rw [show serMembers (.cons k v (.cons k2 w tl2))
            = serStr k ++ ':' :: serVal v ++ ',' :: serMembers (.cons k2 w tl2) from by
              rw [serMembers]]
        simp only [List.length_append, List.length_cons]
        omega
      rw [hl, hlen]
      omega
end

/-- Model of JSON.parse on a full serialization: the round trip recovers the value. -/
theorem jparse_serVal (v : JVal) : jparse (serVal v) = some v := by
  have hs : skipWs (serVal v) = serVal v := by
    obtain ⟨c, t, hv, hstart⟩ := serVal_cons v
    rw [hv, skipWs_not_ws (valStart_not_ws hstart)]
  have hp := parseVal_ser v ((serVal v).length + 1) []
    (le_trans (cntV_le_len v) (by omega)) (by intro c t h; simp at h)
  rw [List.append_nil] at hp
  rw [jparse, hs, hp]
  simp [skipWs]

/-- Fueled scanner for the global trailing-comma replacement: a comma followed by optional
whitespace and a closing brace or bracket is deleted, and scanning resumes after that closer;
otherwise the scanner advances one character, matching the resumption rule of a global
regular-expression replace. -/
def stripTCF : Nat → List Char → List Char
  | 0, s => s
  | _ + 1, [] => []
  | f + 1, c :: rest =>
    if c = ',' then
      match rest.dropWhile isJsWs with
      | b :: rest2 =>
        if b = rbr ∨ b = ']' then rest.takeWhile isJsWs ++ b :: stripTCF f rest2
        else c :: stripTCF f rest
      | [] => c :: stripTCF f rest
    else c :: stripTCF f rest

/-- Model of the unconditional trailing-comma normalization of generateJSON
(src/fact-extraction/lib/llm-client.js line 94): the global replacement of the pattern
comma-whitespace-closer by its whitespace-closer part. -/
def stripTC (s : List Char) : List Char := stripTCF (s.length + 1) s

/-- Index of the first occurrence of a character. -/
def firstIdx (c : Char) : List Char → Option Nat
  | [] => none
  | d :: r => if d = c then some 0 else (firstIdx c r).map (· + 1)

/-- Index of the last occurrence of a character. -/
def lastIdx (c : Char) : List Char → Option Nat
  | [] => none
  | d :: r =>
    match lastIdx c r with
    | some i => some (i + 1)
    | none => if d = c then some 0 else none

/-- Model of the greedy open-to-last-close regular expressions that generateJSON uses to locate
an object (or array) body in unfenced text: the slice from the first opener to the last closer,
when the closer follows the opener. -/
def braceSlice (op cl : Char) (s : List Char) : Option (List Char) :=
  match firstIdx op s, lastIdx cl s with
  | some i, some j => if i < j then some ((s.drop i).take (j - i + 1)) else none
  | _, _ => none

/-- The triple-backtick fence delimiter. -/
def fenceTok : List Char := [btk, btk, btk]

/-- Index of the first occurrence of a pattern as a contiguous sublist. -/
def findSub (pat : List Char) : List Char → Option Nat
  | [] => if pat.isPrefixOf ([] : List Char) then some 0 else none
  | c :: r => if pat.isPrefixOf (c :: r) then some 0 else (findSub pat r).map (· + 1)

/-- Attempt to complete a fenced-block match whose opening fence has just been consumed:
optionally take the json tag, skip whitespace greedily, and find the closing fence; on failure
retry without the tag, mirroring the backtracking of the fence regular expression. -/
def fenceAttempt (t : List Char) : Option (List Char) :=
  let t1 := if ("json".toList).isPrefixOf t then t.drop 4 else t
  let t2 := t1.dropWhile isJsWs
  match findSub fenceTok t2 with
  | some j => some (t2.take j)
  | none =>
    let t3 := t.dropWhile isJsWs
    match findSub fenceTok t3 with
    | some j => some (t3.take j)
    | none => none

/-- Leftmost fenced-block match over the whole text. -/
def fenceFrom : List Char → Option (List Char)
  | [] => none
  | c :: r =>
    if fenceTok.isPrefixOf (c :: r) then
      match fenceAttempt ((c :: r).drop 3) with
      | some inner => some inner
      | none => fenceFrom r
    else fenceFrom r

/-- Whitespace trim at both ends, as the trim call applied to the fenced-block content. -/
def trimBoth (s : List Char) : List Char :=
  ((s.dropWhile isJsWs).reverse.dropWhile isJsWs).reverse

/-- Candidate-text extraction of generateJSON (src/fact-extraction/lib/llm-client.js lines
76-91): the first fenced block when present, else the greedy first-open-brace to
last-close-brace slice, else the greedy bracket slice, else the whole text. -/
def extractCandidate (text : List Char) : List Char :=
  match fenceFrom text with
  | some inner => trimBoth inner
  | none =>
    match braceSlice lbr rbr text with
    | some s => s
    | none =>
      match braceSlice '[' ']' text with
      | some s => s
      | none => text

/-- Completion of a match of closer-whitespace-comma-whitespace-eol right after the closer:
the first non-whitespace character must be the comma, after which the whitespace run must reach
the end of the string or contain a line terminator for the multiline anchor. -/
def afterCloserP1 (r : List Char) : Bool :=
  match r.dropWhile isJsWs with
  | c :: r2 =>
    c = ',' ∧ ((r2.dropWhile isJsWs).isEmpty ∨ (r2.takeWhile isJsWs).any
      (fun d => d = '\n' ∨ d = '\r'))
  | [] => false

/-- Whether the first non-global pattern of recovery strategy 1 (close brace, whitespace,
comma, whitespace, line end) matches anywhere. -/
def hasP1 : List Char → Bool
  | [] => false
  | c :: r => (c = rbr ∧ afterCloserP1 r) ∨ hasP1 r

/-- Whether the third non-global pattern (close bracket variant) matches anywhere. -/
def hasP3 : List Char → Bool
  | [] => false
  | c :: r => (c = ']' ∧ afterCloserP1 r) ∨ hasP3 r

/-- Largest inclusive end index over all matches of opener-whitespace-closer, as accumulated by
the exec loops of the two global patterns of strategy 1. -/
def maxEndP (op cl : Char) : List Char → Option Nat
  | [] => none
  | c :: r =>
    let here : Option Nat :=
      if c = op then
        match r.dropWhile isJsWs with
        | d :: _ => if d = cl then some (1 + (r.takeWhile isJsWs).length) else none
        | [] => none
      else none
    match here, maxEndP op cl r with
    | some a, some b => some (max a (b + 1))
    | some a, none => some a
    | none, some b => some (b + 1)
    | none, none => none

/-- Model of generateJSON recovery strategy 1 (lines 106-141): find the rightmost safe
position, truncate there, re-normalize trailing commas, close the unmatched brackets and
braces, and parse.  The first and third patterns are non-global regular expressions driven by
a while-exec loop, so whenever one of them matches at all the loop never advances and the
strategy does not terminate; that case is the error outcome. -/
def strat1 (s : List Char) : Except Unit (Option JVal) :=
  if hasP1 s ∨ hasP3 s then .error ()
  else
    let e2 : Int := match maxEndP rbr ']' s with | some n => (n : Int) | none => -1
    let e4 : Int := match maxEndP ']' rbr s with | some n => (n : Int) | none => -1
    let lsp := max e2 e4
    if 2 * lsp > (s.length : Int) then
      let fixed := stripTC (s.take (lsp.toNat + 1))
      let fixed2 := fixed ++ List.replicate (fixed.count '[' - fixed.count ']') ']'
        ++ List.replicate (fixed.count lbr - fixed.count rbr) rbr
      match jparse fixed2 with
      | some v => .ok (some v)
      | none => .ok none
    else .ok none

/-- The five known top-level keys of recovery strategy 2, in alternation order. -/
def recoveryKeys : List (List Char) :=
  ["business_cards".toList, "events".toList, "memos".toList, "gifts".toList, "chats".toList]

/-- A key-pattern match at the current position: a quoted known key (alternatives tried in
order), optional whitespace, a colon, optional whitespace and an opening bracket.  Returns the
key and the number of characters consumed by the whole match. -/
def keyMatchAtGo : List (List Char) → List Char → Option (List Char × Nat)
  | [], _ => none
  | k :: ks, s =>
    let pat := '"' :: (k ++ ['"'])
    if pat.isPrefixOf s then
      let r := s.drop pat.length
      let w1 := (r.takeWhile isJsWs).length
      match r.dropWhile isJsWs with
      | ':' :: r2 =>
        let w2 := (r2.takeWhile isJsWs).length
        match r2.dropWhile isJsWs with
        | '[' :: _ => some (k, pat.length + w1 + 1 + w2 + 1)
        | _ => keyMatchAtGo ks s
      | _ => keyMatchAtGo ks s
    else keyMatchAtGo ks s

/-- Key-pattern match at the current position over the known keys. -/
def keyMatchAt (s : List Char) : Option (List Char × Nat) := keyMatchAtGo recoveryKeys s

/-- Fueled left-to-right scan of the global key pattern, with the non-overlapping resumption
rule of exec: after a match the scan continues at the match end.  Returns each matched key with
the absolute index where its array content starts. -/
def findKeyMatchesF : Nat → List Char → Nat → List (List Char × Nat)
  | 0, _, _ => []
  | _ + 1, [], _ => []
  | f + 1, c :: r, off =>
    match keyMatchAt (c :: r) with
    | some (k, len) => (k, off + len) :: findKeyMatchesF f ((c :: r).drop len) (off + len)
    | none => findKeyMatchesF f r (off + 1)

/-- All key-pattern matches of strategy 2 over the candidate text. -/
def findKeyMatches (s : List Char) : List (List Char × Nat) := findKeyMatchesF (s.length + 1) s 0

/-- Bracket-depth scan of strategy 2 starting at depth one: the relative index at which the
depth first returns to zero, when it does before the text ends. -/
def depthScanGo : List Char → Nat → Nat → Option Nat
  | [], _, _ => none
  | c :: r, depth, idx =>
    let depth2 := if c = '[' then depth + 1 else if c = ']' then depth - 1 else depth
    if depth2 = 0 then some idx else depthScanGo r depth2 (idx + 1)

/-- Index of the last occurrence of a pattern as a contiguous sublist. -/
def lastSubIdx (pat : List Char) : List Char → Option Nat
  | [] => if pat.isPrefixOf ([] : List Char) then some 0 else none
  | c :: r =>
    match lastSubIdx pat r with
    | some j => some (j + 1)
    | none => if pat.isPrefixOf (c :: r) then some 0 else none

/-- Ordered association update with the object-assignment semantics of result key equals value:
overwrite in place when the key exists, otherwise append. -/
def upsert (l : List (List Char × JVal)) (k : List Char) (v : JVal) :
    List (List Char × JVal) :=
  if l.any (fun p => p.1 = k) then l.map (fun p => if p.1 = k then (k, v) else p)
  else l ++ [(k, v)]

/-- Assemble an ordered pair list into object members. -/
def toJMembers : List (List Char × JVal) → JMembers
  | [] => .nil
  | (k, v) :: r => .cons k v (toJMembers r)

/-- Per-key salvage step of strategy 2 for one key match: either the balanced array content is
parsed in isolation, or, when the depth scan never closes, the content is cut after the last
complete object (last close-brace-comma occurrence at a positive index) and closed. -/
def strat2Step (s : List Char) (acc : List (List Char × JVal)) (km : List Char × Nat) :
    List (List Char × JVal) :=
  let content := s.drop km.2
  match depthScanGo content 1 0 with
  | some endRel =>
    match jparse (stripTC ('[' :: (content.take endRel ++ [']']))) with
    | some v => upsert acc km.1 v
    | none => acc
  | none =>
    match lastSubIdx [rbr, ','] content with
    | some p =>
      if 0 < p then
        match jparse (stripTC ('[' :: (content.take (p + 1) ++ [']']))) with
        | some v => upsert acc km.1 v
        | none => acc
      else acc
    | none => acc

/-- Model of generateJSON recovery strategy 2 (lines 143-185): per-key salvage over the known
top-level array-valued keys, succeeding when at least one key was recovered. -/
def strat2 (s : List Char) : Option JVal :=
  let result := (findKeyMatches s).foldl (strat2Step s) []
  if result.isEmpty then none else some (.obj (toJMembers result))

/-- Outcome of generateJSON on a backend text. -/
inductive GRes where
  | ok : JVal → GRes
  | err : GRes
  | hang : GRes
  deriving DecidableEq

/-- Model of generateJSON (src/fact-extraction/lib/llm-client.js lines 72-203) applied to the
raw backend text: candidate extraction, unconditional trailing-comma normalization, direct
parse, then recovery strategies 1 and 2 in order; err models the re-thrown parse failure and
hang the non-terminating exec loop of strategy 1. -/
def generateJSON (text : List Char) : GRes :=
  let js := stripTC (extractCandidate text)
  match jparse js with
  | some v => .ok v
  | none =>
    match strat1 js with
    | .error _ => .hang
    | .ok (some v) => .ok v
    | .ok none =>
      match strat2 js with
      | some v => .ok v
      | none => .err

/-- Whether a comma occurring just before this remainder is left alone by the trailing-comma
normalization: after the whitespace run there is a further character and it is not a closer. -/
def resolved (r : List Char) : Bool :=
  match r.dropWhile isJsWs with
  | d :: _ => !(d == rbr) && !(d == ']')
  | [] => false

/-- Text in which every comma is resolved within the text itself, so that the normalization
leaves the text unchanged and no appended continuation can complete a match. -/
def noDangler : List Char → Bool
  | [] => true
  | c :: r => (if c = ',' then resolved r else true) && noDangler r

theorem noDangler_cons_ne {c : Char} (hc : ¬ c = ',') {r : List Char}
    (h : noDangler r = true) : noDangler (c :: r) = true := by
  simp [noDangler, hc, h]

theorem noDangler_cons_comma {r : List Char} (hres : resolved r = true)
    (h : noDangler r = true) : noDangler (',' :: r) = true := by
  simp [noDangler, hres, h]

theorem noDangler_of_all_ne (s : List Char) (h : ∀ c ∈ s, ¬ c = ',') :
    noDangler s = true := by
  induction s with
  | nil => rfl
  | cons c r ih =>
    exact noDangler_cons_ne (h c (List.mem_cons_self c r)) (ih fun d hd => h d (List.mem_cons_of_mem c hd))

theorem resolved_append {a : List Char} (b : List Char) (h : resolved a = true) :
    resolved (a ++ b) = true := by
  rw [resolved] at h
  rw [resolved, List.dropWhile_append]
  cases hd : a.dropWhile isJsWs with
  | nil => rw [hd] at h; simp at h
  | cons d t =>
    rw [hd] at h
    simp only [] at h
    simp only [Bool.and_eq_true, Bool.not_eq_true', beq_eq_false_iff_ne] at h
    simp [hd, h.1, h.2]

theorem noDangler_append {a b : List Char} (ha : noDangler a = true)
    (hb : noDangler b = true) : noDangler (a ++ b) = true := by
  induction a with
  | nil => exact hb
  | cons c r ih =>
    rw [noDangler, Bool.and_eq_true] at ha
    by_cases hc : c = ','
    · rw [if_pos hc] at ha
      exact hc ▸ noDangler_cons_comma (resolved_append b ha.1) (ih ha.2)
    · exact noDangler_cons_ne hc (ih ha.2)

theorem length_dropWhile_le (p : Char → Bool) (l : List Char) :
    (l.dropWhile p).length ≤ l.length := by
  induction l with
  | nil => simp
  | cons c r ih =>
    rw [List.dropWhile_cons]
    by_cases hp : p c = true
    · simp only [hp, if_true, List.length_cons]; omega
    · simp [hp]

/-- The fueled trailing-comma scanner does not depend on the fuel once the fuel exceeds the
length of the text. -/
theorem stripTCF_irrel (n : Nat) : ∀ s : List Char, s.length ≤ n → ∀ f g : Nat,
    s.length < f → s.length < g → stripTCF f s = stripTCF g s := by
  induction n with
  | zero =>
    intro s hs f g hf hg
    have : s = [] := List.length_eq_zero.mp (by omega)
    subst this
    obtain ⟨f2, rfl⟩ : ∃ f2, f = f2 + 1 := ⟨f - 1, by omega⟩
    obtain ⟨g2, rfl⟩ : ∃ g2, g = g2 + 1 := ⟨g - 1, by omega⟩
    rfl
  | succ n ih =>
    intro s hs f g hf hg
    cases s with
    | nil =>
      obtain ⟨f2, rfl⟩ : ∃ f2, f = f2 + 1 := ⟨f - 1, by omega⟩
      obtain ⟨g2, rfl⟩ : ∃ g2, g = g2 + 1 := ⟨g - 1, by omega⟩
      rfl
    | cons c rest =>
      obtain ⟨f2, rfl⟩ : ∃ f2, f = f2 + 1 := ⟨f - 1, by omega⟩
      obtain ⟨g2, rfl⟩ : ∃ g2, g = g2 + 1 := ⟨g - 1, by omega⟩
      simp only [List.length_cons] at hs hf hg
      rw [stripTCF, stripTCF]
      by_cases hc : c = ','
      · rw [if_pos hc, if_pos hc]
        cases hd : rest.dropWhile isJsWs with
        | nil =>
          simp only []
          rw [ih rest (by omega) f2 g2 (by omega) (by omega)]
        | cons b rest2 =>
          have hlen2 : rest2.length < rest.length := by
            have := length_dropWhile_le isJsWs rest
            rw [hd] at this
            simp at this
            omega
          simp only []
          by_cases hb : b = rbr ∨ b = ']'
          · rw [if_pos hb, if_pos hb,
              ih rest2 (by omega) f2 g2 (by omega) (by omega)]
          · rw [if_neg hb, if_neg hb, ih rest (by omega) f2 g2 (by omega) (by omega)]
      · rw [if_neg hc, if_neg hc, ih rest (by omega) f2 g2 (by omega) (by omega)]

/-- The scanner passes unchanged over a prefix whose commas are all resolved within it. -/
theorem stripTCF_append (a : List Char) (ha : noDangler a = true) : ∀ (f : Nat) (r : List Char),
    a.length + r.length < f → stripTCF f (a ++ r) = a ++ stripTCF (r.length + 1) r := by
  induction a with
  | nil =>
    intro f r hf
    exact stripTCF_irrel r.length r (le_refl _) f (r.length + 1) (by simpa using hf) (by omega)
  | cons c a2 ih =>
    intro f r hf
    rw [noDangler, Bool.and_eq_true] at ha
    simp only [List.length_cons] at hf
    obtain ⟨f2, rfl⟩ : ∃ f2, f = f2 + 1 := ⟨f - 1, by omega⟩
    rw [List.cons_append, stripTCF]
    by_cases hc : c = ','
    · rw [if_pos hc]
      rw [if_pos hc] at ha
      have hres := ha.1
      rw [resolved] at hres
      cases hd : a2.dropWhile isJsWs with
      | nil => rw [hd] at hres; simp at hres
      | cons d t =>
        rw [hd] at hres
        have hdrop : (a2 ++ r).dropWhile isJsWs = d :: (t ++ r) := by
          rw [List.dropWhile_append, hd]
          simp
        rw [hdrop]
        simp only []
        have hne : ¬ (d = rbr ∨ d = ']') := by
          simp only [Bool.and_eq_true, Bool.not_eq_true'] at hres
          rcases hres with ⟨h1, h2⟩
          rintro (rfl | rfl)
          · simp at h1
          · simp at h2
        rw [if_neg hne, ih ha.2 f2 r (by omega), List.cons_append]
    · rw [if_neg hc, ih ha.2 f2 r (by omega), List.cons_append]

/-- The trailing-comma normalization is the identity on text whose commas are all resolved. -/
theorem stripTC_noDangler (a : List Char) (h : noDangler a = true) : stripTC a = a := by
  have h2 := stripTCF_append a h (a.length + 1) [] (by simp)
  simp only [List.append_nil] at h2
  rw [stripTC, h2]
  simp [stripTCF]

/-- A string content is safe for the trailing-comma normalization when no comma in it is
followed by a (possibly empty) run of raw-emitted whitespace-class characters and then a
closing brace or bracket: exactly the contents on which the normalization of the serialized
literal cannot fire. -/
def strSafe : List Char → Bool
  | [] => true
  | c :: r =>
    (if c = ',' then
      match r.dropWhile isRawWs with
      | d :: _ => !(d == rbr) && !(d == ']')
      | [] => true
     else true) && strSafe r

/-- The three shapes of a single-character escape: a two-character named escape, the six
character u-escape of a control character, or the character itself emitted raw. -/
theorem escapeChar_cases (c : Char) :
    (∃ d, escapeChar c = ['\\', d] ∧ d ∈ ['"', '\\', 'b', 'f', 'n', 'r', 't']) ∨
    (escapeChar c = ['\\', 'u', '0', '0', hexDigit (c.toNat / 16), hexDigit (c.toNat % 16)] ∧
      c.toNat < 32) ∨
    (escapeChar c = [c] ∧ 32 ≤ c.toNat ∧ ¬ c = '"' ∧ ¬ c = '\\') := by
  rw [escapeChar]
  split_ifs with h1 h2 h3 h4 h5 h6 h7 h8
  · exact Or.inl ⟨'"', rfl, by decide⟩
  · exact Or.inl ⟨'\\', rfl, by decide⟩
  · exact Or.inl ⟨'b', rfl, by decide⟩
  · exact Or.inl ⟨'f', rfl, by decide⟩
  · exact Or.inl ⟨'n', rfl, by decide⟩
  · exact Or.inl ⟨'r', rfl, by decide⟩
  · exact Or.inl ⟨'t', rfl, by decide⟩
  · exact Or.inr (Or.inl ⟨rfl, h8⟩)
  · refine Or.inr (Or.inr ⟨rfl, by omega, h1, h2⟩)

theorem hexDigit_ne_comma {n : Nat} (h : n < 16) : ¬ hexDigit n = ',' := by
  interval_cases n <;> decide

theorem escStr_append (a b : List Char) : escStr (a ++ b) = escStr a ++ escStr b := by
  induction a with
  | nil => simp [escStr]
  | cons c r ih => simp [escStr, ih]

/-- A raw-emitted whitespace-class character passes through escaping unchanged and lands in
the whitespace class of the normalization regex. -/
theorem rawWs_escapeChar {c : Char} (h : isRawWs c = true) :
    escapeChar c = [c] ∧ isJsWs c = true := by
  rw [isRawWs, Bool.and_eq_true] at h
  obtain ⟨hw, h32b⟩ := h
  have h32 : 32 ≤ c.toNat := by
    simp only [Bool.not_eq_true', decide_eq_false_iff_not, Nat.not_lt] at h32b
    exact h32b
  refine ⟨?_, hw⟩
  rw [escapeChar,
    if_neg (fun he => by rw [he] at hw; exact absurd hw (by decide)),
    if_neg (fun he => by rw [he] at hw; exact absurd hw (by decide)),
    if_neg (fun he => by rw [he] at h32; exact absurd h32 (by decide)),
    if_neg (fun he => by rw [he] at h32; exact absurd h32 (by decide)),
    if_neg (fun he => by rw [he] at h32; exact absurd h32 (by decide)),
    if_neg (fun he => by rw [he] at h32; exact absurd h32 (by decide)),
    if_neg (fun he => by rw [he] at h32; exact absurd h32 (by decide)),
    if_neg (by omega)]

/-- A character at code point 32 or above outside the raw whitespace set is outside the
whitespace class altogether. -/
theorem notRawWs_not_jsws {c : Char} (h32 : 32 ≤ c.toNat) (h : isRawWs c = false) :
    isJsWs c = false := by
  rw [isRawWs] at h
  cases hj : isJsWs c with
  | false => rfl
  | true =>
    rw [hj] at h
    simp only [Bool.true_and, Bool.not_eq_false', decide_eq_true_eq] at h
    omega

/-- How whitespace skipping traverses an escaped string body followed by the closing quote:
when the source content starts with raw whitespace only, skipping reaches the quote; when its
first non-whitespace character is d, skipping stops at a non-whitespace character that can
only be a closer if d itself is that closer. -/
theorem escStr_dropWhile (s2 z : List Char) :
    (s2.dropWhile isRawWs = [] →
      (escStr s2 ++ '"' :: z).dropWhile isJsWs = '"' :: z) ∧
    (∀ d t, s2.dropWhile isRawWs = d :: t →
      ∃ e w, (escStr s2 ++ '"' :: z).dropWhile isJsWs = e :: w ∧ isJsWs e = false ∧
        (e = rbr → d = rbr) ∧ (e = ']' → d = ']')) := by
  induction s2 with
  | nil =>
    refine ⟨fun _ => by
      simp [escStr, List.dropWhile_cons, show isJsWs '"' = false from by decide],
      fun d t h => by simp at h⟩
  | cons a s3 ih =>
    by_cases ha : isRawWs a = true
    · obtain ⟨hesc, haw⟩ := rawWs_escapeChar ha
      constructor
      · intro h
        rw [List.dropWhile_cons, if_pos ha] at h
        rw [escStr, hesc]
        simp only [List.cons_append, List.singleton_append, List.dropWhile_cons]
        rw [if_pos haw]
        exact ih.1 h
      · intro d t h
        rw [List.dropWhile_cons, if_pos ha] at h
        rw [escStr, hesc]
        simp only [List.cons_append, List.singleton_append, List.dropWhile_cons]
        rw [if_pos haw]
        exact ih.2 d t h
    · have hdw : (a :: s3).dropWhile isRawWs = a :: s3 := by
        rw [List.dropWhile_cons, if_neg ha]
      constructor
      · intro h
        rw [hdw] at h
        exact absurd h (by simp)
      · intro d t h
        rw [hdw] at h
        injection h with h1 h2
        subst h1
        subst h2
        rw [escStr]
        rcases escapeChar_cases a with ⟨e2, he, _⟩ | ⟨he, _⟩ | ⟨he, h32, _, _⟩
        · rw [he]
          refine ⟨'\\', e2 :: (escStr s3 ++ '"' :: z), ?_, by decide,
            fun hx => absurd hx (by decide), fun hx => absurd hx (by decide)⟩
          simp only [List.cons_append, List.append_assoc, List.dropWhile_cons]
          rw [show isJsWs '\\' = false from by decide]
          simp
        · rw [he]
          refine ⟨'\\', 'u' :: '0' :: '0' :: hexDigit (a.toNat / 16) ::
            hexDigit (a.toNat % 16) :: (escStr s3 ++ '"' :: z), ?_, by decide,
            fun hx => absurd hx (by decide), fun hx => absurd hx (by decide)⟩
          simp only [List.cons_append, List.append_assoc, List.dropWhile_cons]
          rw [show isJsWs '\\' = false from by decide]
          simp
        · rw [he]
          have ha2 : isRawWs a = false := by
            cases hq : isRawWs a
            · rfl
            · exact absurd hq ha
          have hnw : isJsWs a = false := notRawWs_not_jsws h32 ha2
          refine ⟨a, escStr s3 ++ '"' :: z, ?_, hnw, fun h2 => h2, fun h2 => h2⟩
          simp only [List.cons_append, List.singleton_append, List.dropWhile_cons]
          rw [hnw]
          simp

/-- An escaped safe string body followed by its closing quote and any comma-resolved
continuation is comma-resolved. -/
theorem noDangler_escStr (s : List Char) : ∀ z : List Char, strSafe s = true →
    noDangler z = true → noDangler (escStr s ++ '"' :: z) = true := by
  induction s with
  | nil =>
    intro z _ hz
    rw [escStr]
    exact noDangler_cons_ne (by decide) hz
  | cons c s2 ih =>
    intro z hs hz
    rw [strSafe, Bool.and_eq_true] at hs
    rw [escStr, List.append_assoc]
    rcases escapeChar_cases c with ⟨d, he, hd⟩ | ⟨he, h32⟩ | ⟨he, h32, hq, hb⟩
    · rw [he]
      refine noDangler_cons_ne (by decide) (noDangler_cons_ne ?_ (ih z hs.2 hz))
      fin_cases hd <;> decide
    · rw [he]
      refine noDangler_cons_ne (by decide) (noDangler_cons_ne (by decide)
        (noDangler_cons_ne (by decide) (noDangler_cons_ne (by decide)
        (noDangler_cons_ne (hexDigit_ne_comma (by omega))
        (noDangler_cons_ne (hexDigit_ne_comma (by omega)) (ih z hs.2 hz))))))
    · rw [he]
      simp only [List.singleton_append]
      by_cases hc : c = ','
      · rw [if_pos hc] at hs
        have hcond := hs.1
        subst hc
        refine noDangler_cons_comma ?_ (ih z hs.2 hz)
        rw [resolved]
        cases hdw : s2.dropWhile isRawWs with
        | nil =>
          rw [(escStr_dropWhile s2 z).1 hdw]
          simp only []
          decide
        | cons d t =>
          obtain ⟨e, w, hew, hwse, her, hel⟩ := (escStr_dropWhile s2 z).2 d t hdw
          rw [hew]
          rw [hdw] at hcond
          simp only [] at hcond
          simp only [Bool.and_eq_true, Bool.not_eq_true', beq_eq_false_iff_ne] at hcond
          simp only [Bool.and_eq_true, Bool.not_eq_true', beq_eq_false_iff_ne]
          exact ⟨fun h2 => hcond.1 (her h2), fun h2 => hcond.2 (hel h2)⟩
      · exact noDangler_cons_ne hc (ih z hs.2 hz)

/-- A safe string content serializes to a comma-resolved literal. -/
theorem noDangler_serStr (s : List Char) (h : strSafe s = true) :
    noDangler (serStr s) = true := by
  rw [serStr]
  exact noDangler_cons_ne (by decide) (noDangler_escStr s [] h rfl)

theorem noDangler_intRepr (i : Int) : noDangler (intRepr i) = true := by
  refine noDangler_of_all_ne _ ?_
  intro c hc
  rw [intRepr] at hc
  have hdig : ∀ d, d.isDigit = true → ¬ d = ',' := by
    intro d hd he
    have h2 := isDigit_iff.mp hd
    rw [he] at h2
    exact absurd h2 (by decide)
  split_ifs at hc
  · rcases List.mem_cons.mp hc with rfl | hc2
    · decide
    · exact hdig c (natDigits_all_digits _ c hc2)
  · exact hdig c (natDigits_all_digits _ c hc)

theorem valStart_not_jsws {c : Char} (h : isValStart c) : isJsWs c = false := by
  rcases h with rfl | rfl | rfl | rfl | rfl | rfl | rfl | hd
  · decide
  · decide
  · decide
  · decide
  · decide
  · decide
  · decide
  · have h2 := isDigit_iff.mp hd
    rw [isJsWs]
    simp only [decide_eq_false_iff_not]
    omega

mutual
/-- A value all of whose string contents (including object keys) are safe for the
trailing-comma normalization and contain no backtick: the condition under which the
serialization survives extraction and normalization verbatim. -/
def valOK : JVal → Bool
  | .null => true
  | .bool _ => true
  | .num _ => true
  | .str s => strSafe s && s.all (fun c => !(c == btk))
  | .arr l => valOKL l
  | .obj m => valOKM m
/-- Element-wise safety of an array body. -/
def valOKL : JList → Bool
  | .nil => true
  | .cons v tl => valOK v && valOKL tl
/-- Member-wise safety of an object body. -/
def valOKM : JMembers → Bool
  | .nil => true
  | .cons k v tl => strSafe k && k.all (fun c => !(c == btk)) && valOK v && valOKM tl
end

/-- The serialization of any value is comma-resolved at its head: whitespace skipping stops at
its first character, which is never a closer. -/
theorem resolved_serVal (v : JVal) (rest : List Char) :
    resolved (serVal v ++ rest) = true := by
  obtain ⟨c, t, hv, hstart⟩ := serVal_cons v
  rw [resolved, hv, List.cons_append, List.dropWhile_cons, valStart_not_jsws hstart]
  simp only [Bool.false_eq_true, if_false]
  simp only [Bool.and_eq_true, Bool.not_eq_true', beq_eq_false_iff_ne]
  exact ⟨valStart_ne_rbrace hstart, valStart_ne_rbracket hstart⟩

/-- A serialized string literal is likewise comma-resolved at its head. -/
theorem resolved_serStr (k : List Char) (rest : List Char) :
    resolved (serStr k ++ rest) = true := by
  have h : serStr k ++ rest = '"' :: (escStr k ++ ['"'] ++ rest) := by
    rw [serStr]
    simp
  rw [h, resolved, List.dropWhile_cons]
  rw [show isJsWs '"' = false from by decide]
  simp
  decide

mutual
/-- Safe values serialize to comma-resolved text: a safe value. -/
theorem noDangler_serVal : ∀ v : JVal, valOK v = true → noDangler (serVal v) = true
  | .null, _ => by decide
  | .bool true, _ => by decide
  | .bool false, _ => by decide
  | .num i, _ => noDangler_intRepr i
  | .str s, h => noDangler_serStr s (by rw [valOK, Bool.and_eq_true] at h; exact h.1)
  | .arr .nil, _ => by decide
  | .arr (.cons v tl), h => by
    rw [show serVal (.arr (.cons v tl)) = '[' :: (serList (.cons v tl) ++ [']']) from by
      rw [serVal]; simp]
    refine noDangler_cons_ne (by decide) (noDangler_append ?_ (by decide))
    exact noDangler_serList _ (by rw [valOK] at h; exact h)
  | .obj .nil, _ => by decide
  | .obj (.cons k v tl), h => by
    rw [show serVal (.obj (.cons k v tl)) = lbr :: (serMembers (.cons k v tl) ++ [rbr]) from by
      rw [serVal]; simp]
    refine noDangler_cons_ne (by decide) (noDangler_append ?_ (by decide))
    exact noDangler_serMembers _ (by rw [valOK] at h; exact h)
/-- Safe element lists serialize to comma-resolved text: a safe list. -/
theorem noDangler_serList : ∀ l : JList, valOKL l = true → noDangler (serList l) = true
  | .nil, _ => by decide
  | .cons v .nil, h => by
    rw [show serList (.cons v .nil) = serVal v from by rw [serList]]
    exact noDangler_serVal v (by rw [valOKL, Bool.and_eq_true] at h; exact h.1)
  | .cons v (.cons w tl), h => by
    rw [valOKL, Bool.and_eq_true] at h
    rw [show serList (.cons v (.cons w tl)) = serVal v ++ ',' :: serList (.cons w tl) from by
      rw [serList]]
    refine noDangler_append (noDangler_serVal v h.1) ?_
    refine noDangler_cons_comma ?_ (noDangler_serList _ h.2)
    rw [show serList (.cons w tl) = serVal w ++ serListTail tl from serList_cons w tl]
    exact resolved_serVal w _
/-- Safe members serialize to comma-resolved text: a safe member list. -/
theorem noDangler_serMembers : ∀ m : JMembers, valOKM m = true →
    noDangler (serMembers m) = true
  | .nil, _ => by decide
  | .cons k v .nil, h => by
    rw [valOKM, Bool.and_eq_true, Bool.and_eq_true, Bool.and_eq_true] at h
    rw [show serMembers (.cons k v .nil) = serStr k ++ ':' :: serVal v from by rw [serMembers]]
    exact noDangler_append (noDangler_serStr k h.1.1.1)
      (noDangler_cons_ne (by decide) (noDangler_serVal v h.1.2))
  | .cons k v (.cons k2 w tl), h => by
    rw [valOKM, Bool.and_eq_true, Bool.and_eq_true, Bool.and_eq_true] at h
    rw [show serMembers (.cons k v (.cons k2 w tl)) =
        serStr k ++ ':' :: serVal v ++ ',' :: serMembers (.cons k2 w tl) from by
      rw [serMembers]]
    rw [List.append_assoc]
    refine noDangler_append (noDangler_serStr k h.1.1.1) ?_
    refine noDangler_cons_ne (by decide) ?_
    refine noDangler_append (noDangler_serVal v h.1.2) ?_
    refine noDangler_cons_comma ?_ (noDangler_serMembers _ h.2)
    rw [show serMembers (.cons k2 w tl) = serStr k2 ++ ':' :: (serVal w ++ serMembersTail tl)
      from serMembers_cons k2 w tl]
    exact resolved_serStr k2 _
end

theorem hexDigit_ne_btk {n : Nat} (h : n < 16) : ¬ hexDigit n = btk := by
  interval_cases n <;> decide

theorem intRepr_no_btk (i : Int) : ∀ c ∈ intRepr i, ¬ c = btk := by
  intro c hc
  have hdig : ∀ d : Char, d.isDigit = true → ¬ d = btk := by
    intro d hd he
    have h2 := isDigit_iff.mp hd
    rw [he] at h2
    exact absurd h2 (by decide)
  rw [intRepr] at hc
  split_ifs at hc
  · rcases List.mem_cons.mp hc with rfl | hc2
    · decide
    · exact hdig c (natDigits_all_digits _ c hc2)
  · exact hdig c (natDigits_all_digits _ c hc)

theorem escStr_no_btk (s : List Char) (h : s.all (fun c => !(c == btk)) = true) :
    ∀ d ∈ escStr s, ¬ d = btk := by
  induction s with
  | nil => intro d hd; simp [escStr] at hd
  | cons a s2 ih =>
    rw [List.all_cons, Bool.and_eq_true] at h
    intro d hd
    rw [escStr] at hd
    rcases List.mem_append.mp hd with hd2 | hd2
    · rcases escapeChar_cases a with ⟨e2, he, hmem⟩ | ⟨he, h32⟩ | ⟨he, _, _, _⟩
      · rw [he] at hd2
        rcases List.mem_cons.mp hd2 with rfl | hd3
        · decide
        · simp only [List.mem_singleton] at hd3
          subst hd3
          fin_cases hmem <;> decide
      · rw [he] at hd2
        simp only [List.mem_cons, List.not_mem_nil, or_false] at hd2
        rcases hd2 with rfl | rfl | rfl | rfl | rfl | rfl
        · decide
        · decide
        · decide
        · decide
        · exact hexDigit_ne_btk (by omega)
        · exact hexDigit_ne_btk (Nat.mod_lt _ (by omega))
      · rw [he] at hd2
        simp only [List.mem_singleton] at hd2
        subst hd2
        have h3 := h.1
        simp only [Bool.not_eq_true', beq_eq_false_iff_ne] at h3
        exact h3
    · exact ih h.2 d hd2

theorem serStr_no_btk (s : List Char) (h : s.all (fun c => !(c == btk)) = true) :
    ∀ c ∈ serStr s, ¬ c = btk := by
  intro c hc
  rw [serStr] at hc
  rcases List.mem_cons.mp hc with rfl | hc2
  · decide
  rcases List.mem_append.mp hc2 with hc3 | hc3
  · exact escStr_no_btk s h c hc3
  · simp only [List.mem_singleton] at hc3
    subst hc3
    decide

mutual
/-- Safe values serialize without any backtick: a safe value. -/
theorem serVal_no_btk : ∀ v : JVal, valOK v = true → ∀ c ∈ serVal v, ¬ c = btk
  | .null, _ => by decide
  | .bool true, _ => by decide
  | .bool false, _ => by decide
  | .num i, _ => intRepr_no_btk i
  | .str s, h => serStr_no_btk s (by rw [valOK, Bool.and_eq_true] at h; exact h.2)
  | .arr .nil, _ => by decide
  | .arr (.cons v tl), h => by
    intro c hc
    rw [show serVal (.arr (.cons v tl)) = '[' :: (serList (.cons v tl) ++ [']']) from by
      rw [serVal]; simp] at hc
    rcases List.mem_cons.mp hc with rfl | hc2
    · decide
    rcases List.mem_append.mp hc2 with hc3 | hc3
    · exact serList_no_btk _ (by rw [valOK] at h; exact h) c hc3
    · simp only [List.mem_singleton] at hc3; subst hc3; decide
  | .obj .nil, _ => by decide
  | .obj (.cons k v tl), h => by
    intro c hc
    rw [show serVal (.obj (.cons k v tl)) = lbr :: (serMembers (.cons k v tl) ++ [rbr]) from by
      rw [serVal]; simp] at hc
    rcases List.mem_cons.mp hc with rfl | hc2
    · decide
    rcases List.mem_append.mp hc2 with hc3 | hc3
    · exact serMembers_no_btk _ (by rw [valOK] at h; exact h) c hc3
    · simp only [List.mem_singleton] at hc3; subst hc3; decide
/-- Safe element lists serialize without any backtick: a safe list. -/
theorem serList_no_btk : ∀ l : JList, valOKL l = true → ∀ c ∈ serList l, ¬ c = btk
  | .nil, _ => by intro c hc; simp [serList] at hc
  | .cons v .nil, h => by
    rw [show serList (.cons v .nil) = serVal v from by rw [serList]]
    exact serVal_no_btk v (by rw [valOKL, Bool.and_eq_true] at h; exact h.1)
  | .cons v (.cons w tl), h => by
    rw [valOKL, Bool.and_eq_true] at h
    intro c hc
    rw [show serList (.cons v (.cons w tl)) = serVal v ++ ',' :: serList (.cons w tl) from by
      rw [serList]] at hc
    rcases List.mem_append.mp hc with hc2 | hc2
    · exact serVal_no_btk v h.1 c hc2
    rcases List.mem_cons.mp hc2 with rfl | hc3
    · decide
    · exact serList_no_btk _ h.2 c hc3
/-- Safe members serialize without any backtick: a safe member list. -/
theorem serMembers_no_btk : ∀ m : JMembers, valOKM m = true →
    ∀ c ∈ serMembers m, ¬ c = btk
  | .nil, _ => by intro c hc; simp [serMembers] at hc
  | .cons k v .nil, h => by
    rw [valOKM, Bool.and_eq_true, Bool.and_eq_true, Bool.and_eq_true] at h
    intro c hc
    rw [show serMembers (.cons k v .nil) = serStr k ++ ':' :: serVal v from by
      rw [serMembers]] at hc
    rcases List.mem_append.mp hc with hc2 | hc2
    · exact serStr_no_btk k h.1.1.2 c hc2
    rcases List.mem_cons.mp hc2 with rfl | hc3
    · decide
    · exact serVal_no_btk v h.1.2 c hc3
  | .cons k v (.cons k2 w tl), h => by
    rw [valOKM, Bool.and_eq_true, Bool.and_eq_true, Bool.and_eq_true] at h
    intro c hc
    rw [show serMembers (.cons k v (.cons k2 w tl)) =
        serStr k ++ ':' :: serVal v ++ ',' :: serMembers (.cons k2 w tl) from by
      rw [serMembers]] at hc
    rw [List.append_assoc] at hc
    rcases List.mem_append.mp hc with hc2 | hc2
    · exact serStr_no_btk k h.1.1.2 c hc2
    rcases List.mem_cons.mp hc2 with rfl | hc3
    · decide
    rcases List.mem_append.mp hc3 with hc4 | hc4
    · exact serVal_no_btk v h.1.2 c hc4
    rcases List.mem_cons.mp hc4 with rfl | hc5
    · decide
    · exact serMembers_no_btk _ h.2 c hc5
end

/-- Text without backticks contains no fenced block. -/
theorem fenceFrom_none (s : List Char) (h : ∀ c ∈ s, ¬ c = btk) : fenceFrom s = none := by
  induction s with
  | nil => rfl
  | cons c r ih =>
    rw [fenceFrom]
    have hpre : fenceTok.isPrefixOf (c :: r) = false := by
      rw [fenceTok, List.isPrefixOf]
      have : (btk == c) = false := by
        simp only [beq_eq_false_iff_ne]
        exact fun he => h c (List.mem_cons_self c r) he.symm
      rw [this]
      rfl
    rw [hpre]
    simp only [Bool.false_eq_true, if_false]
    exact ih fun d hd => h d (List.mem_cons_of_mem c hd)

theorem lastIdx_concat (c : Char) (x : List Char) : lastIdx c (x ++ [c]) = some x.length := by
  induction x with
  | nil => simp [lastIdx]
  | cons d r ih => rw [List.cons_append, lastIdx, ih, List.length_cons]

/-- The greedy object slice of a full serialized object is the whole text. -/
theorem braceSlice_obj (x : List Char) :
    braceSlice lbr rbr (lbr :: (x ++ [rbr])) = some (lbr :: (x ++ [rbr])) := by
  have h1 : firstIdx lbr (lbr :: (x ++ [rbr])) = some 0 := by
    rw [firstIdx, if_pos rfl]
  have h2 : lastIdx rbr (lbr :: (x ++ [rbr])) = some (x.length + 1) := by
    have := lastIdx_concat rbr (lbr :: x)
    simpa using this
  rw [braceSlice, h1, h2]
  simp only []
  rw [if_pos (by omega)]
  congr 1
  rw [List.drop_zero]
  have hlen : (lbr :: (x ++ [rbr])).length = x.length + 2 := by simp
  rw [show x.length + 1 - 0 + 1 = x.length + 2 from by omega, ← hlen, List.take_length]

/-- Candidate extraction returns a serialized safe object verbatim. -/
theorem extractCandidate_obj (m : JMembers) (h : valOK (.obj m) = true) :
    extractCandidate (serVal (.obj m)) = serVal (.obj m) := by
  have hshape : serVal (.obj m) = lbr :: (serMembers m ++ [rbr]) := by
    cases m with
    | nil => rw [serVal, serMembers]; rfl
    | cons k v tl => rw [serVal]; simp
  rw [extractCandidate, fenceFrom_none _ (serVal_no_btk _ h), hshape, braceSlice_obj]

/-- C1 (amended): the recovery parser round-trips the serialization of every object value all
of whose string contents and keys are safe — no comma followed by a run of raw-emitted
whitespace-class characters (the ECMAScript backslash-s members at code point 32 and above,
including the no-break and Unicode spaces) and then a closing brace or bracket, and no
backtick.  For such values the unconditional trailing-comma normalization is the identity and
generateJSON returns the value itself. -/
theorem C1_roundtrip_safe_obj (m : JMembers) (h : valOK (.obj m) = true) :
    generateJSON (serVal (.obj m)) = .ok (.obj m) := by
  rw [generateJSON]
  simp only [extractCandidate_obj m h,
    stripTC_noDangler _ (noDangler_serVal _ h), jparse_serVal]

def c1val : JVal := .obj (.cons ("a".toList) (.str ("b,\x7d".toList)) .nil)

def c1other : JVal := .obj (.cons ("a".toList) (.str ("b\x7d".toList)) .nil)

/-- C1 (counterexample): on the serialization of the object with single member "a" mapped to
the string "b,\x7d", the unconditional trailing-comma normalization deletes the comma inside
the string literal, so generateJSON returns a different value: the round trip fails and the
normalization changes the meaning of already-valid JSON. -/
theorem C1_counterexample :
    generateJSON (serVal c1val) = .ok c1other ∧ ¬ c1other = c1val := by
  constructor
  · decide
  · decide

/-- Witness: the amended C1 statement applies to a concrete safe object. -/
theorem C1_roundtrip_safe_obj_witness :
    valOK (.obj (.cons ("a".toList) (.str ("b, c".toList)) .nil)) = true ∧
    generateJSON (serVal (.obj (.cons ("a".toList) (.str ("b, c".toList)) .nil))) =
      .ok (.obj (.cons ("a".toList) (.str ("b, c".toList)) .nil)) :=
  ⟨by decide, C1_roundtrip_safe_obj _ (by decide)⟩

/-- A known-shape element: the object with the single member "a" holding a number. -/
def giftElem (n : Int) : JVal := .obj (.cons ("a".toList) (.num n) .nil)

/-- Count consecutive known-shape elements starting from a given value. -/
def giftElemsFrom : Int → Nat → JList
  | _, 0 => .nil
  | s, n + 1 => .cons (giftElem s) (giftElemsFrom (s + 1) n)

/-- The first k known-shape elements. -/
def giftElems (k : Nat) : JList := giftElemsFrom 0 k

/-- The array of the first k known-shape elements wrapped under the known key "gifts". -/
def giftsDoc (k : Nat) : JVal := .obj (.cons ("gifts".toList) (.arr (giftElems k)) .nil)

def c2doc : JVal := .arr (giftElems 3)

/-- C2 (counterexample): the serialization of the bare array of three known-shape objects,
truncated at the boundary strictly between elements one and two, defeats every recovery
strategy: the greedy object regular expression steals the candidate text, the bracket-closure
strategy finds no safe position, and per-key salvage finds no known key, so generateJSON
throws rather than returning any array. -/
theorem C2_counterexample :
    (serVal c2doc).take 17 =
      ['[', lbr, '"', 'a', '"', ':', '0', rbr, ',', lbr, '"', 'a', '"', ':', '1', rbr, ','] ∧
    generateJSON ((serVal c2doc).take 17) = .err := by
  constructor
  · decide
  · decide

/-- The serialized text of the document head up to and including the array opener. -/
def giftsHdr : List Char := lbr :: (serStr ("gifts".toList) ++ [':', '['])

/-- The serialization of the wrapped document truncated at the boundary right after element
i's trailing comma: header, the first i + 1 elements, and the dangling comma. -/
def truncText (i : Nat) : List Char := giftsHdr ++ serList (giftElems (i + 1)) ++ [',']

theorem serVal_giftElem (n : Int) :
    serVal (giftElem n) = lbr :: '"' :: 'a' :: '"' :: ':' :: (intRepr n ++ [rbr]) := by
  rw [giftElem, serVal, serMembers, serStr]
  simp [escStr, escapeChar, serVal]

theorem valOKL_giftElemsFrom (n : Nat) : ∀ s : Int, valOKL (giftElemsFrom s n) = true := by
  induction n with
  | zero => intro s; rfl
  | succ n ih =>
    intro s
    rw [giftElemsFrom, valOKL, Bool.and_eq_true]
    refine ⟨?_, ih (s + 1)⟩
    rw [giftElem, valOK, valOKM, show valOK (.num s) = true from rfl]
    decide

theorem serVal_giftsDoc (k : Nat) (hk : 1 ≤ k) :
    serVal (giftsDoc k) = giftsHdr ++ serList (giftElems k) ++ [']', rbr] := by
  obtain ⟨k2, rfl⟩ : ∃ k2, k = k2 + 1 := ⟨k - 1, by omega⟩
  rw [giftsDoc, serVal, serMembers, giftsHdr]
  rw [show giftElems (k2 + 1) = .cons (giftElem 0) (giftElemsFrom (0 + 1) k2) from by
    rw [giftElems, giftElemsFrom]]
  rw [serVal]
  simp

/-- Splitting the serialization of a run of elements at an interior boundary. -/
theorem serList_gsplit : ∀ (n : Nat) (m : Nat) (s : Int),
    serList (giftElemsFrom s (n + 1 + (m + 1))) =
      serList (giftElemsFrom s (n + 1)) ++
        ',' :: serList (giftElemsFrom (s + (n + 1 : Nat)) (m + 1)) := by
  intro n
  induction n with
  | zero =>
    intro m s
    have h1 : giftElemsFrom s (0 + 1 + (m + 1)) =
        .cons (giftElem s) (.cons (giftElem (s + 1)) (giftElemsFrom (s + 1 + 1) m)) := by
      rw [show 0 + 1 + (m + 1) = m + 1 + 1 from by omega, giftElemsFrom, giftElemsFrom]
    have h2 : giftElemsFrom s (0 + 1) = .cons (giftElem s) .nil := by
      simp [giftElemsFrom]
    have h3 : giftElemsFrom (s + ((0 : Nat) + 1 : Nat)) (m + 1) =
        .cons (giftElem (s + 1)) (giftElemsFrom (s + 1 + 1) m) := by
      norm_num
      rw [giftElemsFrom]
    rw [h1, h2, h3]
    simp [serList]
  | succ n ih =>
    intro m s
    have h1 : giftElemsFrom s (n + 1 + 1 + (m + 1)) =
        .cons (giftElem s) (giftElemsFrom (s + 1) (n + 1 + (m + 1))) := by
      rw [show n + 1 + 1 + (m + 1) = (n + 1 + (m + 1)) + 1 from by omega, giftElemsFrom]
    have h2 : giftElemsFrom s (n + 1 + 1) =
        .cons (giftElem s) (giftElemsFrom (s + 1) (n + 1)) := by
      rw [giftElemsFrom]
    have h3 : giftElemsFrom (s + 1) (n + 1 + (m + 1)) =
        .cons (giftElem (s + 1)) (giftElemsFrom (s + 1 + 1) (n + (m + 1))) := by
      rw [show n + 1 + (m + 1) = (n + (m + 1)) + 1 from by omega, giftElemsFrom]
    have h4 : giftElemsFrom (s + 1) (n + 1) =
        .cons (giftElem (s + 1)) (giftElemsFrom (s + 1 + 1) n) := by
      rw [giftElemsFrom]
    rw [h1, h2]
    rw [show serList (.cons (giftElem s) (giftElemsFrom (s + 1) (n + 1 + (m + 1)))) =
        serVal (giftElem s) ++ ',' :: serList (giftElemsFrom (s + 1) (n + 1 + (m + 1)))
      from by rw [h3, serList, ← h3]]
    rw [show serList (.cons (giftElem s) (giftElemsFrom (s + 1) (n + 1))) =
        serVal (giftElem s) ++ ',' :: serList (giftElemsFrom (s + 1) (n + 1))
      from by rw [h4, serList, ← h4]]
    rw [ih m (s + 1)]
    rw [show s + 1 + ((n + 1 : Nat) : Int) = s + ((n + 1 + 1 : Nat) : Int) from by
      push_cast; ring]
    simp

theorem intRepr_chars (i : Int) : ∀ c ∈ intRepr i, c = '-' ∨ c.isDigit = true := by
  intro c hc
  rw [intRepr] at hc
  split_ifs at hc
  · rcases List.mem_cons.mp hc with rfl | hc2
    · exact Or.inl rfl
    · exact Or.inr (natDigits_all_digits _ c hc2)
  · exact Or.inr (natDigits_all_digits _ c hc)

/-- The character alphabet of a serialized known-shape element. -/
def giftAlpha (c : Char) : Prop :=
  c = lbr ∨ c = rbr ∨ c = '"' ∨ c = 'a' ∨ c = ':' ∨ c = ',' ∨ c = '-' ∨ c.isDigit = true

theorem giftElem_chars (s : Int) : ∀ c ∈ serVal (giftElem s), giftAlpha c := by
  intro c hc
  rw [serVal_giftElem] at hc
  rw [giftAlpha]
  rcases List.mem_cons.mp hc with rfl | hc
  · tauto
  rcases List.mem_cons.mp hc with rfl | hc
  · tauto
  rcases List.mem_cons.mp hc with rfl | hc
  · tauto
  rcases List.mem_cons.mp hc with rfl | hc
  · tauto
  rcases List.mem_cons.mp hc with rfl | hc
  · tauto
  rcases List.mem_append.mp hc with hc | hc
  · rcases intRepr_chars s c hc with h | h <;> tauto
  · simp only [List.mem_singleton] at hc
    subst hc
    tauto

theorem serList_gift_chars (n : Nat) : ∀ (s : Int), ∀ c ∈ serList (giftElemsFrom s n),
    giftAlpha c := by
  induction n with
  | zero => intro s c hc; rw [giftElemsFrom] at hc; simp [serList] at hc
  | succ n ih =>
    intro s c hc
    cases n with
    | zero =>
      rw [giftElemsFrom] at hc
      rw [show giftElemsFrom (s + 1) 0 = .nil from rfl, serList] at hc
      exact giftElem_chars s c hc
    | succ n2 =>
      rw [giftElemsFrom] at hc
      rw [show giftElemsFrom (s + 1) (n2 + 1) = .cons (giftElem (s + 1))
        (giftElemsFrom (s + 1 + 1) n2) from by rw [giftElemsFrom], serList, ← giftElemsFrom]
        at hc
      rcases List.mem_append.mp hc with hc2 | hc2
      · exact giftElem_chars s c hc2
      rcases List.mem_cons.mp hc2 with rfl | hc3
      · rw [giftAlpha]; tauto
      · exact ih (s + 1) c hc3

theorem giftAlpha_ne_lbracket {c : Char} (h : giftAlpha c) : ¬ c = '[' := by
  rw [giftAlpha] at h
  rcases h with rfl | rfl | rfl | rfl | rfl | rfl | rfl | hd
  · decide
  · decide
  · decide
  · decide
  · decide
  · decide
  · decide
  · intro he
    have h2 := isDigit_iff.mp hd
    rw [he] at h2
    exact absurd h2 (by decide)

theorem giftAlpha_ne_rbracket {c : Char} (h : giftAlpha c) : ¬ c = ']' := by
  rw [giftAlpha] at h
  rcases h with rfl | rfl | rfl | rfl | rfl | rfl | rfl | hd
  · decide
  · decide
  · decide
  · decide
  · decide
  · decide
  · decide
  · intro he
    have h2 := isDigit_iff.mp hd
    rw [he] at h2
    exact absurd h2 (by decide)

theorem intRepr_ne_rbr (i : Int) : ∀ c ∈ intRepr i, ¬ c = rbr := by
  intro c hc he
  rcases intRepr_chars i c hc with h | h
  · rw [he] at h; exact absurd h (by decide)
  · rw [he] at h
    have h2 := isDigit_iff.mp h
    exact absurd h2 (by decide)

/-- A serialized element is its body followed by the closing brace, and the body holds no
closing brace. -/
theorem giftElem_split (s : Int) :
    serVal (giftElem s) = (lbr :: '"' :: 'a' :: '"' :: ':' :: intRepr s) ++ [rbr] ∧
    ∀ c ∈ lbr :: '"' :: 'a' :: '"' :: ':' :: intRepr s, ¬ c = rbr := by
  constructor
  · rw [serVal_giftElem]; simp
  · intro c hc
    rcases List.mem_cons.mp hc with rfl | hc
    · decide
    rcases List.mem_cons.mp hc with rfl | hc
    · decide
    rcases List.mem_cons.mp hc with rfl | hc
    · decide
    rcases List.mem_cons.mp hc with rfl | hc
    · decide
    rcases List.mem_cons.mp hc with rfl | hc
    · decide
    exact intRepr_ne_rbr s c hc

/-- A serialized run of elements ends with the last element's closing brace. -/
theorem serList_ends_rbr (n : Nat) : ∀ s : Int,
    ∃ B, serList (giftElemsFrom s (n + 1)) = B ++ [rbr] := by
  induction n with
  | zero =>
    intro s
    refine ⟨lbr :: '"' :: 'a' :: '"' :: ':' :: intRepr s, ?_⟩
    rw [giftElemsFrom, show giftElemsFrom (s + 1) 0 = .nil from rfl, serList]
    exact (giftElem_split s).1
  | succ n ih =>
    intro s
    obtain ⟨B, hB⟩ := ih (s + 1)
    refine ⟨serVal (giftElem s) ++ ',' :: B, ?_⟩
    rw [giftElemsFrom]
    rw [show giftElemsFrom (s + 1) (n + 1) = .cons (giftElem (s + 1))
      (giftElemsFrom (s + 1 + 1) n) from by rw [giftElemsFrom], serList, ← giftElemsFrom, hB]
    simp

theorem lastIdx_append (c : Char) (w z : List Char) :
    lastIdx c (w ++ z) = match lastIdx c z with
      | some j => some (w.length + j)
      | none => lastIdx c w := by
  induction w with
  | nil => cases h : lastIdx c z <;> simp [h, lastIdx]
  | cons d w2 ih =>
    rw [List.cons_append, lastIdx, ih, lastIdx]
    cases h : lastIdx c z with
    | some j => simp [List.length_cons]; omega
    | none => rfl

theorem lastIdx_none (c : Char) (z : List Char) (h : ∀ d ∈ z, ¬ d = c) :
    lastIdx c z = none := by
  induction z with
  | nil => rfl
  | cons d z2 ih =>
    rw [lastIdx, ih fun e he => h e (List.mem_cons_of_mem d he)]
    rw [if_neg (h d (List.mem_cons_self d z2))]

theorem maxEndP_none_cl (op cl : Char) (s : List Char) (h : ∀ c ∈ s, ¬ c = cl) :
    maxEndP op cl s = none := by
  induction s with
  | nil => rfl
  | cons c r ih =>
    have ih2 := ih fun d hd => h d (List.mem_cons_of_mem c hd)
    rw [maxEndP, ih2]
    by_cases hc : c = op
    · cases hd : r.dropWhile isJsWs with
      | nil => simp [hc, hd]
      | cons d t =>
        have hdm : d ∈ r := (List.dropWhile_sublist (p := isJsWs) (l := r)).mem
          (by rw [hd]; exact List.mem_cons_self d t)
        have : ¬ d = cl := h d (List.mem_cons_of_mem c hdm)
        simp [hc, hd, this]
    · simp [hc]

theorem maxEndP_none_op (op cl : Char) (s : List Char) (h : ∀ c ∈ s, ¬ c = op) :
    maxEndP op cl s = none := by
  induction s with
  | nil => rfl
  | cons c r ih =>
    have ih2 := ih fun d hd => h d (List.mem_cons_of_mem c hd)
    rw [maxEndP, ih2]
    simp [h c (List.mem_cons_self c r)]

theorem afterCloserP1_nil : afterCloserP1 [] = false := rfl

theorem afterCloserP1_comma {d : Char} (r3 : List Char) (hd : isJsWs d = false) :
    afterCloserP1 (',' :: d :: r3) = false := by
  rw [afterCloserP1]
  rw [show List.dropWhile isJsWs (',' :: d :: r3) = ',' :: d :: r3 from by
    rw [List.dropWhile_cons, show isJsWs ',' = false from by decide]; simp]
  simp only []
  rw [show List.dropWhile isJsWs (d :: r3) = d :: r3 from by
    rw [List.dropWhile_cons, hd]; simp]
  rw [show List.takeWhile isJsWs (d :: r3) = [] from by
    rw [List.takeWhile_cons, hd]; simp]
  simp

theorem hasP1_cons_ne {c : Char} {r : List Char} (hc : ¬ c = rbr) (h : hasP1 r = false) :
    hasP1 (c :: r) = false := by
  rw [hasP1]
  simp [hc, h]

theorem hasP1_cons_rbr {r : List Char} (ha : afterCloserP1 r = false) (h : hasP1 r = false) :
    hasP1 (rbr :: r) = false := by
  rw [hasP1]
  simp [ha, h]

theorem hasP1_append_none {a b : List Char} (ha : ∀ c ∈ a, ¬ c = rbr)
    (hb : hasP1 b = false) : hasP1 (a ++ b) = false := by
  induction a with
  | nil => exact hb
  | cons c r ih =>
    exact hasP1_cons_ne (ha c (List.mem_cons_self c r))
      (ih fun d hd => ha d (List.mem_cons_of_mem c hd))

theorem hasP3_none (s : List Char) (h : ∀ c ∈ s, ¬ c = ']') : hasP3 s = false := by
  induction s with
  | nil => rfl
  | cons c r ih =>
    rw [hasP3]
    simp [h c (List.mem_cons_self c r), ih fun d hd => h d (List.mem_cons_of_mem c hd)]

theorem depthScanGo_none (s : List Char) (h : ∀ c ∈ s, ¬ c = '[' ∧ ¬ c = ']') :
    ∀ depth idx : Nat, 1 ≤ depth → depthScanGo s depth idx = none := by
  induction s with
  | nil => intro depth idx _; rfl
  | cons c r ih =>
    intro depth idx hd
    rw [depthScanGo]
    have h1 := (h c (List.mem_cons_self c r)).1
    have h2 := (h c (List.mem_cons_self c r)).2
    simp only [h1, h2, if_false]
    rw [if_neg (show ¬ depth = 0 from by omega)]
    exact ih (fun d hdm => h d (List.mem_cons_of_mem c hdm)) depth (idx + 1) hd

theorem lastSubIdx_rc_none (B : List Char) (h : ∀ c ∈ B, ¬ c = rbr) :
    lastSubIdx [rbr, ','] (B ++ [rbr]) = none := by
  induction B with
  | nil => decide
  | cons c B2 ih =>
    rw [List.cons_append, lastSubIdx, ih fun d hd => h d (List.mem_cons_of_mem c hd)]
    have : (rbr == c) = false := by
      simp only [beq_eq_false_iff_ne]
      exact fun he => h c (List.mem_cons_self c B2) he.symm
    simp [List.isPrefixOf, this]

theorem lastSubIdx_comma_none (B : List Char) (h : ∀ c ∈ B, ¬ c = rbr) :
    lastSubIdx [rbr, ','] (',' :: (B ++ [rbr])) = none := by
  rw [lastSubIdx, lastSubIdx_rc_none B h]
  have hp : ([rbr, ','].isPrefixOf (',' :: (B ++ [rbr]))) = false := by
    rw [List.isPrefixOf, show (rbr == ',') = false from by decide]
    simp
  simp only []
  rw [hp]
  simp

theorem lastSubIdx_hit (B : List Char) (h : ∀ c ∈ B, ¬ c = rbr) (E : List Char)
    (hE : E = ',' :: (B ++ [rbr])) : lastSubIdx [rbr, ','] (rbr :: E) = some 0 := by
  subst hE
  rw [lastSubIdx, lastSubIdx_comma_none B h]
  simp [List.isPrefixOf]

theorem lastSubIdx_append_some (pat : List Char) (w z : List Char) (j : Nat)
    (h : lastSubIdx pat z = some j) : lastSubIdx pat (w ++ z) = some (w.length + j) := by
  induction w with
  | nil => simpa using h
  | cons c w2 ih =>
    rw [List.cons_append, lastSubIdx, ih]
    simp only [Option.some.injEq, List.length_cons]
    omega

/-- The head of a serialized element run, exposed as a non-whitespace cons cell. -/
theorem serList_gift_head (n : Nat) (s : Int) : ∃ c t,
    serList (giftElemsFrom s (n + 1)) = c :: t ∧ isValStart c := by
  have h1 : giftElemsFrom s (n + 1) = .cons (giftElem s) (giftElemsFrom (s + 1) n) := by
    rw [giftElemsFrom]
  obtain ⟨c, t, hc, hs⟩ := serVal_cons (giftElem s)
  rw [h1, serList_cons, hc]
  exact ⟨c, t ++ serListTail (giftElemsFrom (s + 1) n), by simp, hs⟩

/-- Neither pattern one nor pattern three of strategy 1 matches anywhere inside a serialized
element run: every interior closing brace is followed directly by a comma and the next element,
and the final one ends the text. -/
theorem hasP1_serList_gifts (n : Nat) : ∀ s : Int,
    hasP1 (serList (giftElemsFrom s (n + 1))) = false := by
  induction n with
  | zero =>
    intro s
    rw [giftElemsFrom, show giftElemsFrom (s + 1) 0 = .nil from rfl, serList,
      (giftElem_split s).1]
    refine hasP1_append_none (giftElem_split s).2 ?_
    rw [hasP1]
    simp [afterCloserP1_nil, hasP1]
  | succ n ih =>
    intro s
    rw [giftElemsFrom, show giftElemsFrom (s + 1) (n + 1) = .cons (giftElem (s + 1))
      (giftElemsFrom (s + 1 + 1) n) from by rw [giftElemsFrom], serList, ← giftElemsFrom,
      (giftElem_split s).1]
    rw [List.append_assoc]
    refine hasP1_append_none (giftElem_split s).2 ?_
    rw [List.singleton_append]
    obtain ⟨c, t, hct, hstart⟩ := serList_gift_head n (s + 1)
    refine hasP1_cons_rbr ?_ ?_
    · rw [hct]
      exact afterCloserP1_comma t (valStart_not_jsws hstart)
    · refine hasP1_cons_ne (by decide) ?_
      exact ih (s + 1)

/-- Whether the character after a quote rules out every known key of strategy 2. -/
def qHead : List Char → Bool
  | d :: _ => !(d == 'b') && !(d == 'e') && !(d == 'm') && !(d == 'g') && !(d == 'c')
  | [] => false

/-- Text in which every quote is followed, within the text, by a character other than the
first letters of the known keys: no key pattern can start anywhere in it or in anything it is
a prefix of. -/
def qOK : List Char → Bool
  | [] => true
  | c :: r => (if c = '"' then qHead r else true) && qOK r

theorem qOK_cons_ne {c : Char} (hc : ¬ c = '"') {r : List Char} (h : qOK r = true) :
    qOK (c :: r) = true := by
  rw [qOK]
  simp [hc, h]

theorem qOK_cons_quote {d : Char} {r : List Char}
    (hd : ¬ d = 'b' ∧ ¬ d = 'e' ∧ ¬ d = 'm' ∧ ¬ d = 'g' ∧ ¬ d = 'c')
    (h : qOK (d :: r) = true) : qOK ('"' :: d :: r) = true := by
  rw [qOK, if_pos rfl, qHead]
  simp [hd.1, hd.2.1, hd.2.2.1, hd.2.2.2.1, hd.2.2.2.2, h]

theorem qOK_of_no_quote (s : List Char) (h : ∀ c ∈ s, ¬ c = '"') : qOK s = true := by
  induction s with
  | nil => rfl
  | cons c r ih =>
    exact qOK_cons_ne (h c (List.mem_cons_self c r))
      (ih fun d hd => h d (List.mem_cons_of_mem c hd))

theorem qOK_append {a b : List Char} (ha : qOK a = true) (hb : qOK b = true) :
    qOK (a ++ b) = true := by
  induction a with
  | nil => exact hb
  | cons c a2 ih =>
    rw [qOK, Bool.and_eq_true] at ha
    by_cases hc : c = '"'
    · subst hc
      rw [if_pos rfl] at ha
      cases a2 with
      | nil => rw [qHead] at ha; simp at ha
      | cons d t =>
        rw [List.cons_append, List.cons_append, qOK, if_pos rfl]
        rw [qHead] at ha ⊢
        rw [ha.1]
        simp only [Bool.true_and]
        have h2 := ih ha.2
        rw [List.cons_append] at h2
        exact h2
    · exact qOK_cons_ne hc (ih ha.2)

theorem keyMatchAtGo_none (ks : List (List Char)) (s : List Char)
    (h : ∀ k ∈ ks, ('"' :: (k ++ ['"'])).isPrefixOf s = false) :
    keyMatchAtGo ks s = none := by
  induction ks with
  | nil => rfl
  | cons k ks2 ih =>
    rw [keyMatchAtGo]
    simp only [h k (List.mem_cons_self k ks2), Bool.false_eq_true, if_false]
    exact ih fun k2 hk2 => h k2 (List.mem_cons_of_mem k hk2)

theorem keyMatchAt_nil : keyMatchAt [] = none := by decide

theorem keyMatchAt_one : ∀ c : Char, keyMatchAt [c] = none := by
  intro c
  refine keyMatchAtGo_none _ _ ?_
  intro k hk
  have hgen : ∀ kl : List Char, (kl ++ ['"']).isPrefixOf ([] : List Char) = false := by
    intro kl
    cases kl <;> rfl
  rw [List.isPrefixOf, hgen]
  exact Bool.and_false _

theorem keyMatchAt_ne_quote {c : Char} (r : List Char) (hc : ¬ c = '"') :
    keyMatchAt (c :: r) = none := by
  refine keyMatchAtGo_none _ _ ?_
  intro k _
  rw [List.isPrefixOf, show ('"' == c) = false from by
    simp only [beq_eq_false_iff_ne]; exact fun he => hc he.symm]
  rfl

theorem keyMatchAt_quote_head {d : Char} (r : List Char)
    (hd : ¬ d = 'b' ∧ ¬ d = 'e' ∧ ¬ d = 'm' ∧ ¬ d = 'g' ∧ ¬ d = 'c') :
    keyMatchAt ('"' :: d :: r) = none := by
  refine keyMatchAtGo_none _ _ ?_
  intro k hk
  have hstep : ∀ (kh : Char) (kt : List Char), ¬ kh = d →
      ('"' :: ((kh :: kt) ++ ['"'])).isPrefixOf ('"' :: d :: r) = false := by
    intro kh kt hne
    rw [List.cons_append, List.isPrefixOf, List.isPrefixOf,
      show (kh == d) = false from by
        simp only [beq_eq_false_iff_ne]; exact hne]
    simp
  rw [recoveryKeys] at hk
  simp only [List.mem_cons, List.not_mem_nil, or_false] at hk
  rcases hk with rfl | rfl | rfl | rfl | rfl
  · exact hstep 'b' _ (fun he => hd.1 he.symm)
  · exact hstep 'e' _ (fun he => hd.2.1 he.symm)
  · exact hstep 'm' _ (fun he => hd.2.2.1 he.symm)
  · exact hstep 'g' _ (fun he => hd.2.2.2.1 he.symm)
  · exact hstep 'c' _ (fun he => hd.2.2.2.2 he.symm)

/-- In quote-safe text no suffix begins with a key-pattern match. -/
theorem qOK_keyMatchAt (s : List Char) (h : qOK s = true) :
    ∀ t, t <:+ s → keyMatchAt t = none := by
  induction s with
  | nil =>
    intro t ht
    rw [List.suffix_nil.mp ht]
    exact keyMatchAt_nil
  | cons c r ih =>
    intro t ht
    rw [qOK, Bool.and_eq_true] at h
    rcases List.suffix_cons_iff.mp ht with rfl | ht2
    · by_cases hc : c = '"'
      · subst hc
        rw [if_pos rfl] at h
        cases r with
        | nil => rw [qHead] at h; simp at h
        | cons d t2 =>
          rw [qHead] at h
          have hd := h.1
          simp only [Bool.and_eq_true, Bool.not_eq_true', beq_eq_false_iff_ne] at hd
          exact keyMatchAt_quote_head t2
            ⟨hd.1.1.1.1, hd.1.1.1.2, hd.1.1.2, hd.1.2, hd.2⟩
      · exact keyMatchAt_ne_quote r hc
    · exact ih h.2 t ht2

/-- The key scan finds nothing in text none of whose suffixes begins a key match. -/
theorem findKeyMatchesF_nil : ∀ (f : Nat) (s : List Char) (off : Nat),
    (∀ t, t <:+ s → keyMatchAt t = none) → findKeyMatchesF f s off = [] := by
  intro f
  induction f with
  | zero => intro s off _; rfl
  | succ f ih =>
    intro s off h
    cases s with
    | nil => rfl
    | cons c r =>
      rw [findKeyMatchesF, h (c :: r) (List.suffix_refl _)]
      exact ih r (off + 1) fun t ht => h t (ht.trans (List.suffix_cons c r))

theorem qOK_giftElem (s : Int) : qOK (serVal (giftElem s)) = true := by
  rw [serVal_giftElem]
  refine qOK_cons_ne (by decide) (qOK_cons_quote (by decide) (qOK_cons_ne (by decide)
    (qOK_cons_quote (by decide) (qOK_cons_ne (by decide) (qOK_append ?_ (by decide))))))
  refine qOK_of_no_quote _ ?_
  intro c hc he
  rcases intRepr_chars s c hc with h | h
  · rw [he] at h; exact absurd h (by decide)
  · rw [he] at h
    exact absurd (isDigit_iff.mp h) (by decide)

theorem qOK_serList_gifts (n : Nat) : ∀ s : Int,
    qOK (serList (giftElemsFrom s (n + 1))) = true := by
  induction n with
  | zero =>
    intro s
    rw [giftElemsFrom, show giftElemsFrom (s + 1) 0 = .nil from rfl, serList]
    exact qOK_giftElem s
  | succ n ih =>
    intro s
    rw [giftElemsFrom, show giftElemsFrom (s + 1) (n + 1) = .cons (giftElem (s + 1))
      (giftElemsFrom (s + 1 + 1) n) from by rw [giftElemsFrom], serList, ← giftElemsFrom]
    exact qOK_append (qOK_giftElem s) (qOK_cons_ne (by decide) (ih (s + 1)))

theorem serList_gift_len (n : Nat) : ∀ s : Int,
    n + 7 ≤ (serList (giftElemsFrom s (n + 1))).length := by
  induction n with
  | zero =>
    intro s
    rw [giftElemsFrom, show giftElemsFrom (s + 1) 0 = .nil from rfl, serList,
      serVal_giftElem]
    have := natDigits_ne_nil s.natAbs
    have h2 : 1 ≤ (intRepr s).length := by
      rw [intRepr]
      split_ifs
      · simp
      · cases hh : natDigits s.toNat with
        | nil => exact absurd hh (natDigits_ne_nil _)
        | cons a b => simp
    simp only [List.length_cons, List.length_append, List.length_singleton]
    omega
  | succ n ih =>
    intro s
    rw [giftElemsFrom, show giftElemsFrom (s + 1) (n + 1) = .cons (giftElem (s + 1))
      (giftElemsFrom (s + 1 + 1) n) from by rw [giftElemsFrom], serList, ← giftElemsFrom]
    have h1 : n + 7 ≤ (serList (giftElemsFrom (s + 1) (n + 1))).length := ih (s + 1)
    have h2 : 1 ≤ (serVal (giftElem s)).length := serVal_length_pos _
    simp only [Nat.succ_eq_add_one, List.length_append, List.length_cons]
    omega

theorem cntV_giftElem (s : Int) : cntV (giftElem s) = 3 := by
  rw [giftElem, cntV, cntM]
  rfl

/-- The element loop fails on a serialized element run that is never closed: after the last
element the input ends where a comma or closing bracket is required. -/
theorem parseElems_gifts_none : ∀ (n : Nat) (s : Int) (f : Nat), n + 4 ≤ f →
    parseElems f (serList (giftElemsFrom s (n + 1))) = none := by
  intro n
  induction n with
  | zero =>
    intro s f hf
    obtain ⟨f2, rfl⟩ : ∃ f2, f = f2 + 1 := ⟨f - 1, by omega⟩
    rw [giftElemsFrom, show giftElemsFrom (s + 1) 0 = .nil from rfl, serList]
    rw [parseElems]
    have hp := parseVal_ser (giftElem s) f2 [] (by rw [cntV_giftElem]; omega)
      (by intro c t h; simp at h)
    rw [List.append_nil] at hp
    rw [hp]
    simp [skipWs]
  | succ n ih =>
    intro s f hf
    obtain ⟨f2, rfl⟩ : ∃ f2, f = f2 + 1 := ⟨f - 1, by omega⟩
    rw [giftElemsFrom, show giftElemsFrom (s + 1) (n + 1) = .cons (giftElem (s + 1))
      (giftElemsFrom (s + 1 + 1) n) from by rw [giftElemsFrom], serList, ← giftElemsFrom]
    rw [parseElems]
    have hp := parseVal_ser (giftElem s) f2 (',' :: serList (giftElemsFrom (s + 1) (n + 1)))
      (by rw [cntV_giftElem]; omega)
      (by intro c t h; injection h with h1 h2; rw [← h1]; decide)
    rw [hp]
    simp only [Option.some_bind]
    rw [skipWs_not_ws (by decide)]
    simp only []
    obtain ⟨c, t, hct, hstart⟩ := serList_gift_head n (s + 1)
    rw [hct, skipWs_not_ws (valStart_not_ws hstart), ← hct, ih (s + 1) f2 (by omega)]
    rfl

theorem giftsHdr_eq :
    giftsHdr = lbr :: '"' :: 'g' :: 'i' :: 'f' :: 't' :: 's' :: '"' :: ':' :: '[' :: [] := by
  decide

/-- Direct parsing fails on the extracted candidate of a truncated document: the element run
is never closed. -/
theorem jparse_trunc_none (n : Nat) :
    jparse (giftsHdr ++ serList (giftElemsFrom 0 (n + 1))) = none := by
  obtain ⟨c0, t0, hct, hstart⟩ := serList_gift_head n 0
  have hlenR := serList_gift_len n 0
  have harr : ∀ f : Nat, n + 5 ≤ f →
      parseVal f ('[' :: serList (giftElemsFrom 0 (n + 1))) = none := by
    intro f hf
    obtain ⟨f2, rfl⟩ : ∃ f2, f = f2 + 1 := ⟨f - 1, by omega⟩
    rw [parseVal.eq_def]
    simp only []
    rw [if_neg (show ¬(('[' : Char) = 'n') from by decide),
      if_neg (show ¬(('[' : Char) = 't') from by decide),
      if_neg (show ¬(('[' : Char) = 'f') from by decide),
      if_neg (show ¬(('[' : Char) = '"') from by decide)]
    rw [if_pos trivial]
    rw [hct, skipWs_not_ws (valStart_not_ws hstart)]
    simp only []
    rw [if_neg (valStart_ne_rbracket hstart), ← hct,
      parseElems_gifts_none n 0 f2 (by omega)]
    rfl
  have hmem : ∀ f : Nat, n + 6 ≤ f →
      parseMembers f ('"' :: 'g' :: 'i' :: 'f' :: 't' :: 's' :: '"' :: ':' :: '[' ::
        serList (giftElemsFrom 0 (n + 1))) = none := by
    intro f hf
    obtain ⟨f2, rfl⟩ : ∃ f2, f = f2 + 1 := ⟨f - 1, by omega⟩
    rw [parseMembers.eq_def]
    simp only []
    rw [if_pos trivial]
    have hpsb : parseStrBody ('g' :: 'i' :: 'f' :: 't' :: 's' :: '"' :: ':' :: '[' ::
        serList (giftElemsFrom 0 (n + 1))) = some (['g', 'i', 'f', 't', 's'],
        ':' :: '[' :: serList (giftElemsFrom 0 (n + 1))) := by
      simp [parseStrBody]
    rw [hpsb]
    simp only [Option.some_bind]
    rw [skipWs_not_ws (by decide)]
    simp only []
    rw [if_pos trivial]
    rw [skipWs_not_ws (by decide), harr f2 (by omega)]
    rfl
  have hv : ∀ f : Nat, n + 7 ≤ f →
      parseVal f (lbr :: ('"' :: 'g' :: 'i' :: 'f' :: 't' :: 's' :: '"' :: ':' :: '[' ::
        serList (giftElemsFrom 0 (n + 1)))) = none := by
    intro f hf
    obtain ⟨f2, rfl⟩ : ∃ f2, f = f2 + 1 := ⟨f - 1, by omega⟩
    rw [parseVal.eq_def]
    simp only []
    rw [if_neg (show ¬(lbr = 'n') from by decide),
      if_neg (show ¬(lbr = 't') from by decide),
      if_neg (show ¬(lbr = 'f') from by decide),
      if_neg (show ¬(lbr = '"') from by decide),
      if_neg (show ¬(lbr = '[') from by decide)]
    rw [if_pos trivial]
    rw [skipWs_not_ws (by decide)]
    simp only []
    rw [if_neg (show ¬(('"' : Char) = rbr) from by decide)]
    rw [hmem f2 (by omega)]
    rfl
  have hshape : giftsHdr ++ serList (giftElemsFrom 0 (n + 1)) =
      lbr :: ('"' :: 'g' :: 'i' :: 'f' :: 't' :: 's' :: '"' :: ':' :: '[' ::
        serList (giftElemsFrom 0 (n + 1))) := by
    rw [giftsHdr_eq]
    rfl
  rw [jparse, hshape, skipWs_not_ws (by decide)]
  rw [hv _ (by simp only [List.length_cons]; omega)]

theorem giftAlpha_ne_btk {c : Char} (h : giftAlpha c) : ¬ c = btk := by
  rw [giftAlpha] at h
  rcases h with rfl | rfl | rfl | rfl | rfl | rfl | rfl | hd
  · decide
  · decide
  · decide
  · decide
  · decide
  · decide
  · decide
  · intro he
    rw [he] at hd
    exact absurd (isDigit_iff.mp hd) (by decide)

/-- The candidate that extraction recovers from the truncated document text. -/
def truncCand (i : Nat) : List Char := giftsHdr ++ serList (giftElems (i + 1))

theorem giftsHdr_no_rbracket : ∀ c ∈ giftsHdr, ¬ c = ']' := by decide

theorem giftsHdr_no_btk : ∀ c ∈ giftsHdr, ¬ c = btk := by decide

theorem giftsHdr_no_comma : ∀ c ∈ giftsHdr, ¬ c = ',' := by decide

theorem giftsHdr_no_rbr : ∀ c ∈ giftsHdr, ¬ c = rbr := by decide

theorem giftsHdr_len : giftsHdr.length = 10 := by decide

theorem truncCand_no_rbracket (i : Nat) : ∀ c ∈ truncCand i, ¬ c = ']' := by
  intro c hc
  rcases List.mem_append.mp hc with hc2 | hc2
  · exact giftsHdr_no_rbracket c hc2
  · exact giftAlpha_ne_rbracket (serList_gift_chars (i + 1) 0 c hc2)

theorem extractCandidate_trunc (i : Nat) : extractCandidate (truncText i) = truncCand i := by
  obtain ⟨B, hB⟩ := serList_ends_rbr i 0
  have hshape : truncText i = ((giftsHdr ++ B) ++ [rbr]) ++ [','] := by
    rw [truncText, giftElems, hB]
    simp
  have hbtk : ∀ c ∈ truncText i, ¬ c = btk := by
    intro c hc
    rw [truncText] at hc
    rcases List.mem_append.mp hc with hc2 | hc2
    · rcases List.mem_append.mp hc2 with hc3 | hc3
      · exact giftsHdr_no_btk c hc3
      · exact giftAlpha_ne_btk (serList_gift_chars (i + 1) 0 c hc3)
    · simp only [List.mem_singleton] at hc2
      subst hc2
      decide
  have hhead : truncText i = lbr :: ('"' :: 'g' :: 'i' :: 'f' :: 't' :: 's' :: '"' :: ':' ::
      '[' :: (serList (giftElems (i + 1)) ++ [','])) := by
    rw [truncText, giftsHdr_eq]
    simp
  have hfirst : firstIdx lbr (truncText i) = some 0 := by
    rw [hhead, firstIdx, if_pos rfl]
  have hlast : lastIdx rbr (truncText i) = some ((giftsHdr ++ B).length) := by
    rw [hshape, lastIdx_append]
    rw [lastIdx_none rbr [','] (by decide), lastIdx_concat]
  have hpos : 0 < (giftsHdr ++ B).length := by
    rw [List.length_append, giftsHdr_len]
    omega
  have htake : (truncText i).take ((giftsHdr ++ B).length - 0 + 1) = truncCand i := by
    rw [hshape, Nat.sub_zero]
    rw [show (giftsHdr ++ B).length + 1 = ((giftsHdr ++ B) ++ [rbr]).length from by
      simp only [List.length_append, List.length_singleton]]
    rw [List.take_left]
    rw [truncCand, giftElems, hB]
    simp
  have hbs : braceSlice lbr rbr (truncText i) = some (truncCand i) := by
    rw [braceSlice, hfirst, hlast]
    simp only []
    rw [if_pos hpos, List.drop_zero, htake]
  rw [extractCandidate, fenceFrom_none _ hbtk, hbs]

theorem noDangler_truncCand (i : Nat) : noDangler (truncCand i) = true := by
  rw [truncCand]
  refine noDangler_append (noDangler_of_all_ne _ giftsHdr_no_comma) ?_
  exact noDangler_serList _ (valOKL_giftElemsFrom (i + 1) 0)

theorem strat1_trunc (i : Nat) : strat1 (truncCand i) = .ok none := by
  have hp1 : hasP1 (truncCand i) = false := by
    rw [truncCand]
    refine hasP1_append_none giftsHdr_no_rbr ?_
    rw [giftElems]
    exact hasP1_serList_gifts i 0
  have hp3 : hasP3 (truncCand i) = false := hasP3_none _ (truncCand_no_rbracket i)
  have he2 : maxEndP rbr ']' (truncCand i) = none :=
    maxEndP_none_cl _ _ _ (truncCand_no_rbracket i)
  have he4 : maxEndP ']' rbr (truncCand i) = none :=
    maxEndP_none_op _ _ _ (truncCand_no_rbracket i)
  rw [strat1, if_neg (by rw [hp1, hp3]; simp), he2, he4]
  simp only []
  rw [if_neg (by rw [show (max (-1 : Int) (-1)) = -1 from by simp]; omega)]

theorem keyMatchAt_gifts (X : List Char) :
    keyMatchAt ('"' :: 'g' :: 'i' :: 'f' :: 't' :: 's' :: '"' :: ':' :: '[' :: X) =
      some ("gifts".toList, 9) := by
  have hstep : ∀ (kh : Char) (kt : List Char), ¬ kh = 'g' →
      ('"' :: kh :: (kt ++ ['"'])).isPrefixOf
        ('"' :: 'g' :: 'i' :: 'f' :: 't' :: 's' :: '"' :: ':' :: '[' :: X) = false := by
    intro kh kt hne
    rw [List.isPrefixOf, List.isPrefixOf,
      show (kh == 'g') = false from by simp only [beq_eq_false_iff_ne]; exact hne]
    simp
  rw [keyMatchAt, recoveryKeys]
  rw [keyMatchAtGo, show ("business_cards".toList ++ ['"']) =
    'b' :: ("usiness_cards".toList ++ ['"']) from rfl, hstep 'b' _ (by decide)]
  simp only [Bool.false_eq_true, if_false]
  rw [keyMatchAtGo, show ("events".toList ++ ['"']) =
    'e' :: ("vents".toList ++ ['"']) from rfl, hstep 'e' _ (by decide)]
  simp only [Bool.false_eq_true, if_false]
  rw [keyMatchAtGo, show ("memos".toList ++ ['"']) =
    'm' :: ("emos".toList ++ ['"']) from rfl, hstep 'm' _ (by decide)]
  simp only [Bool.false_eq_true, if_false]
  rw [keyMatchAtGo]
  rw [show ('"' :: ("gifts".toList ++ ['"'])).isPrefixOf
      ('"' :: 'g' :: 'i' :: 'f' :: 't' :: 's' :: '"' :: ':' :: '[' :: X) = true from by
    simp [List.isPrefixOf]]
  simp only [if_true]
  rw [show ('"' :: ("gifts".toList ++ ['"'])).length = 7 from by decide]
  rw [show List.drop 7 ('"' :: 'g' :: 'i' :: 'f' :: 't' :: 's' :: '"' :: ':' :: '[' :: X) =
    ':' :: '[' :: X from rfl]
  rw [show List.dropWhile isJsWs (':' :: '[' :: X) = ':' :: '[' :: X from by
    rw [List.dropWhile_cons, show isJsWs ':' = false from by decide]; simp]
  rw [show List.takeWhile isJsWs (':' :: '[' :: X) = [] from by
    rw [List.takeWhile_cons, show isJsWs ':' = false from by decide]; simp]
  simp only []
  rw [show List.dropWhile isJsWs ('[' :: X) = '[' :: X from by
    rw [List.dropWhile_cons, show isJsWs '[' = false from by decide]; simp]
  rw [show List.takeWhile isJsWs ('[' :: X) = [] from by
    rw [List.takeWhile_cons, show isJsWs '[' = false from by decide]; simp]
  simp only []
  rfl

theorem findKeyMatches_trunc (i : Nat) :
    findKeyMatches (truncCand i) = [("gifts".toList, 10)] := by
  have hqk : ∀ t, t <:+ serList (giftElems (i + 1)) → keyMatchAt t = none := by
    rw [giftElems]
    exact qOK_keyMatchAt _ (qOK_serList_gifts i 0)
  have hhead : truncCand i = lbr :: ('"' :: 'g' :: 'i' :: 'f' :: 't' :: 's' :: '"' :: ':' ::
      '[' :: serList (giftElems (i + 1))) := by
    rw [truncCand, giftsHdr_eq]
    rfl
  rw [findKeyMatches, hhead]
  simp only [List.length_cons]
  rw [findKeyMatchesF, keyMatchAt_ne_quote _ (by decide)]
  simp only []
  rw [findKeyMatchesF, keyMatchAt_gifts]
  simp only []
  rw [show List.drop 9 ('"' :: 'g' :: 'i' :: 'f' :: 't' :: 's' :: '"' :: ':' :: '[' ::
    serList (giftElems (i + 1))) = serList (giftElems (i + 1)) from rfl]
  rw [findKeyMatchesF_nil _ _ _ hqk]

theorem take_add_len (x : List Char) : ∀ (y : List Char) (n : Nat),
    (x ++ y).take (x.length + n) = x ++ y.take n := by
  induction x with
  | nil => intro y n; simp
  | cons c x2 ih =>
    intro y n
    rw [List.cons_append, List.length_cons]
    rw [show x2.length + 1 + n = (x2.length + n) + 1 from by omega, List.take_succ_cons]
    rw [ih y n, List.cons_append]

theorem strat2_trunc (i : Nat) (h1 : 1 ≤ i) : strat2 (truncCand i) = some (giftsDoc i) := by
  obtain ⟨i2, rfl⟩ : ∃ i2, i = i2 + 1 := ⟨i - 1, by omega⟩
  have hdrop : (truncCand (i2 + 1)).drop 10 = serList (giftElems (i2 + 1 + 1)) := by
    rw [truncCand, show (10 : Nat) = giftsHdr.length from giftsHdr_len.symm, List.drop_left]
  have hsplit : serList (giftElems (i2 + 1 + 1)) =
      serList (giftElems (i2 + 1)) ++
        ',' :: serList (giftElemsFrom ((0 : Int) + (i2 + 1 : Nat)) (0 + 1)) := by
    rw [giftElems, giftElems, show i2 + 1 + 1 = i2 + 1 + (0 + 1) from by omega]
    exact serList_gsplit i2 0 0
  have hE : serList (giftElemsFrom ((0 : Int) + (i2 + 1 : Nat)) (0 + 1)) =
      (lbr :: '"' :: 'a' :: '"' :: ':' :: intRepr ((0 : Int) + (i2 + 1 : Nat))) ++ [rbr] := by
    rw [show (0 : Nat) + 1 = 1 from rfl, show (1 : Nat) = 0 + 1 from rfl, giftElemsFrom,
      show giftElemsFrom ((0 : Int) + (i2 + 1 : Nat) + 1) 0 = .nil from rfl, serList]
    exact (giftElem_split _).1
  obtain ⟨A2, hA2⟩ := serList_ends_rbr i2 0
  have hA2len : 6 ≤ A2.length := by
    have := serList_gift_len i2 0
    rw [hA2] at this
    simp only [List.length_append, List.length_singleton] at this
    omega
  have hcontent : serList (giftElems (i2 + 1 + 1)) =
      A2 ++ (rbr :: ',' ::
        ((lbr :: '"' :: 'a' :: '"' :: ':' :: intRepr ((0 : Int) + (i2 + 1 : Nat))) ++ [rbr])) := by
    rw [hsplit, hE, giftElems, hA2]
    simp
  have hdepth : depthScanGo (serList (giftElems (i2 + 1 + 1))) 1 0 = none := by
    refine depthScanGo_none _ ?_ 1 0 (by omega)
    intro c hc
    rw [giftElems] at hc
    have h := serList_gift_chars (i2 + 1 + 1) 0 c hc
    exact ⟨giftAlpha_ne_lbracket h, giftAlpha_ne_rbracket h⟩
  have hlsi : lastSubIdx [rbr, ','] (serList (giftElems (i2 + 1 + 1))) = some A2.length := by
    rw [hcontent]
    have hhit := lastSubIdx_hit (lbr :: '"' :: 'a' :: '"' :: ':' ::
      intRepr ((0 : Int) + (i2 + 1 : Nat))) (giftElem_split _).2 _ rfl
    have := lastSubIdx_append_some [rbr, ','] A2 _ 0 hhit
    rw [Nat.add_zero] at this
    exact this
  have htake : (serList (giftElems (i2 + 1 + 1))).take (A2.length + 1) =
      serList (giftElems (i2 + 1)) := by
    rw [hcontent, take_add_len, giftElems, hA2]
    rfl
  have harr : ('[' : Char) :: (serList (giftElems (i2 + 1)) ++ [']']) =
      serVal (.arr (giftElems (i2 + 1))) := by
    rw [show giftElems (i2 + 1) = .cons (giftElem 0) (giftElemsFrom (0 + 1) i2) from by
      rw [giftElems, giftElemsFrom]]
    rw [serVal]
    simp
  have hnd : stripTC ('[' :: (serList (giftElems (i2 + 1)) ++ [']'])) =
      '[' :: (serList (giftElems (i2 + 1)) ++ [']']) := by
    rw [harr]
    refine stripTC_noDangler _ (noDangler_serVal _ ?_)
    rw [valOK, giftElems]
    exact valOKL_giftElemsFrom (i2 + 1) 0
  have hjp : jparse ('[' :: (serList (giftElems (i2 + 1)) ++ [']'])) =
      some (.arr (giftElems (i2 + 1))) := by
    rw [harr]
    exact jparse_serVal _
  rw [strat2, findKeyMatches_trunc]
  rw [List.foldl_cons, List.foldl_nil]
  rw [strat2Step]
  simp only []
  rw [hdrop, hdepth]
  simp only []
  rw [hlsi]
  simp only []
  rw [if_pos (show 0 < A2.length from by omega)]
  rw [htake, hnd, hjp]
  simp only []
  rw [upsert]
  simp only [List.any_nil, Bool.false_eq_true, if_false, List.nil_append]
  rw [show List.isEmpty [("gifts".toList, JVal.arr (giftElems (i2 + 1)))] = false from rfl]
  simp only [Bool.false_eq_true, if_false]
  rfl

/-- C2 (amended): for the wrapped document with k known-shape elements under the known key
"gifts", serialized and truncated at the boundary right after element i's trailing comma
(1 ≤ i, i + 2 ≤ k, so the cut falls strictly between elements i and i + 1 of at least
i + 2), direct parsing and the bracket-closure strategy both fail, and per-key salvage
succeeds — but it returns the object holding only elements 0 through i - 1: the last complete
element before the cut is dropped, and the result is the wrapped object, not a bare array. -/
theorem C2_trunc_salvage (i k : Nat) (hi : 1 ≤ i) (hk : i + 2 ≤ k) :
    (∃ rest, rest ≠ [] ∧ serVal (giftsDoc k) = truncText i ++ rest) ∧
    generateJSON (truncText i) = .ok (giftsDoc i) := by
  constructor
  · obtain ⟨m, rfl⟩ : ∃ m, k = i + 1 + (m + 1) := ⟨k - i - 2, by omega⟩
    refine ⟨serList (giftElemsFrom ((0 : Int) + (i + 1 : Nat)) (m + 1)) ++ [']', rbr],
      by simp, ?_⟩
    rw [serVal_giftsDoc _ (by omega), giftElems, serList_gsplit i m 0, truncText, giftElems]
    simp
  · have hjn : jparse (truncCand i) = none := by
      obtain ⟨i2, rfl⟩ : ∃ i2, i = i2 + 1 := ⟨i - 1, by omega⟩
      rw [truncCand, giftElems]
      exact jparse_trunc_none (i2 + 1)
    rw [generateJSON]
    simp only [extractCandidate_trunc i, stripTC_noDangler _ (noDangler_truncCand i), hjn,
      strat1_trunc i, strat2_trunc i hi]

/-- Witness: the amended C2 statement applies at i = 1, k = 3, where the truncated text is
the serialization cut right after the second element's comma and salvage returns only the
first element. -/
theorem C2_trunc_salvage_witness :
    (1 ≤ 1 ∧ 1 + 2 ≤ 3) ∧
    ((∃ rest, rest ≠ [] ∧ serVal (giftsDoc 3) = truncText 1 ++ rest) ∧
      generateJSON (truncText 1) = .ok (giftsDoc 1)) :=
  ⟨⟨by decide, by decide⟩, C2_trunc_salvage 1 3 (by decide) (by decide)⟩

/-- A gift candidate as rerankGifts reads it.  The JavaScript fallback chains
metadata.name, metadata.product_name, gift.name (and metadata.category, and
gift.document, metadata.unified_text, and gift.id, metadata.productId, metadata.id)
are each collapsed into the single field that the chain resolves to; the empty list is the
falsy absent value. -/
structure Gift where
  id : List Char
  name : List Char
  category : List Char
  document : List Char
  deriving DecidableEq

instance : BEq Gift := ⟨fun a b => decide (a = b)⟩

instance : LawfulBEq Gift where
  eq_of_beq h := of_decide_eq_true h
  rfl := by intro a; simp [BEq.beq]

/-- One entry of the preference profile's likes array. -/
structure PrefItem where
  item : List Char
  deriving DecidableEq

/-- The preference profile as rerankGifts consults it (only likes drives control flow). -/
structure PrefProfile where
  likes : List PrefItem
  deriving DecidableEq

/-- The originalData persona fields rerankGifts and generateGiftRationale read. -/
structure PersonaData where
  rank : List Char
  gender : List Char
  memo : List Char
  addMemo : List Char
  deriving DecidableEq

/-- ASCII lower-casing, the fragment of toLowerCase relevant to this pipeline. -/
def toLowerJS (c : Char) : Char :=
  if 'A' ≤ c ∧ c ≤ 'Z' then Char.ofNat (c.toNat + 32) else c

def lowerL (s : List Char) : List Char := s.map toLowerJS

/-- Substring containment, as String.prototype.includes. -/
def containsSub (pat s : List Char) : Bool := (findSub pat s).isSome

/-- The gift out of the pool at an index (indices in this model are always in range). -/
def giftAt (gifts : List Gift) (i : Nat) : Gift := gifts.getD i ⟨[], [], [], []⟩

/-- The search text of a gift: name, category and document joined by spaces and lower-cased,
as built both by the likes pre-filter and by the memo classification. -/
def searchTextOf (g : Gift) : List Char :=
  lowerL (g.name ++ ' ' :: (g.category ++ ' ' :: g.document))

/-- The normalized likes items: lower-cased, trimmed, with empty entries dropped. -/
def likesItems (p : PrefProfile) : List (List Char) :=
  (p.likes.map (fun l => trimBoth (lowerL l.item))).filter (fun s => ¬ s = [])

/-- Whether a gift is related to any of the items by substring search. -/
def relatedTo (items : List (List Char)) (g : Gift) : Bool :=
  items.any (fun it => containsSub it (searchTextOf g))

/-- Whether the preference profile is present with a non-empty likes array, the guard of both
the likes pre-filter and the profile-authority branch. -/
def hasLikes : Option PrefProfile → Bool
  | some p => ¬ p.likes = []
  | none => false

/-- The pre-filter of rerankGifts: with likes, the likes-related indices first then the others,
capped at thirty in total; without likes, the first thirty indices when the pool exceeds
thirty, else all indices in order. -/
def prefilterIdx (gifts : List Gift) (profile : Option PrefProfile) : List Nat :=
  match profile with
  | some p =>
    if ¬ p.likes = [] then
      let items := likesItems p
      let rel := (List.range gifts.length).filter (fun i => relatedTo items (giftAt gifts i))
      let oth := (List.range gifts.length).filter
        (fun i => ¬ relatedTo items (giftAt gifts i) = true)
      let likesToInclude := min rel.length 30
      rel.take likesToInclude ++ oth.take (30 - likesToInclude)
    else if 30 < gifts.length then (List.range gifts.length).take 30
    else List.range gifts.length
  | none =>
    if 30 < gifts.length then (List.range gifts.length).take 30
    else List.range gifts.length

/-- Fueled global deletion of a literal pattern together with one following newline, as the
global replacements that strip code fences from the model response. -/
def stripLitF (pat : List Char) : Nat → List Char → List Char
  | 0, s => s
  | _ + 1, [] => []
  | f + 1, c :: r =>
    if pat.isPrefixOf (c :: r) then
      match (c :: r).drop pat.length with
      | '\n' :: r2 => stripLitF pat f r2
      | rest => stripLitF pat f rest
    else c :: stripLitF pat f r

def stripLit (pat s : List Char) : List Char := stripLitF pat (s.length + 1) s

/-- A character of the class digit, whitespace or comma used by the array-extraction regular
expression of the rerank response parser. -/
def isArrChar (c : Char) : Bool := c.isDigit || isJsWs c || c = ','

/-- First match of the bracketed digit-whitespace-comma pattern in the cleaned response. -/
def arrMatch : List Char → Option (List Char)
  | [] => none
  | c :: r =>
    if c = '[' then
      match r.dropWhile isArrChar with
      | d :: _ => if d = ']' then some ('[' :: (r.takeWhile isArrChar ++ [']']))
                  else arrMatch r
      | [] => arrMatch r
    else arrMatch r

/-- The response parser of rerankGifts: trim, strip code fences, prefer the first bracketed
digit-list match, then parse as JSON (the two anchored replacements in the source rewrite a
leading open bracket and trailing close bracket to themselves and are omitted as identities). -/
def parseRerank (t : List Char) : Option JVal :=
  let c1 := trimBoth (stripLit (btk :: btk :: btk :: []) (stripLit
    (btk :: btk :: btk :: 'j' :: 's' :: 'o' :: 'n' :: []) (trimBoth t)))
  let c2 := match arrMatch c1 with
    | some a => a
    | none => c1
  jparse c2

/-- Model of parseInt with radix ten on a string: optional leading whitespace and sign, then a
maximal digit run; no digits means NaN, modelled as none. -/
def parseIntJS (s : List Char) : Option Int :=
  match s.dropWhile isJsWs with
  | [] => none
  | c :: r =>
    if c = '-' then
      if r.takeWhile Char.isDigit = [] then none
      else some (-(digitsVal (r.takeWhile Char.isDigit) : Int))
    else if c = '+' then
      if r.takeWhile Char.isDigit = [] then none
      else some ((digitsVal (r.takeWhile Char.isDigit) : Int))
    else
      if (c :: r).takeWhile Char.isDigit = [] then none
      else some ((digitsVal ((c :: r).takeWhile Char.isDigit) : Int))

/-- Index coercion of the validIndices mapper: strings go through parseInt, numbers must be
integers (always, in the integer-only model), and the value must lie within the filtered
range; anything else becomes null and is filtered away. -/
def coerceIdx (len : Nat) : JVal → Option Nat
  | .num n => if 0 ≤ n ∧ n < (len : Int) then some n.toNat else none
  | .str s =>
    match parseIntJS s with
    | some n => if 0 ≤ n ∧ n < (len : Int) then some n.toNat else none
    | none => none
  | _ => none

def jlistToList : JList → List JVal
  | .nil => []
  | .cons v tl => v :: jlistToList tl

/-- Order-preserving de-duplication of indices with a seen set. -/
def dedupNatsGo : List Nat → List Nat → List Nat
  | _, [] => []
  | seen, i :: r =>
    if i ∈ seen then dedupNatsGo seen r else i :: dedupNatsGo (i :: seen) r

def dedupNats (l : List Nat) : List Nat := dedupNatsGo [] l

/-- The normalized product name used by the de-duplication pass. -/
def normName (g : Gift) : List Char := lowerL (trimBoth g.name)

/-- The de-duplication walk of rerankGifts: drop a gift whose non-empty product id was already
seen; otherwise record the id (when present), then drop the gift when its non-empty normalized
name was already seen, else record the name and keep the gift. -/
def dedupGo : List (List Char) → List (List Char) → List Gift → List Gift
  | _, _, [] => []
  | seenIds, seenNames, g :: r =>
    if ¬ g.id = [] ∧ g.id ∈ seenIds then dedupGo seenIds seenNames r
    else
      let seenIds2 := if ¬ g.id = [] then g.id :: seenIds else seenIds
      if ¬ normName g = [] ∧ normName g ∈ seenNames then dedupGo seenIds2 seenNames r
      else
        let seenNames2 := if ¬ normName g = [] then normName g :: seenNames else seenNames
        g :: dedupGo seenIds2 seenNames2 r

def dedupPass (gs : List Gift) : List Gift := dedupGo [] [] gs

/-- A separator of the keyword split: comma, full-width comma or whitespace. -/
def isSplitSep (c : Char) : Bool := c = ',' || c = '，' || isJsWs c

/-- Fueled split on separator runs, keeping the non-empty trimmed tokens. -/
def splitTokensF : Nat → List Char → List (List Char)
  | 0, _ => []
  | _ + 1, [] => []
  | f + 1, s =>
    match s.dropWhile isSplitSep with
    | [] => []
    | c :: r =>
      ((c :: r).takeWhile (fun d => !(isSplitSep d))) ::
        splitTokensF f ((c :: r).dropWhile (fun d => !(isSplitSep d)))

def splitTokens (s : List Char) : List (List Char) := splitTokensF (s.length + 1) s

/-- Whether a gift's search text contains any of the keywords, lower-cased. -/
def memoRelated (keywords : List (List Char)) (g : Gift) : Bool :=
  keywords.any (fun k => ¬ k = [] && containsSub (lowerL k) (searchTextOf g))

/-- JavaScript slice with begin zero and a possibly negative end index: a negative end counts
from the end of the list. -/
def jsSliceTo (l : List Nat) (e : Int) : List Nat :=
  if 0 ≤ e then l.take e.toNat else l.take ((l.length : Int) + e).toNat

/-- Step one of the coverage reconstruction (source lines 904-917): when the ranking holds no
memo-related index and some exists, force the best memo-related index, preferring one absent
from the ranking. -/
def covF1 (uniq memoRel : List Nat) : List Nat :=
  if (uniq.filter (fun i => i ∈ memoRel)).length = 0 ∧ ¬ memoRel = [] then
    match memoRel.filter (fun i => i ∉ uniq) with
    | a :: _ => [a]
    | [] =>
      match memoRel with
      | m :: _ => [m]
      | [] => []
  else []

/-- Step two (source lines 920-938): the analogous forcing for the addMemo-related indices,
avoiding the index already forced. -/
def covF2 (uniq addRel f1 : List Nat) : List Nat :=
  if (uniq.filter (fun i => i ∈ addRel)).length = 0 ∧ ¬ addRel = [] then
    match addRel.filter (fun i => i ∉ f1 ∧ i ∉ uniq) with
    | a :: _ => f1 ++ [a]
    | [] =>
      match addRel.filter (fun i => i ∈ uniq) with
      | e :: _ => f1 ++ [e]
      | [] => f1
  else f1

/-- The memo ensure push (source lines 964-970). -/
def covF3 (memoRel rankedMemo f2 : List Nat) : List Nat :=
  if (f2.filter (fun i => i ∈ memoRel)).length = 0 ∧ ¬ rankedMemo = [] then
    f2 ++ rankedMemo.take 1
  else f2

/-- The addMemo ensure push (source lines 971-977). -/
def covF4 (addRel rankedAdd f3 : List Nat) : List Nat :=
  if (f3.filter (fun i => i ∈ addRel)).length = 0 ∧ ¬ rankedAdd = [] then
    f3 ++ rankedAdd.take 1
  else f3

/-- The coverage reconstruction of rerankGifts (source lines 900-996): force one memo-related
and one addMemo-related index into the final list, refill the remaining slots from the ranked
indices, where a negative remaining-slot count reaches JavaScript slice semantics. -/
def coverageIdxs (uniq memoRel addRel : List Nat) (topN : Nat) : List Nat :=
  let f2 := covF2 uniq addRel (covF1 uniq memoRel)
  let rankedMemo := uniq.filter (fun i => i ∈ memoRel ∧ i ∉ f2)
  let rankedAdd := uniq.filter (fun i => i ∈ addRel ∧ i ∉ memoRel ∧ i ∉ f2)
  let rankedOther := uniq.filter (fun i => i ∉ memoRel ∧ i ∉ addRel ∧ i ∉ f2)
  let f4 := covF4 addRel rankedAdd (covF3 memoRel rankedMemo f2)
  let candidates := (rankedMemo.drop 1 ++ rankedAdd.drop 1 ++ rankedOther).filter
    (fun i => i ∉ f4)
  f4 ++ jsSliceTo candidates ((topN : Int) - (f4.length : Int))

/-- The similarity-order fallback used by the parse-failure and invalid-index paths: the first
topN gifts of the filtered working set, translated back to original-pool identity through the
filtered index list (the indexOf lookup translates position; it is total here since every
looked-up gift is a member, so the trailing filter keeps everything). -/
def fallbackFiltered (gifts : List Gift) (fIdx : List Nat) (topN : Nat) : List Gift :=
  let fg := fIdx.map (giftAt gifts)
  (fg.take topN).map (fun g => giftAt gifts (fIdx.getD (fg.indexOf g) 0))

/-- The placeholder text meaning no information. -/
def noInfo : List Char := "정보없음".toList

/-- Model of rerankGifts (src/unnamed/part_001 lines 304-1137).  The backend outcome is the
llm input: error stands for a network or API failure (including the no-choices throw), ok for
the returned text.  The result is an exception (the missing-API-key throw) or the returned
gift list. -/
def rerankGifts (apiKey : Bool) (gifts : List Gift) (od : PersonaData) (topN : Nat)
    (profile : Option PrefProfile) (llm : Except Unit (List Char)) : Except Unit (List Gift) :=
  if ¬ apiKey = true then .error ()
  else if gifts = [] then .ok []
  else if gifts.length ≤ topN then .ok gifts
  else
    let fIdx := prefilterIdx gifts profile
    match llm with
    | .error _ => .ok (gifts.take topN)
    | .ok text =>
      match parseRerank text with
      | none => .ok (fallbackFiltered gifts fIdx topN)
      | some v =>
        match v with
        | .arr l =>
          if jlistToList l = [] then .ok (fallbackFiltered gifts fIdx topN)
          else
            let validIdx := ((jlistToList l).filterMap (coerceIdx fIdx.length)).take topN
            if validIdx = [] then .ok (fallbackFiltered gifts fIdx topN)
            else
              let uniq := dedupNats (validIdx.map (fun i => fIdx.getD i 0))
              if uniq = [] then .ok (fallbackFiltered gifts fIdx topN)
              else if hasLikes profile then
                .ok (dedupPass ((uniq.take topN).map (giftAt gifts)))
              else
                let memo := trimBoth od.memo
                let addMemo := trimBoth od.addMemo
                if ¬ memo = [] ∧ ¬ addMemo = [] ∧ ¬ memo = noInfo ∧ ¬ addMemo = noInfo then
                  let memoRel := (List.range gifts.length).filter
                    (fun i => memoRelated (splitTokens memo) (giftAt gifts i))
                  let addRel := (List.range gifts.length).filter
                    (fun i => memoRelated (splitTokens addMemo) (giftAt gifts i))
                  .ok (dedupPass
                    (((coverageIdxs uniq memoRel addRel topN).take topN).map (giftAt gifts)))
                else .ok (dedupPass (uniq.map (giftAt gifts)))
        | _ => .ok (fallbackFiltered gifts fIdx topN)

/-- The rationale object returned to the caller: the raw JSON values, or wrapped fallback
strings. -/
structure Rationale where
  title : JVal
  description : JVal
  deriving DecidableEq

/-- JavaScript truthiness of a property lookup result. -/
def jsTruthy : Option JVal → Bool
  | none => false
  | some .null => false
  | some (.bool b) => b
  | some (.num n) => decide (¬ n = 0)
  | some (.str s) => decide (¬ s = [])
  | some (.arr _) => true
  | some (.obj _) => true

/-- Property lookup on parsed members; JSON.parse keeps the last duplicate key. -/
def objGetM (k : List Char) : JMembers → Option JVal
  | .nil => none
  | .cons k2 v tl =>
    match objGetM k tl with
    | some w => some w
    | none => if k2 = k then some v else none

/-- Property lookup on a parsed value (undefined on non-objects; the null case throws in
JavaScript but lands in the same fallback through the surrounding catch). -/
def objGet (k : List Char) : JVal → Option JVal
  | .obj m => objGetM k m
  | _ => none

/-- The gift name with its fallback default. -/
def giftNameOf (g : Gift) : List Char := if g.name = [] then "선물".toList else g.name

/-- The parse-failure fallback rationale (source lines 1279-1290): the title comes from the
first underscore-separated token of addMemo when addMemo is present and not the placeholder,
else the category or the default; the description interpolates the persona string and the
gift name. -/
def rationaleFallbackInner (g : Gift) (persona : List Char) (od : PersonaData) : Rationale :=
  { title := .str (if ¬ od.addMemo = [] ∧ ¬ od.addMemo = noInfo then
        od.addMemo.takeWhile (fun c => ¬ c = '_')
      else if ¬ g.category = [] then g.category else "추천 선물".toList),
    description := .str (persona ++ "에 맞춰 ".toList ++ giftNameOf g ++
      "을(를) 추천드립니다.".toList) }

/-- The catch-all fallback rationale (source lines 1294-1299): category-based title and a
persona-only description. -/
def rationaleFallbackOuter (g : Gift) (persona : List Char) : Rationale :=
  { title := .str (if ¬ g.category = [] then g.category else "추천 선물".toList),
    description := .str (persona ++ "에 맞춰 추천드립니다.".toList) }

/-- The response cleaning of generateGiftRationale: trim, strip the fence markers, trim. -/
def rationaleClean (text : List Char) : List Char :=
  trimBoth (stripLit (btk :: btk :: btk :: []) (stripLit
    (btk :: btk :: btk :: 'j' :: 's' :: 'o' :: 'n' :: []) (trimBoth text)))

/-- Model of generateGiftRationale (src/unnamed/part_001 lines 1146-1301): the missing-key
throw, then the backend call whose failure (or missing choices) lands in the outer fallback,
then fence stripping, JSON parsing and the truthiness validation of title and description,
whose failure lands in the inner fallback. -/
def generateGiftRationale (apiKey : Bool) (g : Gift) (persona : List Char) (od : PersonaData)
    (llm : Except Unit (List Char)) : Except Unit Rationale :=
  if ¬ apiKey = true then .error ()
  else
    match llm with
    | .error _ => .ok (rationaleFallbackOuter g persona)
    | .ok text =>
      match jparse (rationaleClean text) with
      | some v =>
        if jsTruthy (objGet ("title".toList) v) && jsTruthy (objGet ("description".toList) v)
        then .ok { title := (objGet ("title".toList) v).getD .null,
                   description := (objGet ("description".toList) v).getD .null }
        else .ok (rationaleFallbackInner g persona od)
      | none => .ok (rationaleFallbackInner g persona od)

deriving instance DecidableEq for Except

/-- Concrete gift fixture. -/
def mkG (i n c d : String) : Gift := ⟨i.toList, n.toList, c.toList, d.toList⟩

def od0 : PersonaData := ⟨[], [], [], []⟩

def odm : PersonaData := ⟨[], [], "golf".toList, "wine".toList⟩

def gifts4 : List Gift :=
  [mkG "a" "na" "" "", mkG "b" "nb" "" "", mkG "c" "nc" "" "wine", mkG "d" "nd" "" "golf"]

def prof1 : PrefProfile := ⟨[⟨"wine".toList⟩]⟩

theorem giftAt_mem (gifts : List Gift) (i : Nat) (h : i < gifts.length) :
    giftAt gifts i ∈ gifts := by
  rw [giftAt, List.getD_eq_getElem _ _ h]
  exact List.getElem_mem h

theorem prefilterIdx_lt (gifts : List Gift) (profile : Option PrefProfile) :
    ∀ i ∈ prefilterIdx gifts profile, i < gifts.length := by
  intro i hi
  have hother : ∀ l : List Nat, (if 30 < gifts.length then (List.range gifts.length).take 30
      else List.range gifts.length) = l → i ∈ l → i < gifts.length := by
    intro l hl hil
    subst hl
    split_ifs at hil
    · exact List.mem_range.mp ((List.take_sublist 30 _).mem hil)
    · exact List.mem_range.mp hil
  match profile with
  | none =>
    rw [prefilterIdx] at hi
    exact hother _ rfl hi
  | some p =>
    rw [prefilterIdx] at hi
    by_cases hl : ¬ p.likes = []
    · rw [if_pos hl] at hi
      rcases List.mem_append.mp hi with h2 | h2
      · exact List.mem_range.mp ((List.filter_sublist _).mem ((List.take_sublist _ _).mem h2))
      · exact List.mem_range.mp ((List.filter_sublist _).mem ((List.take_sublist _ _).mem h2))
    · rw [if_neg hl] at hi
      exact hother _ rfl hi

theorem dedupNatsGo_mem : ∀ (l seen : List Nat) (x : Nat), x ∈ dedupNatsGo seen l → x ∈ l := by
  intro l
  induction l with
  | nil => intro seen x h; exact absurd h (by simp [dedupNatsGo])
  | cons i r ih =>
    intro seen x h
    rw [dedupNatsGo] at h
    split_ifs at h
    · exact List.mem_cons_of_mem i (ih seen x h)
    · rcases List.mem_cons.mp h with rfl | h2
      · exact List.mem_cons_self x r
      · exact List.mem_cons_of_mem i (ih (i :: seen) x h2)

theorem dedupNats_mem (l : List Nat) (x : Nat) (h : x ∈ dedupNats l) : x ∈ l :=
  dedupNatsGo_mem l [] x h

theorem dedupNatsGo_length : ∀ (l seen : List Nat), (dedupNatsGo seen l).length ≤ l.length := by
  intro l
  induction l with
  | nil => intro seen; simp [dedupNatsGo]
  | cons i r ih =>
    intro seen
    rw [dedupNatsGo]
    split_ifs
    · have := ih seen
      simp only [List.length_cons]
      omega
    · have := ih (i :: seen)
      simp only [List.length_cons]
      omega

theorem dedupNats_length (l : List Nat) : (dedupNats l).length ≤ l.length :=
  dedupNatsGo_length l []

theorem dedupGo_mem : ∀ (gs : List Gift) (si sn : List (List Char)) (g : Gift),
    g ∈ dedupGo si sn gs → g ∈ gs := by
  intro gs
  induction gs with
  | nil => intro si sn g h; exact absurd h (by simp [dedupGo])
  | cons a r ih =>
    intro si sn g h
    rw [dedupGo] at h
    by_cases h1 : ¬ a.id = [] ∧ a.id ∈ si
    · rw [if_pos h1] at h
      exact List.mem_cons_of_mem a (ih _ _ g h)
    · rw [if_neg h1] at h
      by_cases h2 : ¬ normName a = [] ∧ normName a ∈ sn
      · rw [if_pos h2] at h
        exact List.mem_cons_of_mem a (ih _ _ g h)
      · rw [if_neg h2] at h
        rcases List.mem_cons.mp h with rfl | h3
        · exact List.mem_cons_self g r
        · exact List.mem_cons_of_mem a (ih _ _ g h3)

theorem dedupPass_mem (gs : List Gift) (g : Gift) (h : g ∈ dedupPass gs) : g ∈ gs :=
  dedupGo_mem gs [] [] g h

theorem dedupGo_length : ∀ (gs : List Gift) (si sn : List (List Char)),
    (dedupGo si sn gs).length ≤ gs.length := by
  intro gs
  induction gs with
  | nil => intro si sn; simp [dedupGo]
  | cons a r ih =>
    intro si sn
    rw [dedupGo]
    by_cases h1 : ¬ a.id = [] ∧ a.id ∈ si
    · rw [if_pos h1]
      have := ih si sn
      simp only [List.length_cons]
      omega
    · rw [if_neg h1]
      by_cases h2 : ¬ normName a = [] ∧ normName a ∈ sn
      · rw [if_pos h2]
        have := ih (if ¬ a.id = [] then a.id :: si else si) sn
        simp only [List.length_cons]
        omega
      · rw [if_neg h2]
        have := ih (if ¬ a.id = [] then a.id :: si else si)
          (if ¬ normName a = [] then normName a :: sn else sn)
        simp only [List.length_cons]
        omega

theorem dedupPass_length (gs : List Gift) : (dedupPass gs).length ≤ gs.length :=
  dedupGo_length gs [] []

theorem jsSliceTo_mem (l : List Nat) (e : Int) (x : Nat) (h : x ∈ jsSliceTo l e) : x ∈ l := by
  rw [jsSliceTo] at h
  split_ifs at h
  · exact (List.take_sublist _ _).mem h
  · exact (List.take_sublist _ _).mem h

theorem covF1_mem (uniq memoRel : List Nat) (x : Nat) (h : x ∈ covF1 uniq memoRel) :
    x ∈ memoRel := by
  rw [covF1.eq_def] at h
  split_ifs at h
  · cases hf : memoRel.filter (fun i => i ∉ uniq) with
    | cons a t =>
      rw [hf] at h
      simp only [List.mem_singleton] at h
      rw [h]
      exact (List.filter_sublist _).mem (hf ▸ List.mem_cons_self a t)
    | nil =>
      rw [hf] at h
      cases hm : memoRel with
      | cons m t =>
        rw [hm] at h
        simp only [List.mem_singleton] at h
        rw [h]
        exact hm ▸ List.mem_cons_self m t
      | nil => rw [hm] at h; simp at h
  · simp at h

theorem covF2_mem (uniq addRel f1 : List Nat) (x : Nat) (h : x ∈ covF2 uniq addRel f1) :
    x ∈ f1 ∨ x ∈ addRel := by
  rw [covF2.eq_def] at h
  split_ifs at h
  · cases hf : addRel.filter (fun i => i ∉ f1 ∧ i ∉ uniq) with
    | cons a t =>
      rw [hf] at h
      rcases List.mem_append.mp h with h2 | h2
      · exact Or.inl h2
      · refine Or.inr ?_
        simp only [List.mem_singleton] at h2
        rw [h2]
        exact (List.filter_sublist _).mem (hf ▸ List.mem_cons_self a t)
    | nil =>
      rw [hf] at h
      cases he : addRel.filter (fun i => i ∈ uniq) with
      | cons e t =>
        rw [he] at h
        rcases List.mem_append.mp h with h2 | h2
        · exact Or.inl h2
        · refine Or.inr ?_
          simp only [List.mem_singleton] at h2
          rw [h2]
          exact (List.filter_sublist _).mem (he ▸ List.mem_cons_self e t)
      | nil => rw [he] at h; exact Or.inl h
  · exact Or.inl h

theorem covF3_mem (memoRel rankedMemo f2 : List Nat) (x : Nat)
    (h : x ∈ covF3 memoRel rankedMemo f2) : x ∈ f2 ∨ x ∈ rankedMemo := by
  rw [covF3] at h
  split_ifs at h
  · rcases List.mem_append.mp h with h2 | h2
    · exact Or.inl h2
    · exact Or.inr ((List.take_sublist _ _).mem h2)
  · exact Or.inl h

theorem covF4_mem (addRel rankedAdd f3 : List Nat) (x : Nat)
    (h : x ∈ covF4 addRel rankedAdd f3) : x ∈ f3 ∨ x ∈ rankedAdd := by
  rw [covF4] at h
  split_ifs at h
  · rcases List.mem_append.mp h with h2 | h2
    · exact Or.inl h2
    · exact Or.inr ((List.take_sublist _ _).mem h2)
  · exact Or.inl h

theorem coverageIdxs_mem (uniq memoRel addRel : List Nat) (topN : Nat) (x : Nat)
    (h : x ∈ coverageIdxs uniq memoRel addRel topN) :
    x ∈ uniq ∨ x ∈ memoRel ∨ x ∈ addRel := by
  rw [coverageIdxs] at h
  rcases List.mem_append.mp h with h2 | h2
  · rcases covF4_mem _ _ _ _ h2 with h3 | h3
    · rcases covF3_mem _ _ _ _ h3 with h4 | h4
      · rcases covF2_mem _ _ _ _ h4 with h5 | h5
        · exact Or.inr (Or.inl (covF1_mem _ _ _ h5))
        · exact Or.inr (Or.inr h5)
      · exact Or.inl ((List.filter_sublist _).mem h4)
    · exact Or.inl ((List.filter_sublist _).mem h3)
  · have h3 := jsSliceTo_mem _ _ _ h2
    have h4 := (List.filter_sublist _).mem h3
    rcases List.mem_append.mp h4 with h5 | h5
    · rcases List.mem_append.mp h5 with h6 | h6
      · exact Or.inl ((List.filter_sublist _).mem ((List.drop_sublist _ _).mem h6))
      · exact Or.inl ((List.filter_sublist _).mem ((List.drop_sublist _ _).mem h6))
    · exact Or.inl ((List.filter_sublist _).mem h5)

/-- C4: short-circuit idempotence — whenever the pool is no larger than topN (with the API key
configured), rerankGifts returns the pool itself unchanged, for any persona data, any profile
and any backend outcome: no pre-filtering, ranking, de-duplication or coverage step touches
it. -/
theorem C4_short_circuit (gifts : List Gift) (od : PersonaData) (topN : Nat)
    (profile : Option PrefProfile) (llm : Except Unit (List Char))
    (h : gifts.length ≤ topN) :
    rerankGifts true gifts od topN profile llm = .ok gifts := by
  rw [rerankGifts, if_neg (by simp)]
  by_cases hg : gifts = []
  · rw [if_pos hg, hg]
  · rw [if_neg hg, if_pos h]

/-- Witness: the short circuit on a concrete four-element pool with topN 4. -/
theorem C4_short_circuit_witness :
    rerankGifts true gifts4 od0 4 none (.error ()) = .ok gifts4 :=
  C4_short_circuit gifts4 od0 4 none (.error ()) (by decide)

/-- C3 (counterexample): on a backend error rerankGifts returns the first topN elements of the
original pool, not of the pre-filtered working set: with a likes profile matching only the
third gift, the error fallback returns the first pool element while the pre-filtered working
set starts with the matching gift. -/
theorem C3_counterexample :
    rerankGifts true gifts4 od0 1 (some prof1) (.error ()) = .ok (gifts4.take 1) ∧
    ¬ gifts4.take 1 = fallbackFiltered gifts4 (prefilterIdx gifts4 (some prof1)) 1 := by
  constructor
  · decide
  · decide

/-- C3 (amended): with the API key configured rerankGifts never throws; a backend or network
error degrades to the first topN elements of the original pool (not the pre-filtered working
set), while only the unparsable-response path returns the first topN elements of the
pre-filtered working set translated to original-pool identity. -/
theorem C3_fallbacks (gifts : List Gift) (od : PersonaData) (topN : Nat)
    (profile : Option PrefProfile) (llm : Except Unit (List Char)) :
    (∃ r, rerankGifts true gifts od topN profile llm = .ok r) ∧
    (llm = .error () → ¬ gifts = [] → topN < gifts.length →
      rerankGifts true gifts od topN profile llm = .ok (gifts.take topN)) ∧
    (∀ t, llm = .ok t → parseRerank t = none → ¬ gifts = [] → topN < gifts.length →
      rerankGifts true gifts od topN profile llm =
        .ok (fallbackFiltered gifts (prefilterIdx gifts profile) topN)) := by
  refine ⟨?_, ?_, ?_⟩
  · rw [rerankGifts, if_neg (by simp)]
    by_cases hg : gifts = []
    · rw [if_pos hg]
      exact ⟨[], rfl⟩
    · rw [if_neg hg]
      by_cases hlen : gifts.length ≤ topN
      · rw [if_pos hlen]
        exact ⟨gifts, rfl⟩
      · rw [if_neg hlen]
        cases llm with
        | error e => exact ⟨_, rfl⟩
        | ok t =>
          cases hp : parseRerank t with
          | none => exact ⟨_, by simp only []; rw [hp]⟩
          | some v =>
            cases v with
            | arr l =>
              by_cases h1 : jlistToList l = []
              · exact ⟨_, by simp only []; rw [hp]; simp only []; rw [if_pos h1]⟩
              · by_cases h2 : ((jlistToList l).filterMap
                  (coerceIdx (prefilterIdx gifts profile).length)).take topN = []
                · exact ⟨_, by simp only []; rw [hp]; simp only []; rw [if_neg h1, if_pos h2]⟩
                · by_cases h3 : dedupNats ((((jlistToList l).filterMap
                    (coerceIdx (prefilterIdx gifts profile).length)).take topN).map
                      (fun i => (prefilterIdx gifts profile).getD i 0)) = []
                  · exact ⟨_, by simp only []; rw [hp]; simp only []; rw [if_neg h1, if_neg h2, if_pos h3]⟩
                  · by_cases h4 : hasLikes profile = true
                    · exact ⟨_, by simp only []; rw [hp]; simp only []; rw [if_neg h1, if_neg h2, if_neg h3, if_pos h4]⟩
                    · by_cases h5 : ¬ trimBoth od.memo = [] ∧ ¬ trimBoth od.addMemo = [] ∧
                        ¬ trimBoth od.memo = noInfo ∧ ¬ trimBoth od.addMemo = noInfo
                      · exact ⟨_, by simp only []; rw [hp]; simp only []; rw [if_neg h1, if_neg h2, if_neg h3, if_neg h4, if_pos h5]⟩
                      · exact ⟨_, by simp only []; rw [hp]; simp only []; rw [if_neg h1, if_neg h2, if_neg h3, if_neg h4, if_neg h5]⟩
            | null => exact ⟨_, by simp only []; rw [hp]⟩
            | bool b => exact ⟨_, by simp only []; rw [hp]⟩
            | num n => exact ⟨_, by simp only []; rw [hp]⟩
            | str s => exact ⟨_, by simp only []; rw [hp]⟩
            | obj m => exact ⟨_, by simp only []; rw [hp]⟩
  · intro he hg hlen
    subst he
    rw [rerankGifts, if_neg (by simp), if_neg hg, if_neg (by omega)]
  · intro t ht hp hg hlen
    subst ht
    rw [rerankGifts, if_neg (by simp), if_neg hg, if_neg (by omega)]
    simp only []
    rw [hp]

/-- Witness: the parse-failure fallback of the amended C3 at a concrete unparsable response. -/
theorem C3_fallbacks_witness :
    rerankGifts true gifts4 od0 1 none (.ok ("junk".toList)) =
      .ok (fallbackFiltered gifts4 (prefilterIdx gifts4 none) 1) :=
  (C3_fallbacks gifts4 od0 1 none (.ok ("junk".toList))).2.2 ("junk".toList) rfl (by decide)
    (by decide) (by decide)

theorem fallbackFiltered_length (gifts : List Gift) (fIdx : List Nat) (topN : Nat) :
    (fallbackFiltered gifts fIdx topN).length ≤ topN := by
  rw [fallbackFiltered]
  simp only [List.length_map, List.length_take]
  omega

/-- C5 (counterexample): the ranking may legitimately return fewer than topN indices (here a
single index over a pool of four gifts with four distinct identities), and rerankGifts does
not refill: the result has one element although the pool holds at least topN unique
candidates. -/
theorem C5_counterexample :
    rerankGifts true gifts4 od0 2 none (.ok ("[0]".toList)) = .ok [mkG "a" "na" "" ""] ∧
    (dedupPass gifts4).length = 4 := by
  constructor
  · decide
  · decide

/-- C5 (amended): the upper half of the size bound holds on every path — rerankGifts never
returns more than topN candidates; the lower half of the original claim fails, as the
counterexample shows. -/
theorem C5_size_bound (gifts : List Gift) (od : PersonaData) (topN : Nat)
    (profile : Option PrefProfile) (llm : Except Unit (List Char)) (r : List Gift)
    (h : rerankGifts true gifts od topN profile llm = .ok r) : r.length ≤ topN := by
  rw [rerankGifts, if_neg (by simp)] at h
  by_cases hg : gifts = []
  · rw [if_pos hg] at h
    injection h with h2
    rw [← h2]
    simp
  · rw [if_neg hg] at h
    by_cases hlen : gifts.length ≤ topN
    · rw [if_pos hlen] at h
      injection h with h2
      rw [← h2]
      exact hlen
    · rw [if_neg hlen] at h
      cases llm with
      | error e =>
        injection h with h2
        rw [← h2]
        simp only [List.length_take]
        omega
      | ok t =>
        simp only [] at h
        cases hp : parseRerank t with
        | none =>
          rw [hp] at h
          injection h with h2
          rw [← h2]
          exact fallbackFiltered_length _ _ _
        | some v =>
          rw [hp] at h
          cases v with
          | arr l =>
            simp only [] at h
            by_cases h1 : jlistToList l = []
            · rw [if_pos h1] at h
              injection h with h2
              rw [← h2]
              exact fallbackFiltered_length _ _ _
            · rw [if_neg h1] at h
              by_cases h2 : ((jlistToList l).filterMap
                  (coerceIdx (prefilterIdx gifts profile).length)).take topN = []
              · rw [if_pos h2] at h
                injection h with h3
                rw [← h3]
                exact fallbackFiltered_length _ _ _
              · rw [if_neg h2] at h
                by_cases h3 : dedupNats ((((jlistToList l).filterMap
                    (coerceIdx (prefilterIdx gifts profile).length)).take topN).map
                      (fun i => (prefilterIdx gifts profile).getD i 0)) = []
                · rw [if_pos h3] at h
                  injection h with h4
                  rw [← h4]
                  exact fallbackFiltered_length _ _ _
                · rw [if_neg h3] at h
                  by_cases h4 : hasLikes profile = true
                  · rw [if_pos h4] at h
                    injection h with h5
                    rw [← h5]
                    refine le_trans (dedupPass_length _) ?_
                    simp only [List.length_map, List.length_take]
                    omega
                  · rw [if_neg h4] at h
                    by_cases h5 : ¬ trimBoth od.memo = [] ∧ ¬ trimBoth od.addMemo = [] ∧
                        ¬ trimBoth od.memo = noInfo ∧ ¬ trimBoth od.addMemo = noInfo
                    · rw [if_pos h5] at h
                      injection h with h6
                      rw [← h6]
                      refine le_trans (dedupPass_length _) ?_
                      simp only [List.length_map, List.length_take]
                      omega
                    · rw [if_neg h5] at h
                      injection h with h6
                      rw [← h6]
                      refine le_trans (dedupPass_length _) ?_
                      simp only [List.length_map]
                      refine le_trans (dedupNats_length _) ?_
                      simp only [List.length_map, List.length_take]
                      omega
          | null =>
            injection h with h2
            rw [← h2]
            exact fallbackFiltered_length _ _ _
          | bool b =>
            injection h with h2
            rw [← h2]
            exact fallbackFiltered_length _ _ _
          | num n =>
            injection h with h2
            rw [← h2]
            exact fallbackFiltered_length _ _ _
          | str s =>
            injection h with h2
            rw [← h2]
            exact fallbackFiltered_length _ _ _
          | obj m =>
            injection h with h2
            rw [← h2]
            exact fallbackFiltered_length _ _ _

/-- Witness: the size bound applied to a concrete successful run. -/
theorem C5_size_bound_witness : ([mkG "a" "na" "" ""] : List Gift).length ≤ 2 :=
  C5_size_bound gifts4 od0 2 none (.ok ("[0]".toList)) [mkG "a" "na" "" ""] (by decide)

/-- The de-duplication invariant: no two listed gifts share a non-empty product id, and no two
share a non-empty normalized (trimmed, lower-cased) name. -/
def dedupOK (l : List Gift) : Prop :=
  List.Pairwise (fun a b => (¬ a.id = [] → ¬ a.id = b.id) ∧
    (¬ normName a = [] → ¬ normName a = normName b)) l

instance (l : List Gift) : Decidable (dedupOK l) := by
  rw [dedupOK]
  infer_instance

theorem dedupGo_not_seen : ∀ (gs : List Gift) (si sn : List (List Char)),
    ∀ g ∈ dedupGo si sn gs,
      (¬ g.id = [] → g.id ∉ si) ∧ (¬ normName g = [] → normName g ∉ sn) := by
  intro gs
  induction gs with
  | nil => intro si sn g h; exact absurd h (by simp [dedupGo])
  | cons a r ih =>
    intro si sn g h
    rw [dedupGo] at h
    by_cases h1 : ¬ a.id = [] ∧ a.id ∈ si
    · rw [if_pos h1] at h
      exact ih si sn g h
    · rw [if_neg h1] at h
      by_cases h2 : ¬ normName a = [] ∧ normName a ∈ sn
      · rw [if_pos h2] at h
        have h3 := ih (if ¬ a.id = [] then a.id :: si else si) sn g h
        refine ⟨fun hid => ?_, h3.2⟩
        intro hmem
        refine h3.1 hid ?_
        split_ifs <;> first | exact hmem | exact List.mem_cons_of_mem _ hmem
      · rw [if_neg h2] at h
        rcases List.mem_cons.mp h with rfl | h3
        · refine ⟨fun hid hmem => h1 ⟨hid, hmem⟩, fun hn hmem => h2 ⟨hn, hmem⟩⟩
        · have h4 := ih (if ¬ a.id = [] then a.id :: si else si)
            (if ¬ normName a = [] then normName a :: sn else sn) g h3
          refine ⟨fun hid hmem => h4.1 hid ?_, fun hn hmem => h4.2 hn ?_⟩
          · split_ifs <;> first | exact hmem | exact List.mem_cons_of_mem _ hmem
          · split_ifs <;> first | exact hmem | exact List.mem_cons_of_mem _ hmem

theorem dedupGo_pairwise : ∀ (gs : List Gift) (si sn : List (List Char)),
    List.Pairwise (fun a b => (¬ a.id = [] → ¬ a.id = b.id) ∧
      (¬ normName a = [] → ¬ normName a = normName b)) (dedupGo si sn gs) := by
  intro gs
  induction gs with
  | nil => intro si sn; simp [dedupGo]
  | cons a r ih =>
    intro si sn
    rw [dedupGo]
    by_cases h1 : ¬ a.id = [] ∧ a.id ∈ si
    · rw [if_pos h1]
      exact ih si sn
    · rw [if_neg h1]
      by_cases h2 : ¬ normName a = [] ∧ normName a ∈ sn
      · rw [if_pos h2]
        exact ih _ sn
      · rw [if_neg h2]
        refine List.Pairwise.cons ?_ (ih _ _)
        intro b hb
        have hns := dedupGo_not_seen r _ _ b hb
        constructor
        · intro hid heq
          have hbid : ¬ b.id = [] := by rw [← heq]; exact hid
          refine hns.1 hbid ?_
          rw [← heq]
          rw [if_pos hid]
          exact List.mem_cons_self _ _
        · intro hn heq
          have hbn : ¬ normName b = [] := by rw [← heq]; exact hn
          refine hns.2 hbn ?_
          rw [← heq]
          rw [if_pos hn]
          exact List.mem_cons_self _ _

/-- C6 (counterexample): the trivial short circuit returns the pool verbatim, including exact
duplicates sharing a non-empty id and name, so the de-duplication invariant fails on that
path. -/
theorem C6_counterexample :
    rerankGifts true [mkG "a" "n" "" "", mkG "a" "n" "" ""] od0 3 none (.error ()) =
      .ok [mkG "a" "n" "" "", mkG "a" "n" "" ""] ∧
    ¬ dedupOK [mkG "a" "n" "" "", mkG "a" "n" "" ""] := by
  constructor
  · decide
  · decide

/-- C6 (amended): the de-duplication invariant holds of every list produced by the
de-duplication pass — the pass applied on the successful-ranking paths of rerankGifts — but
not of every returned result, since the short-circuit and fallback paths return slices that
never pass through it, as the counterexample shows. -/
theorem C6_dedup_invariant (gs : List Gift) : dedupOK (dedupPass gs) := by
  rw [dedupOK, dedupPass]
  exact dedupGo_pairwise gs [] []

theorem getD_lt (fIdx : List Nat) (n : Nat) (hall : ∀ x ∈ fIdx, x < n) (hn : 0 < n)
    (i : Nat) : fIdx.getD i 0 < n := by
  by_cases hi : i < fIdx.length
  · rw [List.getD_eq_getElem _ _ hi]
    exact hall _ (List.getElem_mem hi)
  · rw [List.getD_eq_default _ _ (by omega)]
    exact hn

/-- Every index the success paths can produce points into the pool. -/
theorem rerank_idx_lt (gifts : List Gift) (profile : Option PrefProfile) (hg : ¬ gifts = [])
    (validIdx : List Nat) (i : Nat)
    (hi : i ∈ dedupNats (validIdx.map (fun j => (prefilterIdx gifts profile).getD j 0))) :
    i < gifts.length := by
  have hpos : 0 < gifts.length := by
    cases gifts with
    | nil => exact absurd rfl hg
    | cons a r => simp
  obtain ⟨j, _, rfl⟩ := List.mem_map.mp (dedupNats_mem _ _ hi)
  exact getD_lt _ _ (prefilterIdx_lt gifts profile) hpos j

/-- C10: pool membership — on every path (given or not given the API key), every element of a
returned list is an element of the input pool: candidates are only selected and reordered,
never synthesized. -/
theorem C10_pool_membership (apiKey : Bool) (gifts : List Gift) (od : PersonaData)
    (topN : Nat) (profile : Option PrefProfile) (llm : Except Unit (List Char))
    (r : List Gift) (h : rerankGifts apiKey gifts od topN profile llm = .ok r) :
    ∀ g ∈ r, g ∈ gifts := by
  cases apiKey with
  | false => exact absurd h (by rw [rerankGifts]; simp)
  | true =>
  rw [rerankGifts, if_neg (by simp)] at h
  have hfb : ∀ fb : List Gift, fb = fallbackFiltered gifts (prefilterIdx gifts profile) topN →
      ¬ gifts = [] → ∀ g ∈ fb, g ∈ gifts := by
    intro fb hfb hg g hgf
    subst hfb
    rw [fallbackFiltered] at hgf
    obtain ⟨x, _, rfl⟩ := List.mem_map.mp hgf
    refine giftAt_mem _ _ (getD_lt _ _ (prefilterIdx_lt gifts profile) ?_ _)
    cases gifts with
    | nil => exact absurd rfl hg
    | cons a r2 => simp
  by_cases hg : gifts = []
  · rw [if_pos hg] at h
    injection h with h2
    rw [← h2]
    intro g hgm
    exact absurd hgm (by simp)
  · rw [if_neg hg] at h
    by_cases hlen : gifts.length ≤ topN
    · rw [if_pos hlen] at h
      injection h with h2
      rw [← h2]
      exact fun g hgm => hgm
    · rw [if_neg hlen] at h
      cases llm with
      | error e =>
        injection h with h2
        rw [← h2]
        exact fun g hgm => (List.take_sublist _ _).mem hgm
      | ok t =>
        simp only [] at h
        cases hp : parseRerank t with
        | none =>
          rw [hp] at h
          injection h with h2
          exact hfb r h2.symm hg
        | some v =>
          rw [hp] at h
          cases v with
          | arr l =>
            simp only [] at h
            by_cases h1 : jlistToList l = []
            · rw [if_pos h1] at h
              injection h with h2
              exact hfb r h2.symm hg
            · rw [if_neg h1] at h
              by_cases h2 : ((jlistToList l).filterMap
                  (coerceIdx (prefilterIdx gifts profile).length)).take topN = []
              · rw [if_pos h2] at h
                injection h with h3
                exact hfb r h3.symm hg
              · rw [if_neg h2] at h
                by_cases h3 : dedupNats ((((jlistToList l).filterMap
                    (coerceIdx (prefilterIdx gifts profile).length)).take topN).map
                      (fun i => (prefilterIdx gifts profile).getD i 0)) = []
                · rw [if_pos h3] at h
                  injection h with h4
                  exact hfb r h4.symm hg
                · rw [if_neg h3] at h
                  by_cases h4 : hasLikes profile = true
                  · rw [if_pos h4] at h
                    injection h with h5
                    rw [← h5]
                    intro g hgm
                    obtain ⟨i, hi, rfl⟩ := List.mem_map.mp (dedupPass_mem _ _ hgm)
                    exact giftAt_mem _ _
                      (rerank_idx_lt gifts profile hg _ i ((List.take_sublist _ _).mem hi))
                  · rw [if_neg h4] at h
                    by_cases h5 : ¬ trimBoth od.memo = [] ∧ ¬ trimBoth od.addMemo = [] ∧
                        ¬ trimBoth od.memo = noInfo ∧ ¬ trimBoth od.addMemo = noInfo
                    · rw [if_pos h5] at h
                      injection h with h6
                      rw [← h6]
                      intro g hgm
                      obtain ⟨i, hi, rfl⟩ := List.mem_map.mp (dedupPass_mem _ _ hgm)
                      have hi2 := (List.take_sublist _ _).mem hi
                      rcases coverageIdxs_mem _ _ _ _ _ hi2 with hc | hc | hc
                      · exact giftAt_mem _ _ (rerank_idx_lt gifts profile hg _ i hc)
                      · exact giftAt_mem _ _
                          (List.mem_range.mp ((List.filter_sublist _).mem hc))
                      · exact giftAt_mem _ _
                          (List.mem_range.mp ((List.filter_sublist _).mem hc))
                    · rw [if_neg h5] at h
                      injection h with h6
                      rw [← h6]
                      intro g hgm
                      obtain ⟨i, hi, rfl⟩ := List.mem_map.mp (dedupPass_mem _ _ hgm)
                      exact giftAt_mem _ _ (rerank_idx_lt gifts profile hg _ i hi)
          | null =>
            injection h with h2
            exact hfb r h2.symm hg
          | bool b =>
            injection h with h2
            exact hfb r h2.symm hg
          | num n =>
            injection h with h2
            exact hfb r h2.symm hg
          | str s =>
            injection h with h2
            exact hfb r h2.symm hg
          | obj m =>
            injection h with h2
            exact hfb r h2.symm hg

/-- Witness: pool membership checked on a concrete coverage-path run. -/
theorem C10_pool_membership_witness :
    mkG "d" "nd" "" "golf" ∈ gifts4 :=
  C10_pool_membership true gifts4 odm 2 none (.ok ("[0]".toList))
    [mkG "d" "nd" "" "golf", mkG "c" "nc" "" "wine"] (by decide)
    (mkG "d" "nd" "" "golf") (by decide)

/-- C8: profile authority — when the profile's likes are non-empty, the memo-coverage
enforcement is skipped entirely: the result of rerankGifts does not depend on the persona
memo fields at all (only the profile-driven pre-filter, the ranking and de-duplication act),
even on inputs where the coverage step would have changed the outcome. -/
theorem C8_profile_authority (gifts : List Gift) (topN : Nat) (profile : Option PrefProfile)
    (llm : Except Unit (List Char)) (od od2 : PersonaData)
    (hl : hasLikes profile = true) :
    rerankGifts true gifts od topN profile llm = rerankGifts true gifts od2 topN profile llm := by
  rw [rerankGifts, rerankGifts, if_neg (show ¬(¬true = true) from by simp),
    if_neg (show ¬(¬true = true) from by simp)]
  by_cases hg : gifts = []
  · rw [if_pos hg, if_pos hg]
  · rw [if_neg hg, if_neg hg]
    by_cases hlen : gifts.length ≤ topN
    · rw [if_pos hlen, if_pos hlen]
    · rw [if_neg hlen, if_neg hlen]
      cases llm with
      | error e => rfl
      | ok t =>
        simp only []
        cases hp : parseRerank t with
        | none => rfl
        | some v =>
          cases v with
          | arr l =>
            simp only []
            by_cases h1 : jlistToList l = []
            · rw [if_pos h1, if_pos h1]
            · rw [if_neg h1, if_neg h1]
              by_cases h2 : ((jlistToList l).filterMap
                  (coerceIdx (prefilterIdx gifts profile).length)).take topN = []
              · rw [if_pos h2, if_pos h2]
              · rw [if_neg h2, if_neg h2]
                by_cases h3 : dedupNats ((((jlistToList l).filterMap
                    (coerceIdx (prefilterIdx gifts profile).length)).take topN).map
                      (fun i => (prefilterIdx gifts profile).getD i 0)) = []
                · rw [if_pos h3, if_pos h3]
                · rw [if_neg h3, if_neg h3, if_pos hl, if_pos hl]
          | null => rfl
          | bool b => rfl
          | num n => rfl
          | str s => rfl
          | obj m => rfl

/-- Witness: profile authority on a concrete run where, without the profile, the coverage
step would have replaced the whole result. -/
theorem C8_profile_authority_witness :
    rerankGifts true gifts4 odm 2 (some prof1) (.ok ("[0]".toList)) =
      rerankGifts true gifts4 od0 2 (some prof1) (.ok ("[0]".toList)) ∧
    ¬ rerankGifts true gifts4 odm 2 none (.ok ("[0]".toList)) =
      rerankGifts true gifts4 odm 2 (some prof1) (.ok ("[0]".toList)) :=
  ⟨C8_profile_authority gifts4 2 (some prof1) (.ok ("[0]".toList)) odm od0 (by decide),
    by decide⟩

def giftR : Gift := mkG "a" "mug" "kitchen" ""

def odR : PersonaData := ⟨[], [], [], "birthday_gift".toList⟩

/-- C9 (counterexample): on an unparsable response with addMemo present, the fallback title is
the first underscore token of addMemo — not anything built from the candidate's category —
and the fallback description interpolates the gift name, not only the persona string. -/
theorem C9_counterexample :
    generateGiftRationale true giftR ("P".toList) odR (.ok ("junk".toList)) =
      .ok ⟨.str ("birthday".toList), .str ("P에 맞춰 mug을(를) 추천드립니다.".toList)⟩ ∧
    ¬ ("birthday".toList = giftR.category) ∧
    ¬ ("birthday".toList = "추천 선물".toList) := by
  refine ⟨by decide, by decide, by decide⟩

/-- C9 (amended): with the API key configured generateGiftRationale never throws: a backend
error returns exactly the outer fallback (category-based title, persona-only description),
and an unparsable response returns exactly the inner fallback, whose title prefers the first
underscore token of addMemo over the category and whose description also interpolates the gift
name.  Without the key the function throws before calling the backend. -/
theorem C9_total_fallback (g : Gift) (persona : List Char) (od : PersonaData)
    (llm : Except Unit (List Char)) :
    (∃ r, generateGiftRationale true g persona od llm = .ok r) ∧
    (generateGiftRationale true g persona od (.error ()) =
      .ok (rationaleFallbackOuter g persona)) ∧
    (∀ t, llm = .ok t → jparse (rationaleClean t) = none →
      generateGiftRationale true g persona od llm =
        .ok (rationaleFallbackInner g persona od)) := by
  refine ⟨?_, ?_, ?_⟩
  · rw [generateGiftRationale.eq_def, if_neg (by simp)]
    cases llm with
    | error e => exact ⟨_, rfl⟩
    | ok t =>
      cases hp : jparse (rationaleClean t) with
      | none => exact ⟨_, by simp only []; rw [hp]⟩
      | some v =>
        by_cases ht : (jsTruthy (objGet ("title".toList) v) &&
            jsTruthy (objGet ("description".toList) v)) = true
        · exact ⟨_, by simp only []; rw [hp]; simp only []; rw [if_pos ht]⟩
        · exact ⟨_, by simp only []; rw [hp]; simp only []; rw [if_neg ht]⟩
  · rw [generateGiftRationale.eq_def, if_neg (by simp)]
  · intro t ht hp
    subst ht
    rw [generateGiftRationale.eq_def, if_neg (by simp)]
    simp only []
    rw [hp]

/-- Witness: the inner fallback of the amended C9 at a concrete unparsable response. -/
theorem C9_total_fallback_witness :
    generateGiftRationale true giftR ("P".toList) odR (.ok ("junk".toList)) =
      .ok (rationaleFallbackInner giftR ("P".toList) odR) :=
  (C9_total_fallback giftR ("P".toList) odR (.ok ("junk".toList))).2.2 ("junk".toList) rfl
    (by decide)

